import Mathlib

/-!
Verification of the addressable priority-queue engine of
`keyed_priority_queue`: the binary max-heap backend
(`editable_binary_heap.rs`) and the weak-heap backend
(`editable_weak_heap.rs`), together with the shared entry type of
`heap_traits.rs`.

Each Rust function is embedded as a Lean function over `List` states.
`change_handler` closures are modeled by returning the list of
`(outer_pos, heap_index)` events in call order.  Checked indexing
(`data[i]`, always used in bounds by the source) is modeled with
`List.getD`.
-/

set_option maxHeartbeats 1000000

/-- `HeapEntry` of heap_traits.rs: an owner reference (`MediatorIndex`,
an opaque `usize`) paired with a priority. -/
structure HeapEntry (α : Type) where
  outer_pos : Nat
  priority : α
deriving DecidableEq, Repr

instance {α : Type} [Inhabited α] : Inhabited (HeapEntry α) :=
  ⟨⟨0, default⟩⟩

/-- A change-handler invocation: `(MediatorIndex, HeapIndex)`. -/
abbrev HeapEvent := Nat × Nat

section ListOps

variable {β : Type} [Inhabited β]

/-- `Vec::swap` (as used on in-bounds indices): exchange slots `i` and `j`. -/
def lswap (l : List β) (i j : Nat) : List β :=
  (l.set i (l.getD j default)).set j (l.getD i default)

/-- `Vec::swap_remove i` (used with `i + 1 < len`): move the last element
into slot `i` and drop the final slot. -/
def swapRemove (l : List β) (i : Nat) : List β :=
  (l.set i (l.getD (l.length - 1) default)).dropLast

@[simp]
theorem lswap_length (l : List β) (i j : Nat) : (lswap l i j).length = l.length := by
  simp [lswap]

theorem getD_set_self (l : List β) (i : Nat) (a : β) (h : i < l.length) :
    (l.set i a).getD i default = a := by
  simp [List.getD_eq_getElem?_getD, List.getElem?_set_self h]

theorem getD_set_ne (l : List β) {i j : Nat} (a : β) (h : i ≠ j) :
    (l.set i a).getD j default = l.getD j default := by
  simp [List.getD_eq_getElem?_getD, List.getElem?_set_ne h]

theorem set_getD_self (l : List β) (i : Nat) :
    l.set i (l.getD i default) = l := by
  apply List.ext_getElem?
  intro n
  by_cases hn : n = i
  · subst hn
    by_cases h : n < l.length
    · rw [List.getElem?_set_self h]
      simp [List.getD_eq_getElem?_getD, List.getElem?_eq_getElem h]
    · rw [List.set_eq_of_length_le (by omega)]
  · rw [List.getElem?_set_ne (Ne.symm hn)]

theorem lswap_getD (l : List β) (i j k : Nat) (hi : i < l.length) (hj : j < l.length) :
    (lswap l i j).getD k default =
      if k = j then l.getD i default
      else if k = i then l.getD j default
      else l.getD k default := by
  by_cases hkj : k = j
  · subst hkj
    rw [lswap, getD_set_self _ _ _ (by simpa using hj)]
    simp
  · by_cases hki : k = i
    · subst hki
      rw [lswap, getD_set_ne _ _ (Ne.symm hkj), getD_set_self _ _ _ hi]
      simp [hkj]
    · rw [lswap, getD_set_ne _ _ (Ne.symm hkj), getD_set_ne _ _ (Ne.symm hki)]
      simp [hkj, hki]

theorem getD_eq_getElem (l : List β) (i : Nat) (h : i < l.length) :
    l.getD i default = l[i] := by
  simp [List.getD_eq_getElem?_getD, List.getElem?_eq_getElem h]

theorem lswap_perm [DecidableEq β] (l : List β) (i j : Nat)
    (hi : i < l.length) (hj : j < l.length) : (lswap l i j).Perm l := by
  rcases eq_or_ne i j with rfl | hij
  · rw [lswap, List.set_set, set_getD_self]
  · rw [List.perm_iff_count]
    intro b
    have hj' : j < (l.set i l[j]).length := by simpa using hj
    rw [lswap, getD_eq_getElem _ _ hi, getD_eq_getElem _ _ hj,
      List.count_set _ _ _ _ hj', List.count_set _ _ _ _ hi,
      List.getElem_set_ne hij hj']
    have h1 : (if l[i] == b then 1 else 0) ≤ l.count b := by
      by_cases h : l[i] == b
      · simp only [h, if_true]
        have : b ∈ l := by
          have := List.getElem_mem hi
          rwa [beq_iff_eq.mp h] at this
        exact List.one_le_count_iff.mpr this
      · simp [h]
    have h2 : (if l[j] == b then 1 else 0) ≤ l.count b := by
      by_cases h : l[j] == b
      · simp only [h, if_true]
        have : b ∈ l := by
          have := List.getElem_mem hj
          rwa [beq_iff_eq.mp h] at this
        exact List.one_le_count_iff.mpr this
      · simp [h]
    omega

end ListOps

/-! ## Binary max-heap backend (`editable_binary_heap.rs`) -/

/-- `self.data[i]` (all such reads in the source are in bounds). -/
def getE {α : Type} [Inhabited α] (data : List (HeapEntry α)) (i : Nat) : HeapEntry α :=
  data.getD i default

namespace Bin

variable {α : Type} [LinearOrder α] [Inhabited α]

/-- The `max_child_idx` block of `BinaryHeap::heapify_down`: given that
`child1 = 2*position+1` is in bounds, pick `child2` exactly when it is in
bounds and `data[child1].priority <= data[child2].priority`. -/
def bin_max_child (data : List (HeapEntry α)) (position : Nat) : Nat :=
  if position * 2 + 2 < data.length ∧
      (getE data (position * 2 + 1)).priority ≤ (getE data (position * 2 + 2)).priority
  then position * 2 + 2
  else position * 2 + 1

theorem bin_max_child_gt (data : List (HeapEntry α)) (position : Nat) :
    position < bin_max_child data position := by
  unfold bin_max_child
  split <;> omega

theorem bin_max_child_lt (data : List (HeapEntry α)) (position : Nat)
    (h : position * 2 + 1 < data.length) : bin_max_child data position < data.length := by
  unfold bin_max_child
  split
  next h2 => exact h2.1
  next => exact h

/-- `BinaryHeap::heapify_up`; returns the new array and the ordered list of
`change_handler` calls. -/
def heapify_up (data : List (HeapEntry α)) (position : Nat) :
    List (HeapEntry α) × List HeapEvent :=
  if h : 0 < position then
    if (getE data ((position - 1) / 2)).priority ≥ (getE data position).priority then
      (data, [((getE data position).outer_pos, position)])
    else
      let data' := lswap data ((position - 1) / 2) position
      let rest := heapify_up data' ((position - 1) / 2)
      (rest.1, ((getE data' position).outer_pos, position) :: rest.2)
  else (data, [((getE data position).outer_pos, position)])
termination_by position
decreasing_by omega

/-- `BinaryHeap::heapify_down`; returns the new array and the ordered list of
`change_handler` calls. -/
def heapify_down (data : List (HeapEntry α)) (position : Nat) :
    List (HeapEntry α) × List HeapEvent :=
  if h1 : position * 2 + 1 < data.length then
    if (getE data position).priority ≥ (getE data (bin_max_child data position)).priority then
      (data, [((getE data position).outer_pos, position)])
    else
      let data' := lswap data position (bin_max_child data position)
      let rest := heapify_down data' (bin_max_child data position)
      (rest.1, ((getE data' position).outer_pos, position) :: rest.2)
  else (data, [((getE data position).outer_pos, position)])
termination_by data.length - position
decreasing_by
  simp only [lswap_length]
  have hgt := bin_max_child_gt data position
  have hlt := bin_max_child_lt data position h1
  omega

/-- The heapify start bound of `BinaryHeap::from_entries_vec`:
`min(heap_base.len() / 2 + 2, heap_base.len())`. -/
def heapify_start (n : Nat) : Nat := min (n / 2 + 2) n

/-- The `for pos in (0..heapify_start).rev()` loop of `from_entries_vec`:
heapify-down positions `k-1, k-2, ..., 0` (the no-op change handler of the
bulk path is dropped). -/
def buildLoop (data : List (HeapEntry α)) : Nat → List (HeapEntry α)
  | 0 => data
  | pos + 1 => buildLoop (heapify_down data pos).1 pos

/-- `BinaryHeap::from_entries_vec`. -/
def from_entries_vec (heap_base : List (HeapEntry α)) : List (HeapEntry α) :=
  buildLoop heap_base (heapify_start heap_base.length)

/-- `BinaryHeap::push`. -/
def push (data : List (HeapEntry α)) (outer_pos : Nat) (priority : α) :
    List (HeapEntry α) × List HeapEvent :=
  let data' := data ++ [⟨outer_pos, priority⟩]
  heapify_up data' (data'.length - 1)

/-- `BinaryHeap::remove`; returns the new array, the handler calls, and the
evicted `(MediatorIndex, priority)` pair. -/
def remove (data : List (HeapEntry α)) (position : Nat) :
    List (HeapEntry α) × List HeapEvent × Option (Nat × α) :=
  if position ≥ data.length then (data, [], none)
  else if position + 1 = data.length then
    (data.dropLast, [], some ((getE data position).outer_pos, (getE data position).priority))
  else
    let result := getE data position
    let data' := swapRemove data position
    let rest := heapify_down data' position
    (rest.1, rest.2, some (result.outer_pos, result.priority))

/-- `BinaryHeap::change_priority`; returns the new array, the handler calls,
and the old priority. -/
def change_priority (data : List (HeapEntry α)) (position : Nat) (updated : α) :
    List (HeapEntry α) × List HeapEvent × α :=
  let old := (getE data position).priority
  let data' := data.set position ⟨(getE data position).outer_pos, updated⟩
  if old < updated then
    let rest := heapify_up data' position
    (rest.1, rest.2, old)
  else if updated < old then
    let rest := heapify_down data' position
    (rest.1, rest.2, old)
  else (data', [], old)

/-- `BinaryHeap::change_outer_pos`; returns the new array and the old owner. -/
def change_outer_pos (data : List (HeapEntry α)) (outer_pos position : Nat) :
    List (HeapEntry α) × Nat :=
  let old := (getE data position).outer_pos
  (data.set position ⟨outer_pos, (getE data position).priority⟩, old)

/-- `BinaryHeap::most_prioritized_idx`. -/
def most_prioritized_idx (data : List (HeapEntry α)) : Option (Nat × Nat) :=
  data[0]?.map fun x => (x.outer_pos, 0)

/-- `BinaryHeap::clear`. -/
def clear (_data : List (HeapEntry α)) : List (HeapEntry α) := []

/-- The binary-heap invariant (`is_valid_heap` of the source's tests):
every non-root slot is dominated by its parent `(i-1)/2`. -/
def BInv (data : List (HeapEntry α)) : Prop :=
  ∀ i, 0 < i → i < data.length →
    (getE data ((i - 1) / 2)).priority ≥ (getE data i).priority

/-- Executable version of `BInv`. -/
def is_valid_heap (data : List (HeapEntry α)) : Bool :=
  (List.range data.length).all fun i =>
    i == 0 || decide ((getE data ((i - 1) / 2)).priority ≥ (getE data i).priority)

theorem is_valid_heap_iff (data : List (HeapEntry α)) :
    is_valid_heap data = true ↔ BInv data := by
  unfold is_valid_heap BInv
  rw [List.all_eq_true]
  constructor
  · intro h i h0 hi
    have := h i (List.mem_range.mpr hi)
    simpa [Nat.pos_iff_ne_zero.mp h0] using this
  · intro h i hi
    rcases Nat.eq_zero_or_pos i with rfl | h0
    · simp
    · simpa [Nat.pos_iff_ne_zero.mp h0] using h i h0 (List.mem_range.mp hi)

end Bin

/-! ## Weak-heap backend (`editable_weak_heap.rs`) -/

namespace Weak

/-- The weak-heap state: the parallel `SiblingSide` table (`true` models
`SiblingSide::Right`, `false` models `Left`, the `Default`) and the entries. -/
structure WState (α : Type) where
  sides : List Bool
  data : List (HeapEntry α)
deriving DecidableEq, Repr

variable {α : Type} [LinearOrder α] [Inhabited α]

/-- `WeakHeap::distinguished_ancestor`: walk up binary parents while the node
is a sibling, return the parent once the node is the direct child. -/
def distinguished_ancestor (sides : List Bool) (position : Nat) : Nat :=
  if h : 0 < position then
    if (position % 2 == 0) == sides.getD (position / 2) false then position / 2
    else distinguished_ancestor sides (position / 2)
  else 0
termination_by position
decreasing_by omega

@[simp]
theorem da_zero (sides : List Bool) : distinguished_ancestor sides 0 = 0 := by
  unfold distinguished_ancestor
  simp

theorem da_lt (sides : List Bool) (position : Nat) (h0 : 0 < position) :
    distinguished_ancestor sides position < position := by
  induction position using Nat.strong_induction_on with
  | _ position ih =>
    unfold distinguished_ancestor
    rw [dif_pos h0]
    split
    · omega
    · rcases Nat.eq_zero_or_pos (position / 2) with hz | hp
      · rw [hz, da_zero]
        omega
      · exact lt_trans (ih _ (by omega) hp) (by omega)

/-- `WeakHeap::next_sibling`. -/
def next_sibling (sides : List Bool) (position : Nat) : Nat :=
  position * 2 + (if sides.getD position false then 1 else 0)

/-- `WeakHeap::first_child`. -/
def first_child (sides : List Bool) (position : Nat) : Nat :=
  position * 2 + (if sides.getD position false then 0 else 1)

/-- `WeakHeap::heapify_up`. -/
def heapify_up (s : WState α) (position : Nat) : WState α × List HeapEvent :=
  if h : 0 < position then
    if (getE s.data (distinguished_ancestor s.sides position)).priority ≥
        (getE s.data position).priority then
      (s, [((getE s.data position).outer_pos, position)])
    else
      let data' := lswap s.data (distinguished_ancestor s.sides position) position
      let sides' := s.sides.set position (!(s.sides.getD position false))
      let rest := heapify_up ⟨sides', data'⟩ (distinguished_ancestor s.sides position)
      (rest.1, ((getE data' position).outer_pos, position) :: rest.2)
  else (s, [((getE s.data position).outer_pos, position)])
termination_by position
decreasing_by exact da_lt _ _ h

/-- The `max_child_idx` search loop of `WeakHeap::heapify_down`: follow
`next_sibling` from the first child while in bounds.  The source's `loop`
has no explicit bound; the chain is strictly increasing whenever it starts
above 0, so `data.len()` steps of fuel always suffice. -/
def descend (sides : List Bool) (n current : Nat) : Nat → Nat
  | 0 => current
  | fuel + 1 =>
    if next_sibling sides current ≥ n then current
    else descend sides n (next_sibling sides current) fuel

/-- The `while current_child_idx.0 > position` loop of
`WeakHeap::heapify_down`. -/
def walkUp (s : WState α) (position current : Nat) : WState α × List HeapEvent :=
  if h : position < current then
    if (getE s.data position).priority < (getE s.data current).priority then
      let data' := lswap s.data current position
      let sides' := s.sides.set current (!(s.sides.getD current false))
      let rest := walkUp ⟨sides', data'⟩ position (current / 2)
      (rest.1, ((getE data' current).outer_pos, current) :: rest.2)
    else walkUp s position (current / 2)
  else (s, [((getE s.data position).outer_pos, position)])
termination_by current
decreasing_by all_goals omega

/-- `WeakHeap::heapify_down`. -/
def heapify_down (s : WState α) (position : Nat) : WState α × List HeapEvent :=
  if first_child s.sides position < s.data.length then
    walkUp s position
      (descend s.sides s.data.length (first_child s.sides position) s.data.length)
  else (s, [((getE s.data position).outer_pos, position)])

/-- The `ignorant_distinguished_ancestor` closure of
`WeakHeap::from_entries_vec` (side bits not consulted: parity only). -/
def ignorant_distinguished_ancestor (position : Nat) : Nat :=
  if h : 0 < position then
    if position % 2 ≠ 0 then position / 2
    else ignorant_distinguished_ancestor (position / 2)
  else 0
termination_by position
decreasing_by omega

/-- One iteration of the build loop of `WeakHeap::from_entries_vec`. -/
def buildStep (s : WState α) (pos : Nat) : WState α :=
  if (getE s.data (ignorant_distinguished_ancestor pos)).priority <
      (getE s.data pos).priority then
    ⟨s.sides.set pos (!(s.sides.getD pos false)),
      lswap s.data (ignorant_distinguished_ancestor pos) pos⟩
  else s

/-- The `for pos in (1..heap_len).rev()` loop: process `k, k-1, ..., 1`. -/
def buildLoop (s : WState α) : Nat → WState α
  | 0 => s
  | pos + 1 => buildLoop (buildStep s (pos + 1)) pos

/-- `WeakHeap::from_entries_vec`. -/
def from_entries_vec (heap_base : List (HeapEntry α)) : WState α :=
  buildLoop ⟨List.replicate heap_base.length false, heap_base⟩ (heap_base.length - 1)

/-- `WeakHeap::push`. -/
def push (s : WState α) (outer_pos : Nat) (priority : α) : WState α × List HeapEvent :=
  let new_index := s.data.length
  let data' := s.data ++ [⟨outer_pos, priority⟩]
  let sides' := s.sides ++ [false]
  let sides'' := if new_index % 2 = 0 then sides'.set (new_index / 2) false else sides'
  heapify_up ⟨sides'', data'⟩ new_index

/-- `WeakHeap::remove`. -/
def remove (s : WState α) (position : Nat) : WState α × List HeapEvent × Option (Nat × α) :=
  if position ≥ s.data.length then (s, [], none)
  else if position + 1 = s.data.length then
    (⟨s.sides.dropLast, s.data.dropLast⟩, [],
      some ((getE s.data position).outer_pos, (getE s.data position).priority))
  else
    let result := getE s.data position
    let rest := heapify_down ⟨s.sides.dropLast, swapRemove s.data position⟩ position
    (rest.1, rest.2, some (result.outer_pos, result.priority))

/-- `WeakHeap::change_priority`. -/
def change_priority (s : WState α) (position : Nat) (updated : α) :
    WState α × List HeapEvent × α :=
  let old := (getE s.data position).priority
  let s' : WState α :=
    ⟨s.sides, s.data.set position ⟨(getE s.data position).outer_pos, updated⟩⟩
  if old < updated then
    let rest := heapify_up s' position
    (rest.1, rest.2, old)
  else if updated < old then
    let rest := heapify_down s' position
    (rest.1, rest.2, old)
  else (s', [], old)

/-- `WeakHeap::change_outer_pos`. -/
def change_outer_pos (s : WState α) (outer_pos position : Nat) : WState α × Nat :=
  let old := (getE s.data position).outer_pos
  (⟨s.sides, s.data.set position ⟨outer_pos, (getE s.data position).priority⟩⟩, old)

/-- `WeakHeap::most_prioritized_idx`. -/
def most_prioritized_idx (s : WState α) : Option (Nat × Nat) :=
  s.data[0]?.map fun x => (x.outer_pos, 0)

/-- `WeakHeap::clear`. -/
def clear (_s : WState α) : WState α := ⟨[], []⟩

/-- The weak-heap invariant: every non-root node is dominated by its
distinguished ancestor. -/
def WInv (s : WState α) : Prop :=
  ∀ i, 0 < i → i < s.data.length →
    (getE s.data (distinguished_ancestor s.sides i)).priority ≥ (getE s.data i).priority

/-- Executable version of `WInv`. -/
def is_valid_wheap (s : WState α) : Bool :=
  (List.range s.data.length).all fun i =>
    i == 0 ||
      decide ((getE s.data (distinguished_ancestor s.sides i)).priority ≥
        (getE s.data i).priority)

theorem is_valid_wheap_iff (s : WState α) : is_valid_wheap s = true ↔ WInv s := by
  unfold is_valid_wheap WInv
  rw [List.all_eq_true]
  constructor
  · intro h i h0 hi
    have := h i (List.mem_range.mpr hi)
    simpa [Nat.pos_iff_ne_zero.mp h0] using this
  · intro h i hi
    rcases Nat.eq_zero_or_pos i with rfl | h0
    · simp
    · simpa [Nat.pos_iff_ne_zero.mp h0] using h i h0 (List.mem_range.mp hi)

end Weak

/-! ## Binary heap: structural lemmas -/

namespace Bin

variable {α : Type} [LinearOrder α] [Inhabited α]

theorem heapify_up_zero (data : List (HeapEntry α)) :
    heapify_up data 0 = (data, [((getE data 0).outer_pos, 0)]) := by
  unfold heapify_up
  simp [getE]

theorem heapify_up_halt (data : List (HeapEntry α)) (position : Nat) (h : 0 < position)
    (hc : (getE data ((position - 1) / 2)).priority ≥ (getE data position).priority) :
    heapify_up data position = (data, [((getE data position).outer_pos, position)]) := by
  unfold heapify_up
  rw [dif_pos h, if_pos (by exact hc)]

theorem heapify_up_step (data : List (HeapEntry α)) (position : Nat) (h : 0 < position)
    (hc : ¬ (getE data ((position - 1) / 2)).priority ≥ (getE data position).priority) :
    heapify_up data position =
      ((heapify_up (lswap data ((position - 1) / 2) position) ((position - 1) / 2)).1,
        ((getE (lswap data ((position - 1) / 2) position) position).outer_pos, position)
          :: (heapify_up (lswap data ((position - 1) / 2) position) ((position - 1) / 2)).2) := by
  conv_lhs => unfold heapify_up
  rw [dif_pos h, if_neg (by exact hc)]

theorem heapify_up_len (data : List (HeapEntry α)) (position : Nat) :
    (heapify_up data position).1.length = data.length := by
  induction position using Nat.strong_induction_on generalizing data with
  | _ position ih =>
    rcases Nat.eq_zero_or_pos position with rfl | h
    · rw [heapify_up_zero]
    · by_cases hc : (getE data ((position - 1) / 2)).priority ≥ (getE data position).priority
      · rw [heapify_up_halt data position h hc]
      · rw [heapify_up_step data position h hc]
        rw [ih _ (by omega)]
        simp

theorem heapify_up_perm (data : List (HeapEntry α)) (position : Nat)
    (hq : position < data.length) : (heapify_up data position).1.Perm data := by
  induction position using Nat.strong_induction_on generalizing data with
  | _ position ih =>
    rcases Nat.eq_zero_or_pos position with rfl | h
    · rw [heapify_up_zero]
    · by_cases hc : (getE data ((position - 1) / 2)).priority ≥ (getE data position).priority
      · rw [heapify_up_halt data position h hc]
      · rw [heapify_up_step data position h hc]
        refine List.Perm.trans (ih _ (by omega) _ ?_) (lswap_perm data _ _ (by omega) hq)
        simpa using (by omega : (position - 1) / 2 < data.length)

theorem heapify_up_events_ne_nil (data : List (HeapEntry α)) (position : Nat) :
    (heapify_up data position).2 ≠ [] := by
  induction position using Nat.strong_induction_on generalizing data with
  | _ position ih =>
    rcases Nat.eq_zero_or_pos position with rfl | h
    · rw [heapify_up_zero]
      simp
    · by_cases hc : (getE data ((position - 1) / 2)).priority ≥ (getE data position).priority
      · rw [heapify_up_halt data position h hc]
        simp
      · rw [heapify_up_step data position h hc]
        simp

end Bin

namespace Bin

variable {α : Type} [LinearOrder α] [Inhabited α]

/-- Sift-up master lemma: if every slot except `q` satisfies the parent
relation and the grandparent of `q` already dominates `q`'s children, then
sifting up from `q` restores the full invariant. -/
theorem heapify_up_inv (q : Nat) : ∀ (data : List (HeapEntry α)),
    q < data.length →
    (∀ i, 0 < i → i < data.length → i ≠ q →
      (getE data ((i - 1) / 2)).priority ≥ (getE data i).priority) →
    (0 < q → ∀ c, c < data.length → (c - 1) / 2 = q →
      (getE data ((q - 1) / 2)).priority ≥ (getE data c).priority) →
    BInv (heapify_up data q).1 := by
  induction q using Nat.strong_induction_on with
  | _ q ih =>
    intro data hq hi hH
    rcases Nat.eq_zero_or_pos q with rfl | h
    · rw [heapify_up_zero]
      intro i h0 hlen
      exact hi i h0 hlen (by omega)
    · by_cases hc : (getE data ((q - 1) / 2)).priority ≥ (getE data q).priority
      · rw [heapify_up_halt data q h hc]
        intro i h0 hlen
        by_cases hiq : i = q
        · subst hiq
          exact hc
        · exact hi i h0 hlen hiq
      · rw [heapify_up_step data q h hc]
        have haq : (q - 1) / 2 < q := by omega
        have han : (q - 1) / 2 < data.length := by omega
        have hget : ∀ k, getE (lswap data ((q - 1) / 2) q) k =
            if k = q then getE data ((q - 1) / 2)
            else if k = (q - 1) / 2 then getE data q else getE data k := by
          intro k
          simp only [getE]
          exact lswap_getD data ((q - 1) / 2) q k han hq
        push_neg at hc
        refine ih _ haq (lswap data ((q - 1) / 2) q) (by simpa using han) ?_ ?_
        · intro i h0 hlen hia
          rw [hget, hget]
          have hlen' : i < data.length := by simpa using hlen
          by_cases hiq : i = q
          · rw [hiq]
            rw [if_neg (by omega : ¬ (q - 1) / 2 = q), if_pos rfl, if_pos rfl]
            exact le_of_lt hc
          · rw [if_neg hiq, if_neg hia]
            by_cases hpq : (i - 1) / 2 = q
            · rw [if_pos hpq]
              exact hH h i hlen' hpq
            · rw [if_neg hpq]
              by_cases hpa : (i - 1) / 2 = (q - 1) / 2
              · rw [if_pos hpa]
                have h1 := hi i h0 hlen' hiq
                rw [hpa] at h1
                exact le_trans h1 (le_of_lt hc)
              · rw [if_neg hpa]
                exact hi i h0 hlen' hiq
        · intro ha0 c hcn hcp
          rw [hget, hget]
          have hcn' : c < data.length := by simpa using hcn
          rw [if_neg (by omega : ¬ ((q - 1) / 2 - 1) / 2 = q),
            if_neg (by omega : ¬ ((q - 1) / 2 - 1) / 2 = (q - 1) / 2)]
          by_cases hcq : c = q
          · rw [hcq, if_pos rfl]
            exact hi _ ha0 han (by omega)
          · rw [if_neg hcq, if_neg (by omega : ¬ c = (q - 1) / 2)]
            have h1 := hi c (by omega) hcn' hcq
            rw [hcp] at h1
            exact le_trans h1 (hi _ ha0 han (by omega))

end Bin

namespace Bin

variable {α : Type} [LinearOrder α] [Inhabited α]

theorem heapify_down_leaf (data : List (HeapEntry α)) (position : Nat)
    (h1 : ¬ position * 2 + 1 < data.length) :
    heapify_down data position = (data, [((getE data position).outer_pos, position)]) := by
  unfold heapify_down
  rw [dif_neg h1]

theorem heapify_down_halt (data : List (HeapEntry α)) (position : Nat)
    (h1 : position * 2 + 1 < data.length)
    (hc : (getE data position).priority ≥ (getE data (bin_max_child data position)).priority) :
    heapify_down data position = (data, [((getE data position).outer_pos, position)]) := by
  unfold heapify_down
  rw [dif_pos h1, if_pos (by exact hc)]

theorem heapify_down_step (data : List (HeapEntry α)) (position : Nat)
    (h1 : position * 2 + 1 < data.length)
    (hc : ¬ (getE data position).priority ≥ (getE data (bin_max_child data position)).priority) :
    heapify_down data position =
      ((heapify_down (lswap data position (bin_max_child data position))
          (bin_max_child data position)).1,
        ((getE (lswap data position (bin_max_child data position)) position).outer_pos, position)
          :: (heapify_down (lswap data position (bin_max_child data position))
              (bin_max_child data position)).2) := by
  conv_lhs => unfold heapify_down
  rw [dif_pos h1, if_neg (by exact hc)]

theorem bin_max_child_parent (data : List (HeapEntry α)) (position : Nat) :
    (bin_max_child data position - 1) / 2 = position := by
  unfold bin_max_child
  split <;> omega

theorem bin_max_child_max (data : List (HeapEntry α)) (position : Nat)
    (h1 : position * 2 + 1 < data.length) :
    ∀ c, c < data.length → (c - 1) / 2 = position → 0 < c →
      (getE data c).priority ≤ (getE data (bin_max_child data position)).priority := by
  intro c hcn hcp hc0
  have hc12 : c = position * 2 + 1 ∨ c = position * 2 + 2 := by omega
  unfold bin_max_child
  split
  next h2 =>
    rcases hc12 with rfl | rfl
    · exact h2.2
    · exact le_refl _
  next h2 =>
    rcases hc12 with rfl | rfl
    · exact le_refl _
    · rcases not_and_or.mp h2 with h3 | h3
      · omega
      · exact le_of_not_le h3

theorem heapify_down_len_aux (k : Nat) : ∀ (data : List (HeapEntry α)) (position : Nat),
    data.length - position ≤ k → (heapify_down data position).1.length = data.length := by
  induction k with
  | zero =>
    intro data position hk
    rw [heapify_down_leaf data position (by omega)]
  | succ k ih =>
    intro data position hk
    by_cases h1 : position * 2 + 1 < data.length
    · by_cases hc : (getE data position).priority ≥
          (getE data (bin_max_child data position)).priority
      · rw [heapify_down_halt data position h1 hc]
      · rw [heapify_down_step data position h1 hc]
        have hgt := bin_max_child_gt data position
        have hlt := bin_max_child_lt data position h1
        rw [ih _ _ (by simp; omega)]
        simp
    · rw [heapify_down_leaf data position h1]

theorem heapify_down_len (data : List (HeapEntry α)) (position : Nat) :
    (heapify_down data position).1.length = data.length :=
  heapify_down_len_aux _ data position le_rfl

theorem heapify_down_perm_aux (k : Nat) : ∀ (data : List (HeapEntry α)) (position : Nat),
    data.length - position ≤ k → (heapify_down data position).1.Perm data := by
  induction k with
  | zero =>
    intro data position hk
    rw [heapify_down_leaf data position (by omega)]
  | succ k ih =>
    intro data position hk
    by_cases h1 : position * 2 + 1 < data.length
    · by_cases hc : (getE data position).priority ≥
          (getE data (bin_max_child data position)).priority
      · rw [heapify_down_halt data position h1 hc]
      · rw [heapify_down_step data position h1 hc]
        have hgt := bin_max_child_gt data position
        have hlt := bin_max_child_lt data position h1
        exact List.Perm.trans (ih _ _ (by simp; omega))
          (lswap_perm data _ _ (by omega) hlt)
    · rw [heapify_down_leaf data position h1]

theorem heapify_down_perm (data : List (HeapEntry α)) (position : Nat) :
    (heapify_down data position).1.Perm data :=
  heapify_down_perm_aux _ data position le_rfl

end Bin

/-- `i` lies in the binary subtree rooted at `p` (parents via `(i-1)/2`). -/
def isDesc (p : Nat) (i : Nat) : Bool :=
  if i ≤ p then i == p else isDesc p ((i - 1) / 2)
termination_by i
decreasing_by omega

theorem isDesc_self (p : Nat) : isDesc p p = true := by
  unfold isDesc
  simp

theorem isDesc_ge {p i : Nat} (h : isDesc p i = true) : p ≤ i := by
  induction i using Nat.strong_induction_on with
  | _ i ih =>
    unfold isDesc at h
    split at h
    · simp at h
      omega
    · next hle => omega

theorem isDesc_of_parent {p i j : Nat} (h : isDesc p i = true) (hj : (j - 1) / 2 = i)
    (hj0 : 0 < j) : isDesc p j = true := by
  have hpi := isDesc_ge h
  have : ¬ j ≤ p := by omega
  unfold isDesc
  rw [if_neg this, hj]
  exact h

theorem isDesc_trans {q m j : Nat} (h1 : isDesc q m = true) (h2 : isDesc m j = true) :
    isDesc q j = true := by
  induction j using Nat.strong_induction_on with
  | _ j ih =>
    unfold isDesc at h2
    split at h2
    · simp at h2
      subst h2
      exact h1
    · next hle =>
      have := ih _ (by omega) h2
      have hqm := isDesc_ge h1
      have hmj := isDesc_ge h2
      unfold isDesc
      rw [if_neg (by omega)]
      exact this

theorem isDesc_false_of_lt {p j : Nat} (h : j < p) : isDesc p j = false := by
  unfold isDesc
  rw [if_pos (by omega)]
  simp
  omega

namespace Bin

variable {α : Type} [LinearOrder α] [Inhabited α]

/-- Sift-down master lemma.  `p` is the root of the region being repaired and
`q` the current position (a descendant of `p`).  If every parent relation
with parent `≥ p` holds except possibly at `q`'s children, and `q`'s own
children are already dominated by `q`'s parent (when `q ≠ p`), then after the
sift every parent relation with parent `≥ p` holds, and slots outside the
subtree of `q` are untouched. -/
theorem heapify_down_inv (p : Nat) (k : Nat) : ∀ (data : List (HeapEntry α)) (q : Nat),
    data.length - q ≤ k →
    p ≤ q → isDesc p q = true →
    (∀ i, 0 < i → i < data.length → p ≤ (i - 1) / 2 → (i - 1) / 2 ≠ q →
      (getE data ((i - 1) / 2)).priority ≥ (getE data i).priority) →
    (q ≠ p → ∀ c, c < data.length → (c - 1) / 2 = q →
      (getE data ((q - 1) / 2)).priority ≥ (getE data c).priority) →
    ((∀ i, 0 < i → i < data.length → p ≤ (i - 1) / 2 →
      (getE (heapify_down data q).1 ((i - 1) / 2)).priority ≥
        (getE (heapify_down data q).1 i).priority) ∧
     (∀ j, isDesc q j = false → getE (heapify_down data q).1 j = getE data j)) := by
  induction k with
  | zero =>
    intro data q hk hpq hdesc hi hiii
    rw [heapify_down_leaf data q (by omega)]
    refine ⟨?_, fun j _ => rfl⟩
    intro i h0 hlen hp
    exact hi i h0 hlen hp (by omega)
  | succ k ih =>
    intro data q hk hpq hdesc hi hiii
    by_cases h1 : q * 2 + 1 < data.length
    · by_cases hc : (getE data q).priority ≥ (getE data (bin_max_child data q)).priority
      · rw [heapify_down_halt data q h1 hc]
        refine ⟨?_, fun j _ => rfl⟩
        intro i h0 hlen hp
        by_cases hpq2 : (i - 1) / 2 = q
        · rw [hpq2]
          exact le_trans (bin_max_child_max data q h1 i hlen hpq2 h0) hc
        · exact hi i h0 hlen hp hpq2
      · rw [heapify_down_step data q h1 hc]
        have hgt := bin_max_child_gt data q
        have hlt := bin_max_child_lt data q h1
        have hqn : q < data.length := by omega
        have hmp : (bin_max_child data q - 1) / 2 = q := bin_max_child_parent data q
        have hget : ∀ x, getE (lswap data q (bin_max_child data q)) x =
            if x = bin_max_child data q then getE data q
            else if x = q then getE data (bin_max_child data q) else getE data x := by
          intro x
          simp only [getE]
          exact lswap_getD data q (bin_max_child data q) x hqn hlt
        push_neg at hc
        have hA : ∀ i, 0 < i → i < (lswap data q (bin_max_child data q)).length →
            p ≤ (i - 1) / 2 → (i - 1) / 2 ≠ bin_max_child data q →
            (getE (lswap data q (bin_max_child data q)) ((i - 1) / 2)).priority ≥
              (getE (lswap data q (bin_max_child data q)) i).priority := by
          intro i h0 hlen hp hne
          rw [hget, hget]
          have hlen' : i < data.length := by simpa using hlen
          by_cases hiq : i = q
          · rw [hiq]
            have hq0 : 0 < q := by omega
            rw [if_neg (by omega : ¬ (q - 1) / 2 = bin_max_child data q),
              if_neg (by omega : ¬ (q - 1) / 2 = q),
              if_neg (by omega : ¬ q = bin_max_child data q), if_pos rfl]
            have hqp : q ≠ p := by
              rw [hiq] at hp
              omega
            exact hiii hqp (bin_max_child data q) hlt hmp
          · by_cases him : i = bin_max_child data q
            · rw [him, if_pos rfl, hmp,
                if_neg (by omega : ¬ q = bin_max_child data q), if_pos rfl]
              exact le_of_lt hc
            · rw [if_neg him, if_neg hiq]
              by_cases hpq2 : (i - 1) / 2 = q
              · rw [if_neg (by omega : ¬ (i - 1) / 2 = bin_max_child data q), if_pos hpq2]
                exact bin_max_child_max data q h1 i hlen' hpq2 h0
              · rw [if_neg hne, if_neg hpq2]
                exact hi i h0 hlen' hp hpq2
        have hB : bin_max_child data q ≠ p →
            ∀ c, c < (lswap data q (bin_max_child data q)).length →
            (c - 1) / 2 = bin_max_child data q →
            (getE (lswap data q (bin_max_child data q)) ((bin_max_child data q - 1) / 2)).priority ≥
              (getE (lswap data q (bin_max_child data q)) c).priority := by
          intro _ c hcn hcp
          have hcn' : c < data.length := by simpa using hcn
          have hcm : bin_max_child data q < c := by omega
          rw [hget, hget, hmp, if_neg (by omega : ¬ q = bin_max_child data q), if_pos rfl,
            if_neg (by omega : ¬ c = bin_max_child data q), if_neg (by omega : ¬ c = q)]
          have h2 := hi c (by omega) hcn' (by omega) (by omega)
          rw [hcp] at h2
          exact h2
        obtain ⟨post1, post2⟩ := ih (lswap data q (bin_max_child data q))
          (bin_max_child data q) (by simp; omega) (by omega)
          (isDesc_of_parent hdesc hmp (by omega)) hA hB
        refine ⟨by simpa using post1, ?_⟩
        intro j hj
        have hjq : j ≠ q := by
          intro hh
          rw [hh, isDesc_self] at hj
          exact absurd hj (by simp)
        have hdqm : isDesc q (bin_max_child data q) = true :=
          isDesc_of_parent (isDesc_self q) hmp (by omega)
        have hjm : j ≠ bin_max_child data q := by
          intro hh
          rw [hh, hdqm] at hj
          exact absurd hj (by simp)
        have hjm2 : isDesc (bin_max_child data q) j = false := by
          rcases Bool.eq_false_or_eq_true (isDesc (bin_max_child data q) j) with hh | hh
          · exact absurd (isDesc_trans hdqm hh) (by rw [hj]; simp)
          · exact hh
        rw [post2 j hjm2, hget, if_neg hjm, if_neg hjq]
    · rw [heapify_down_leaf data q h1]
      refine ⟨?_, fun j _ => rfl⟩
      intro i h0 hlen hp
      by_cases hpq2 : (i - 1) / 2 = q
      · omega
      · exact hi i h0 hlen hp hpq2

end Bin

section ListOps2

variable {β : Type} [Inhabited β]

@[simp]
theorem swapRemove_len (l : List β) (i : Nat) :
    (swapRemove l i).length = l.length - 1 := by
  simp [swapRemove]

theorem getD_dropLast (l : List β) (k : Nat) (h : k < l.length - 1) :
    l.dropLast.getD k default = l.getD k default := by
  rw [List.getD_eq_getElem?_getD, List.getD_eq_getElem?_getD, List.getElem?_dropLast,
    if_pos (by simpa using h)]

theorem swapRemove_getD (l : List β) (i k : Nat) (hi : i < l.length)
    (hk : k < l.length - 1) :
    (swapRemove l i).getD k default =
      if k = i then l.getD (l.length - 1) default else l.getD k default := by
  rw [swapRemove, getD_dropLast _ _ (by simpa using hk)]
  by_cases hki : k = i
  · rw [hki, getD_set_self _ _ _ hi]
    simp
  · rw [getD_set_ne _ _ (fun hh => hki hh.symm), if_neg hki]

theorem getD_append_lt (l l2 : List β) (k : Nat) (h : k < l.length) :
    (l ++ l2).getD k default = l.getD k default := by
  rw [List.getD_eq_getElem?_getD, List.getD_eq_getElem?_getD,
    List.getElem?_append_left h]

theorem getD_append_len (l : List β) (b : β) :
    (l ++ [b]).getD l.length default = b := by
  rw [List.getD_eq_getElem?_getD]
  rw [List.getElem?_append_right (le_refl _)]
  simp

end ListOps2

namespace Bin

variable {α : Type} [LinearOrder α] [Inhabited α]

theorem getE_set (data : List (HeapEntry α)) (p : Nat) (e : HeapEntry α) (x : Nat)
    (hp : p < data.length) :
    getE (data.set p e) x = if x = p then e else getE data x := by
  by_cases hxp : x = p
  · rw [hxp, if_pos rfl]
    exact getD_set_self _ _ _ hp
  · rw [if_neg hxp]
    exact getD_set_ne _ _ (fun hh => hxp hh.symm)

/-- `heapify_down` never changes a slot outside the subtree of its argument. -/
theorem heapify_down_frame_aux (k : Nat) : ∀ (data : List (HeapEntry α)) (q : Nat),
    data.length - q ≤ k →
    ∀ j, isDesc q j = false → getE (heapify_down data q).1 j = getE data j := by
  induction k with
  | zero =>
    intro data q hk j hj
    rw [heapify_down_leaf data q (by omega)]
  | succ k ih =>
    intro data q hk j hj
    by_cases h1 : q * 2 + 1 < data.length
    · by_cases hc : (getE data q).priority ≥ (getE data (bin_max_child data q)).priority
      · rw [heapify_down_halt data q h1 hc]
      · rw [heapify_down_step data q h1 hc]
        have hgt := bin_max_child_gt data q
        have hlt := bin_max_child_lt data q h1
        have hmp := bin_max_child_parent data q
        have hjq : j ≠ q := by
          intro hh
          rw [hh, isDesc_self] at hj
          exact absurd hj (by simp)
        have hdqm : isDesc q (bin_max_child data q) = true :=
          isDesc_of_parent (isDesc_self q) hmp (by omega)
        have hjm : j ≠ bin_max_child data q := by
          intro hh
          rw [hh, hdqm] at hj
          exact absurd hj (by simp)
        have hjm2 : isDesc (bin_max_child data q) j = false := by
          rcases Bool.eq_false_or_eq_true (isDesc (bin_max_child data q) j) with hh | hh
          · exact absurd (isDesc_trans hdqm hh) (by rw [hj]; simp)
          · exact hh
        rw [ih _ _ (by simp; omega) j hjm2]
        simp only [getE]
        rw [lswap_getD data q (bin_max_child data q) j (by omega) hlt,
          if_neg hjm, if_neg hjq]
    · rw [heapify_down_leaf data q h1]

theorem heapify_down_frame (data : List (HeapEntry α)) (q : Nat) :
    ∀ j, isDesc q j = false → getE (heapify_down data q).1 j = getE data j :=
  heapify_down_frame_aux _ data q le_rfl

/-- The value that settles at the sift-down start is the old value there or
one of its children's values. -/
theorem heapify_down_slot (data : List (HeapEntry α)) (q : Nat) :
    getE (heapify_down data q).1 q = getE data q ∨
      ∃ c, c < data.length ∧ (c - 1) / 2 = q ∧ 0 < c ∧
        getE (heapify_down data q).1 q = getE data c := by
  by_cases h1 : q * 2 + 1 < data.length
  · by_cases hc : (getE data q).priority ≥ (getE data (bin_max_child data q)).priority
    · rw [heapify_down_halt data q h1 hc]
      exact Or.inl rfl
    · rw [heapify_down_step data q h1 hc]
      have hgt := bin_max_child_gt data q
      have hlt := bin_max_child_lt data q h1
      have hmp := bin_max_child_parent data q
      refine Or.inr ⟨bin_max_child data q, hlt, hmp, by omega, ?_⟩
      have hfr := heapify_down_frame (lswap data q (bin_max_child data q))
        (bin_max_child data q) q (isDesc_false_of_lt hgt)
      simp only at hfr ⊢
      rw [hfr]
      simp only [getE]
      rw [lswap_getD data q (bin_max_child data q) q (by omega) hlt,
        if_neg (by omega : ¬ q = bin_max_child data q), if_pos rfl]
  · rw [heapify_down_leaf data q h1]
    exact Or.inl rfl

end Bin

namespace Bin

variable {α : Type} [LinearOrder α] [Inhabited α]

theorem buildLoop_inv (k : Nat) : ∀ (data : List (HeapEntry α)),
    (∀ i, 0 < i → i < data.length → k ≤ (i - 1) / 2 →
      (getE data ((i - 1) / 2)).priority ≥ (getE data i).priority) →
    BInv (buildLoop data k) := by
  induction k with
  | zero =>
    intro data h
    exact fun i h0 hlen => h i h0 hlen (Nat.zero_le _)
  | succ k ih =>
    intro data h
    show BInv (buildLoop (heapify_down data k).1 k)
    obtain ⟨post1, _⟩ := heapify_down_inv k data.length data k (by omega) le_rfl
      (isDesc_self k)
      (fun i h0 hlen hp hne => h i h0 hlen (by omega))
      (fun hne => absurd rfl hne)
    apply ih
    intro i h0 hlen hk
    exact post1 i h0 (by rwa [heapify_down_len] at hlen) (by omega)

theorem from_entries_vec_BInv (heap_base : List (HeapEntry α)) :
    BInv (from_entries_vec heap_base) := by
  apply buildLoop_inv
  intro i h0 hlen hk
  unfold heapify_start at hk
  omega

theorem from_entries_vec_perm (heap_base : List (HeapEntry α)) :
    (from_entries_vec heap_base).Perm heap_base := by
  unfold from_entries_vec
  generalize heapify_start heap_base.length = k
  induction k generalizing heap_base with
  | zero => exact List.Perm.refl _
  | succ k ih =>
    show (buildLoop (heapify_down heap_base k).1 k).Perm heap_base
    exact List.Perm.trans (ih _) (heapify_down_perm heap_base k)

theorem push_BInv (data : List (HeapEntry α)) (o : Nat) (pr : α) (h : BInv data) :
    BInv (push data o pr).1 := by
  unfold push
  simp only [List.length_append, List.length_cons, List.length_nil]
  have hlen : data.length + 1 - 1 = data.length := by omega
  rw [hlen]
  apply heapify_up_inv
  · simp
  · intro i h0 hilen hine
    have hi : i < data.length := by
      simp at hilen
      omega
    simp only [getE, getD_append_lt data [⟨o, pr⟩] i hi,
      getD_append_lt data [⟨o, pr⟩] ((i - 1) / 2) (by omega)]
    exact h i h0 hi
  · intro h0 c hc hcp
    simp at hc
    omega

theorem change_priority_equal (data : List (HeapEntry α)) (position : Nat)
    (updated : α) (hpos : position < data.length)
    (heq : updated = (getE data position).priority) :
    change_priority data position updated = (data, [], (getE data position).priority) := by
  unfold change_priority
  rw [if_neg (by rw [heq]; exact lt_irrefl _), if_neg (by rw [heq]; exact lt_irrefl _)]
  rw [heq]
  have : data.set position ⟨(getE data position).outer_pos, (getE data position).priority⟩
      = data := by
    have : (⟨(getE data position).outer_pos, (getE data position).priority⟩ : HeapEntry α)
        = getE data position := rfl
    rw [this]
    exact set_getD_self data position
  rw [this]

theorem change_priority_BInv (data : List (HeapEntry α)) (position : Nat) (updated : α)
    (hpos : position < data.length) (h : BInv data) :
    BInv (change_priority data position updated).1 := by
  unfold change_priority
  by_cases hup : (getE data position).priority < updated
  · rw [if_pos hup]
    apply heapify_up_inv
    · simpa using hpos
    · intro i h0 hlen hine
      have hlen' : i < data.length := by simpa using hlen
      rw [getE_set _ _ _ _ hpos, getE_set _ _ _ _ hpos, if_neg hine]
      by_cases hpp : (i - 1) / 2 = position
      · rw [if_pos hpp]
        have := h i h0 hlen'
        rw [hpp] at this
        exact le_trans this (le_of_lt hup)
      · rw [if_neg hpp]
        exact h i h0 hlen'
    · intro h0 c hc hcp
      have hc' : c < data.length := by simpa using hc
      rw [getE_set _ _ _ _ hpos, getE_set _ _ _ _ hpos,
        if_neg (by omega : ¬ (position - 1) / 2 = position),
        if_neg (by omega : ¬ c = position)]
      have h1 := h c (by omega) hc'
      rw [hcp] at h1
      exact le_trans h1 (h position h0 hpos)
  · rw [if_neg hup]
    by_cases hdown : updated < (getE data position).priority
    · rw [if_pos hdown]
      show BInv (heapify_down (data.set position
        ⟨(getE data position).outer_pos, updated⟩) position).1
      have hset : ∀ x, getE (data.set position
          ⟨(getE data position).outer_pos, updated⟩) x =
          if x = position then ⟨(getE data position).outer_pos, updated⟩
          else getE data x := fun x => getE_set _ _ _ _ hpos
      have hAset : ∀ i, 0 < i →
          i < (data.set position ⟨(getE data position).outer_pos, updated⟩).length →
          position ≤ (i - 1) / 2 → (i - 1) / 2 ≠ position →
          (getE (data.set position ⟨(getE data position).outer_pos, updated⟩)
            ((i - 1) / 2)).priority ≥
          (getE (data.set position ⟨(getE data position).outer_pos, updated⟩) i).priority := by
        intro i h0 hlen hp hne
        have hlen' : i < data.length := by simpa using hlen
        rw [hset, hset, if_neg hne, if_neg (by omega : ¬ i = position)]
        exact h i h0 hlen'
      obtain ⟨post1, post2⟩ := heapify_down_inv position
        (data.set position ⟨(getE data position).outer_pos, updated⟩).length
        (data.set position ⟨(getE data position).outer_pos, updated⟩) position
        (by omega) le_rfl (isDesc_self position)
        hAset (fun hne => absurd rfl hne)
      intro i h0 hlen
      have hlen2 : (data.set position
          ⟨(getE data position).outer_pos, updated⟩).length = data.length := by simp
      have hlen' : i < data.length := by
        rw [heapify_down_len, hlen2] at hlen
        exact hlen
      by_cases hip : position ≤ (i - 1) / 2
      · exact post1 i h0 (by simpa using hlen') hip
      · -- parent below the repaired region: frame
        push_neg at hip
        have hipar : (i - 1) / 2 ≠ position := by omega
        have hfrpar : getE (heapify_down _ position).1 ((i - 1) / 2) =
            getE (data.set position ⟨(getE data position).outer_pos, updated⟩)
              ((i - 1) / 2) :=
          post2 _ (isDesc_false_of_lt hip)
        by_cases hipos : i = position
        · -- the changed slot itself: its final value is old-or-child
          rw [hipos] at hfrpar hipar h0 ⊢
          rcases heapify_down_slot (data.set position
              ⟨(getE data position).outer_pos, updated⟩) position with hs | hs
          · rw [hs, hfrpar, hset, hset, if_neg hipar, if_pos rfl]
            exact le_trans (le_of_lt hdown) (h position h0 hpos)
          · obtain ⟨c, hcn, hcp, hc0, hs⟩ := hs
            rw [hs, hfrpar, hset, hset, if_neg hipar,
              if_neg (by omega : ¬ c = position)]
            have hcn' : c < data.length := by simpa using hcn
            have h1 := h c hc0 hcn'
            rw [hcp] at h1
            exact le_trans h1 (h position h0 hpos)
        · -- untouched slot with untouched parent
          have hdesci : isDesc position i = false := by
            rcases Bool.eq_false_or_eq_true (isDesc position i) with hh | hh
            · exfalso
              unfold isDesc at hh
              split at hh
              · simp at hh
                omega
              · have := isDesc_ge hh
                omega
            · exact hh
          have hfri := post2 i hdesci
          rw [hfri, hfrpar, hset, hset, if_neg hipar, if_neg hipos]
          exact h i h0 hlen'
    · rw [if_neg hdown]
      have heq : updated = (getE data position).priority := le_antisymm
        (le_of_not_lt hup) (le_of_not_lt hdown)
      show BInv (data.set position ⟨(getE data position).outer_pos, updated⟩)
      rw [heq]
      have hee : (⟨(getE data position).outer_pos, (getE data position).priority⟩
          : HeapEntry α) = getE data position := rfl
      have hfin : data.set position (getE data position) = data :=
        set_getD_self data position
      rw [hee, hfin]
      exact h

end Bin

section ListOps3

variable {β : Type} [Inhabited β] [DecidableEq β]

theorem swapRemove_cons_perm (l : List β) (i : Nat) (hi : i < l.length) :
    (l.getD i default :: swapRemove l i).Perm l := by
  have hn1 : l.length - 1 < l.length := by omega
  rw [List.perm_iff_count]
  intro b
  have hgi : l.getD i default = l[i] := getD_eq_getElem l i hi
  have hglast : l.getD (l.length - 1) default = l[l.length - 1] :=
    getD_eq_getElem l _ hn1
  set x := l.set i (l.getD (l.length - 1) default) with hx
  have hxlen : x.length = l.length := by simp [hx]
  have hxne : x ≠ [] := by
    intro hh
    rw [hh] at hxlen
    simp at hxlen
    omega
  have hxlast : x.getLast hxne = l.getD (l.length - 1) default := by
    have hb : x.length - 1 < x.length := by omega
    rw [List.getLast_eq_getElem, ← getD_eq_getElem x (x.length - 1) hb, hxlen]
    by_cases hii : i = l.length - 1
    · rw [hx, hii, getD_set_self _ _ _ (by omega)]
    · rw [hx, getD_set_ne _ _ hii]
  have hsplit : x.dropLast ++ [x.getLast hxne] = x := List.dropLast_append_getLast hxne
  have hcx : x.count b = x.dropLast.count b + (if l.getD (l.length - 1) default == b
      then 1 else 0) := by
    conv_lhs => rw [← hsplit]
    rw [List.count_append, hxlast]
    simp [List.count_singleton]
  have hcset : x.count b = l.count b - (if l[i] == b then 1 else 0)
      + (if l.getD (l.length - 1) default == b then 1 else 0) := by
    rw [hx, hglast]
    exact List.count_set _ _ _ _ hi
  have h1 : (if l[i] == b then 1 else 0) ≤ l.count b := by
    by_cases hb : l[i] == b
    · simp only [hb, if_true]
      have : b ∈ l := by
        have := List.getElem_mem hi
        rwa [beq_iff_eq.mp hb] at this
      exact List.one_le_count_iff.mpr this
    · simp [hb]
  have hcons : (l.getD i default :: swapRemove l i).count b =
      (if l[i] == b then 1 else 0) + (swapRemove l i).count b := by
    rw [List.count_cons, hgi]
    by_cases hb : l[i] == b <;> simp [hb] <;> omega
  rw [hcons]
  show (if l[i] == b then 1 else 0) + x.dropLast.count b = l.count b
  omega

end ListOps3

namespace Bin

variable {α : Type} [LinearOrder α] [Inhabited α]

theorem remove_BInv (data : List (HeapEntry α)) (position : Nat) (h : BInv data)
    (hp : position = 0 ∨ position + 1 = data.length) :
    BInv (remove data position).1 := by
  unfold remove
  by_cases hoob : position ≥ data.length
  · rw [if_pos hoob]
    exact h
  · rw [if_neg hoob]
    by_cases hlast : position + 1 = data.length
    · rw [if_pos hlast]
      intro i h0 hlen
      simp at hlen
      simp only [getE, getD_dropLast data i (by omega), getD_dropLast data ((i - 1) / 2)
        (by omega)]
      exact h i h0 (by omega)
    · rw [if_neg hlast]
      rcases hp with rfl | hp2
      · show BInv (heapify_down (swapRemove data 0) 0).1
        have hn2 : 2 ≤ data.length := by omega
        have hA : ∀ i, 0 < i → i < (swapRemove data 0).length → 0 ≤ (i - 1) / 2 →
            (i - 1) / 2 ≠ 0 →
            (getE (swapRemove data 0) ((i - 1) / 2)).priority ≥
              (getE (swapRemove data 0) i).priority := by
          intro i h0 hlen hge hne
          have hlen' : i < data.length - 1 := by simpa using hlen
          simp only [getE]
          rw [swapRemove_getD data 0 i (by omega) hlen',
            swapRemove_getD data 0 ((i - 1) / 2) (by omega) (by omega),
            if_neg (by omega : ¬ i = 0), if_neg (by omega : ¬ (i - 1) / 2 = 0)]
          exact h i h0 (by omega)
        obtain ⟨post1, _⟩ := heapify_down_inv 0 (swapRemove data 0).length
          (swapRemove data 0) 0 (by omega) le_rfl (isDesc_self 0) hA
          (fun hne => absurd rfl hne)
        intro i h0 hlen
        exact post1 i h0 (by rwa [heapify_down_len] at hlen) (Nat.zero_le _)
      · omega

theorem remove_result (data : List (HeapEntry α)) (position : Nat)
    (hpos : position < data.length) :
    (remove data position).2.2 =
      some ((getE data position).outer_pos, (getE data position).priority) := by
  unfold remove
  rw [if_neg (by omega)]
  by_cases hlast : position + 1 = data.length
  · rw [if_pos hlast]
  · rw [if_neg hlast]

theorem remove_events_oob (data : List (HeapEntry α)) (position : Nat)
    (hpos : position ≥ data.length) : remove data position = (data, [], none) := by
  unfold remove
  rw [if_pos hpos]

theorem remove_len (data : List (HeapEntry α)) (position : Nat)
    (hpos : position < data.length) :
    (remove data position).1.length = data.length - 1 := by
  unfold remove
  rw [if_neg (by omega)]
  by_cases hlast : position + 1 = data.length
  · rw [if_pos hlast]
    simp
  · rw [if_neg hlast]
    show (heapify_down (swapRemove data position) position).1.length = data.length - 1
    rw [heapify_down_len]
    simp

theorem remove_perm (data : List (HeapEntry α)) (position : Nat)
    (hpos : position < data.length) :
    (getE data position :: (remove data position).1).Perm data := by
  unfold remove
  rw [if_neg (by omega)]
  by_cases hlast : position + 1 = data.length
  · rw [if_pos hlast]
    show (getE data position :: data.dropLast).Perm data
    have heq : data.dropLast = swapRemove data position := by
      unfold swapRemove
      have hpp : position = data.length - 1 := by omega
      rw [hpp, set_getD_self]
    rw [heq]
    exact swapRemove_cons_perm data position hpos
  · rw [if_neg hlast]
    show (getE data position :: (heapify_down (swapRemove data position) position).1).Perm data
    exact List.Perm.trans (List.Perm.cons _ (heapify_down_perm _ _))
      (swapRemove_cons_perm data position hpos)

end Bin

namespace Bin

variable {α : Type} [LinearOrder α] [Inhabited α]

theorem BInv_root_max (data : List (HeapEntry α)) (h : BInv data) :
    ∀ i, i < data.length → (getE data i).priority ≤ (getE data 0).priority := by
  intro i
  induction i using Nat.strong_induction_on with
  | _ i ih =>
    intro hi
    rcases Nat.eq_zero_or_pos i with rfl | h0
    · exact le_refl _
    · exact le_trans (h i h0 hi) (ih ((i - 1) / 2) (by omega) (by omega))

/-- Repeatedly `remove` position `0` (pop the maximum), collecting the
returned priorities. -/
def popAll (data : List (HeapEntry α)) : Nat → List α
  | 0 => []
  | fuel + 1 =>
    match (remove data 0).2.2 with
    | some pr => pr.2 :: popAll (remove data 0).1 fuel
    | none => []

theorem popAll_sorted_perm (fuel : Nat) : ∀ (data : List (HeapEntry α)),
    BInv data → fuel = data.length →
    ((popAll data fuel).Sorted (· ≥ ·) ∧
      (popAll data fuel).Perm (data.map (fun e => e.priority))) := by
  induction fuel with
  | zero =>
    intro data _ hlen
    have : data = [] := List.eq_nil_of_length_eq_zero hlen.symm
    subst this
    simp [popAll]
  | succ fuel ih =>
    intro data hinv hlen
    have hpos : 0 < data.length := by omega
    have hres := remove_result data 0 hpos
    have hrl : (remove data 0).1.length = data.length - 1 := remove_len data 0 hpos
    have hrinv : BInv (remove data 0).1 := remove_BInv data 0 hinv (Or.inl rfl)
    obtain ⟨ihs, ihp⟩ := ih (remove data 0).1 hrinv (by omega)
    have hperm := remove_perm data 0 hpos
    have hstep : popAll data (fuel + 1) =
        (getE data 0).priority :: popAll (remove data 0).1 fuel := by
      show (match (remove data 0).2.2 with
        | some pr => pr.2 :: popAll (remove data 0).1 fuel
        | none => []) = _
      rw [hres]
    rw [hstep]
    constructor
    · rw [List.sorted_cons]
      refine ⟨?_, ihs⟩
      intro b hb
      have hb2 : b ∈ (remove data 0).1.map (fun e => e.priority) := ihp.subset hb
      obtain ⟨e, he, rfl⟩ := List.mem_map.mp hb2
      have hed : e ∈ data := hperm.subset (List.mem_cons_of_mem _ he)
      obtain ⟨j, hj, rfl⟩ := List.mem_iff_getElem.mp hed
      rw [← getD_eq_getElem data j hj]
      exact BInv_root_max data hinv j hj
    · refine List.Perm.trans (List.Perm.cons _ ihp) ?_
      have := hperm.map (fun e => e.priority)
      simpa using this

/-- Binary backend: building from any entry vector and popping everything
yields the priorities in descending sorted order. -/
theorem build_pop_sorted (v : List (HeapEntry α)) :
    ((popAll (from_entries_vec v) (from_entries_vec v).length).Sorted (· ≥ ·) ∧
      (popAll (from_entries_vec v) (from_entries_vec v).length).Perm
        (v.map (fun e => e.priority))) := by
  obtain ⟨hs, hp⟩ := popAll_sorted_perm (from_entries_vec v).length (from_entries_vec v)
    (from_entries_vec_BInv v) rfl
  exact ⟨hs, List.Perm.trans hp ((from_entries_vec_perm v).map _)⟩

end Bin

section ListOpsD

variable {β : Type}

theorem getD_set_self' (l : List β) (i : Nat) (a d : β) (h : i < l.length) :
    (l.set i a).getD i d = a := by
  simp [List.getD_eq_getElem?_getD, List.getElem?_set_self h]

theorem getD_set_ne' (l : List β) {i j : Nat} (a d : β) (h : i ≠ j) :
    (l.set i a).getD j d = l.getD j d := by
  simp [List.getD_eq_getElem?_getD, List.getElem?_set_ne h]

theorem getD_append_lt' (l l2 : List β) (k : Nat) (d : β) (h : k < l.length) :
    (l ++ l2).getD k d = l.getD k d := by
  rw [List.getD_eq_getElem?_getD, List.getD_eq_getElem?_getD,
    List.getElem?_append_left h]

theorem getD_append_len' (l : List β) (b d : β) :
    (l ++ [b]).getD l.length d = b := by
  rw [List.getD_eq_getElem?_getD]
  rw [List.getElem?_append_right (le_refl _)]
  simp

theorem getD_dropLast' (l : List β) (k : Nat) (d : β) (h : k < l.length - 1) :
    l.dropLast.getD k d = l.getD k d := by
  rw [List.getD_eq_getElem?_getD, List.getD_eq_getElem?_getD, List.getElem?_dropLast,
    if_pos (by simpa using h)]

end ListOpsD

/-! ## Weak heap: distinguished-ancestor analysis -/

namespace Weak

variable {α : Type} [LinearOrder α] [Inhabited α]

/-- The test `(position % 2 == 0) == sides[position/2].as_bool()` of
`distinguished_ancestor`: `j` is the direct child of its binary parent. -/
def direct (sides : List Bool) (j : Nat) : Bool :=
  (j % 2 == 0) == sides.getD (j / 2) false

theorem da_pos (sides : List Bool) (j : Nat) (h : 0 < j) :
    distinguished_ancestor sides j =
      if direct sides j then j / 2 else distinguished_ancestor sides (j / 2) := by
  conv_lhs => unfold distinguished_ancestor
  rw [dif_pos h]
  rfl

/-- `distinguished_ancestor` only consults side bits strictly below `j`. -/
theorem da_congr (sides1 sides2 : List Bool) (j : Nat)
    (h : ∀ x, x < j → sides1.getD x false = sides2.getD x false) :
    distinguished_ancestor sides1 j = distinguished_ancestor sides2 j := by
  induction j using Nat.strong_induction_on with
  | _ j ih =>
    rcases Nat.eq_zero_or_pos j with rfl | h0
    · simp
    · rw [da_pos _ _ h0, da_pos _ _ h0]
      have hd : direct sides1 j = direct sides2 j := by
        unfold direct
        rw [h (j / 2) (by omega)]
      rw [hd]
      by_cases hdir : direct sides2 j = true
      · rw [if_pos hdir, if_pos hdir]
      · rw [if_neg hdir, if_neg hdir]
        exact ih (j / 2) (by omega) (fun x hx => h x (by omega))

/-- The walk from `j` examines the side bit at `t`. -/
def visits (sides : List Bool) (j t : Nat) : Prop :=
  if 0 < j then j / 2 = t ∨ (direct sides j = false ∧ visits sides (j / 2) t)
  else False
termination_by j
decreasing_by omega

theorem visits_zero (sides : List Bool) (t : Nat) : ¬ visits sides 0 t := by
  unfold visits
  simp

theorem visits_pos (sides : List Bool) (j t : Nat) (h : 0 < j) :
    visits sides j t ↔ (j / 2 = t ∨ (direct sides j = false ∧ visits sides (j / 2) t)) := by
  conv_lhs => unfold visits
  rw [if_pos h]

theorem visits_ge (sides : List Bool) (j t : Nat) (h : visits sides j t) : 2 * t ≤ j := by
  induction j using Nat.strong_induction_on with
  | _ j ih =>
    rcases Nat.eq_zero_or_pos j with rfl | h0
    · exact absurd h (visits_zero sides t)
    · rw [visits_pos _ _ _ h0] at h
      rcases h with h | ⟨_, h⟩
      · omega
      · have := ih (j / 2) (by omega) h
        omega

/-- `da j = t > 0` forces the walk to examine `sides[t]`. -/
theorem visits_of_da (sides : List Bool) (j t : Nat) (ht : 0 < t)
    (h : distinguished_ancestor sides j = t) : visits sides j t := by
  induction j using Nat.strong_induction_on with
  | _ j ih =>
    rcases Nat.eq_zero_or_pos j with rfl | h0
    · rw [da_zero] at h
      omega
    · rw [da_pos _ _ h0] at h
      rw [visits_pos _ _ _ h0]
      by_cases hdir : direct sides j = true
      · rw [if_pos hdir] at h
        exact Or.inl h
      · rw [if_neg hdir] at h
        exact Or.inr ⟨Bool.eq_false_iff.mpr hdir, ih (j / 2) (by omega) h⟩

/-- Changing the side bit at an unvisited index leaves `da` unchanged. -/
theorem da_set_of_not_visits (sides : List Bool) (j t : Nat) (b : Bool)
    (h : ¬ visits sides j t) :
    distinguished_ancestor (sides.set t b) j = distinguished_ancestor sides j := by
  induction j using Nat.strong_induction_on with
  | _ j ih =>
    rcases Nat.eq_zero_or_pos j with rfl | h0
    · simp
    · rw [visits_pos _ _ _ h0] at h
      push_neg at h
      obtain ⟨hne, h2⟩ := h
      have hd : direct (sides.set t b) j = direct sides j := by
        unfold direct
        rw [getD_set_ne' _ _ _ (fun hh => hne hh.symm)]
      rw [da_pos _ _ h0, da_pos _ _ h0, hd]
      by_cases hdir : direct sides j = true
      · rw [if_pos hdir, if_pos hdir]
      · rw [if_neg hdir, if_neg hdir]
        exact ih (j / 2) (by omega) (h2 (Bool.eq_false_iff.mpr hdir))

theorem not_visits_self (sides : List Bool) (t : Nat) : ¬ visits sides t t := by
  intro h
  have := visits_ge sides t t h
  have h0 : 0 < t := by
    by_contra hh
    push_neg at hh
    interval_cases t
    exact visits_zero sides 0 h
  omega

theorem da_set_self_idx (sides : List Bool) (t : Nat) (b : Bool) :
    distinguished_ancestor (sides.set t b) t = distinguished_ancestor sides t :=
  da_set_of_not_visits sides t t b (not_visits_self sides t)

/-- Flipping the side bit at a visited index toggles the distinguished
ancestor between `t` and `da t`. -/
theorem da_set_of_visits (sides : List Bool) (j t : Nat) (ht : t < sides.length)
    (h : visits sides j t) :
    (distinguished_ancestor sides j = t ∧
      distinguished_ancestor (sides.set t (!sides.getD t false)) j =
        distinguished_ancestor sides t) ∨
    (distinguished_ancestor sides j = distinguished_ancestor sides t ∧
      distinguished_ancestor (sides.set t (!sides.getD t false)) j = t) := by
  induction j using Nat.strong_induction_on with
  | _ j ih =>
    rcases Nat.eq_zero_or_pos j with rfl | h0
    · exact absurd h (visits_zero sides t)
    · rw [visits_pos _ _ _ h0] at h
      rcases h with hjt | ⟨hdir, hvis⟩
      · -- the parent of j is t itself
        have hd' : direct (sides.set t (!sides.getD t false)) j = !(direct sides j) := by
          unfold direct
          rw [hjt, getD_set_self' _ _ _ _ ht]
          cases hb : (j % 2 == 0) <;> cases hb2 : sides.getD t false <;> simp [hb, hb2]
        by_cases hdir : direct sides j = true
        · left
          constructor
          · rw [da_pos _ _ h0, if_pos hdir, hjt]
          · rw [da_pos _ _ h0, hd', hdir]
            rw [hjt, da_set_self_idx]
            simp
        · right
          constructor
          · rw [da_pos _ _ h0, if_neg hdir, hjt]
          · rw [da_pos _ _ h0, hd', Bool.eq_false_iff.mpr hdir]
            simp [hjt]
      · have hne : j / 2 ≠ t := by
          intro hh
          rw [hh] at hvis
          exact not_visits_self sides t hvis
        have hd : direct (sides.set t (!sides.getD t false)) j = direct sides j := by
          unfold direct
          rw [getD_set_ne' _ _ _ (fun hh => hne hh.symm)]
        have h1 : distinguished_ancestor sides j = distinguished_ancestor sides (j / 2) := by
          rw [da_pos _ _ h0, if_neg (by rw [hdir]; simp)]
        have h2 : distinguished_ancestor (sides.set t (!sides.getD t false)) j =
            distinguished_ancestor (sides.set t (!sides.getD t false)) (j / 2) := by
          rw [da_pos _ _ h0, hd, if_neg (by rw [hdir]; simp)]
        rw [h1, h2]
        exact ih (j / 2) (by omega) hvis

end Weak

namespace Weak

theorem div2_pow (c m : Nat) : c / 2 / 2 ^ m = c / 2 ^ (m + 1) := by
  rw [Nat.div_div_eq_div_mul]
  congr 1
  rw [pow_succ]
  ring

theorem ns_eq (sides : List Bool) (c : Nat) :
    next_sibling sides c = c * 2 + (if sides.getD c false then 1 else 0) := rfl

theorem fc_eq (sides : List Bool) (p : Nat) :
    first_child sides p = p * 2 + (if sides.getD p false then 0 else 1) := rfl

theorem ns_div2 (sides : List Bool) (c : Nat) : next_sibling sides c / 2 = c := by
  rw [ns_eq]
  cases hb : sides.getD c false
  · show (c * 2 + 0) / 2 = c
    omega
  · show (c * 2 + 1) / 2 = c
    omega

theorem ns_ge (sides : List Bool) (c : Nat) : c ≤ next_sibling sides c := by
  rw [ns_eq]
  cases hb : sides.getD c false
  · show c ≤ c * 2 + 0
    omega
  · show c ≤ c * 2 + 1
    omega

theorem ns_ge_succ (sides : List Bool) (c : Nat) (h : 1 ≤ c) :
    c + 1 ≤ next_sibling sides c := by
  rw [ns_eq]
  cases hb : sides.getD c false
  · show c + 1 ≤ c * 2 + 0
    omega
  · show c + 1 ≤ c * 2 + 1
    omega

theorem ns_not_direct (sides : List Bool) (c : Nat) :
    direct sides (next_sibling sides c) = false := by
  unfold direct
  rw [ns_div2]
  cases hb : sides.getD c false
  · have h2 : next_sibling sides c % 2 = 0 := by
      rw [ns_eq, hb]
      show (c * 2 + 0) % 2 = 0
      omega
    rw [h2]
    rfl
  · have h2 : next_sibling sides c % 2 = 1 := by
      rw [ns_eq, hb]
      show (c * 2 + 1) % 2 = 1
      omega
    rw [h2]
    rfl

theorem da_ns (sides : List Bool) (c : Nat) :
    distinguished_ancestor sides (next_sibling sides c) = distinguished_ancestor sides c := by
  rcases Nat.eq_zero_or_pos (next_sibling sides c) with hz | hpos
  · have hc : c = 0 := by
      have := ns_ge sides c
      omega
    rw [hz, hc]
  · rw [da_pos _ _ hpos, ns_not_direct, ns_div2]
    simp

theorem fc_div2 (sides : List Bool) (p : Nat) : first_child sides p / 2 = p := by
  rw [fc_eq]
  cases hb : sides.getD p false
  · show (p * 2 + 1) / 2 = p
    omega
  · show (p * 2 + 0) / 2 = p
    omega

theorem fc_direct (sides : List Bool) (p : Nat) :
    direct sides (first_child sides p) = true := by
  unfold direct
  rw [fc_div2]
  cases hb : sides.getD p false
  · have h2 : first_child sides p % 2 = 1 := by
      rw [fc_eq, hb]
      show (p * 2 + 1) % 2 = 1
      omega
    rw [h2]
    rfl
  · have h2 : first_child sides p % 2 = 0 := by
      rw [fc_eq, hb]
      show (p * 2 + 0) % 2 = 0
      omega
    rw [h2]
    rfl

theorem da_fc (sides : List Bool) (p : Nat) :
    distinguished_ancestor sides (first_child sides p) = p := by
  rcases Nat.eq_zero_or_pos (first_child sides p) with hz | hpos
  · have hp : p = 0 := by
      have : first_child sides p / 2 = p := fc_div2 sides p
      rw [hz] at this
      omega
    rw [hz, hp]
    exact da_zero sides
  · rw [da_pos _ _ hpos, fc_direct]
    simp [fc_div2]

/-- `next_sibling` iterates: the sibling chain below `first_child`. -/
def nsk (sides : List Bool) (c : Nat) : Nat → Nat
  | 0 => c
  | k + 1 => next_sibling sides (nsk sides c k)

theorem nsk_shift (sides : List Bool) (c : Nat) (k : Nat) :
    nsk sides (next_sibling sides c) k = nsk sides c (k + 1) := by
  induction k with
  | zero => rfl
  | succ k ih =>
    show next_sibling sides (nsk sides (next_sibling sides c) k) = _
    rw [ih]
    rfl

theorem nsk_ge (sides : List Bool) (c : Nat) (k : Nat) : c ≤ nsk sides c k := by
  induction k with
  | zero => exact le_refl _
  | succ k ih => exact le_trans ih (ns_ge sides _)

theorem nsk_ge_add (sides : List Bool) (c : Nat) (h : 1 ≤ c) (k : Nat) :
    c + k ≤ nsk sides c k := by
  induction k with
  | zero =>
    show c + 0 ≤ c
    omega
  | succ k ih =>
    have h1 : 1 ≤ nsk sides c k := le_trans h (nsk_ge sides c k)
    have := ns_ge_succ sides (nsk sides c k) h1
    show c + (k + 1) ≤ next_sibling sides (nsk sides c k)
    omega

theorem da_nsk (sides : List Bool) (c : Nat) (k : Nat) :
    distinguished_ancestor sides (nsk sides c k) = distinguished_ancestor sides c := by
  induction k with
  | zero => rfl
  | succ k ih =>
    show distinguished_ancestor sides (next_sibling sides (nsk sides c k)) = _
    rw [da_ns, ih]

/-- Every node whose distinguished ancestor is `p` lies on the sibling chain
descending from `first_child p`. -/
theorem chain_of_da (sides : List Bool) (p : Nat) :
    ∀ i, 0 < i → distinguished_ancestor sides i = p →
      ∃ k, i = nsk sides (first_child sides p) k := by
  intro i
  induction i using Nat.strong_induction_on with
  | _ i ih =>
    intro h0 hda
    rw [da_pos _ _ h0] at hda
    by_cases hdir : direct sides i = true
    · rw [if_pos hdir] at hda
      refine ⟨0, ?_⟩
      show i = first_child sides p
      unfold direct at hdir
      rw [hda] at hdir
      rw [fc_eq]
      cases hb : sides.getD p false
      · rw [hb] at hdir
        simp at hdir
        show i = p * 2 + 1
        omega
      · rw [hb] at hdir
        simp at hdir
        show i = p * 2 + 0
        omega
    · rw [if_neg hdir] at hda
      have hdirf : direct sides i = false := Bool.eq_false_iff.mpr hdir
      rcases Nat.eq_zero_or_pos (i / 2) with hz | hp2
      · rw [hz, da_zero] at hda
        have hi1 : i = 1 := by omega
        have hgd : sides.getD 0 false = true := by
          unfold direct at hdirf
          rw [hi1] at hdirf
          show sides.getD (1 / 2) false = true
          cases hb : sides.getD (1 / 2) false
          · rw [hb] at hdirf
            simp at hdirf
          · rfl
        refine ⟨1, ?_⟩
        rw [← hda]
        show i = next_sibling sides (first_child sides 0)
        rw [fc_eq, ns_eq]
        rw [hgd]
        have hfc0 : (0 * 2 + if (true : Bool) then 0 else 1) = 0 := by simp
        rw [hfc0, hgd]
        simp [hi1]
      · obtain ⟨k, hk⟩ := ih (i / 2) (by omega) hp2 hda
        refine ⟨k + 1, ?_⟩
        show i = next_sibling sides (nsk sides (first_child sides p) k)
        rw [← hk, ns_eq]
        unfold direct at hdirf
        cases hb : sides.getD (i / 2) false
        · rw [hb] at hdirf
          simp at hdirf
          show i = i / 2 * 2 + 0
          omega
        · rw [hb] at hdirf
          simp at hdirf
          show i = i / 2 * 2 + 1
          omega
end Weak

namespace Weak

theorem descend_zero (sides : List Bool) (n cur : Nat) : descend sides n cur 0 = cur := rfl

theorem descend_succ (sides : List Bool) (n cur fuel : Nat) :
    descend sides n cur (fuel + 1) =
      if next_sibling sides cur ≥ n then cur else descend sides n (next_sibling sides cur) fuel :=
  rfl

/-- Specification of the `max_child_idx` search: the result is the deepest
in-bounds element of the sibling chain; its halving iterates are exactly the
in-bounds chain, and all have distinguished ancestor `p`. -/
theorem descend_spec (sides : List Bool) (n p : Nat) :
    ∀ (fuel cur : Nat), p < cur → cur < n → 1 ≤ cur →
    (∀ m, p < cur / 2 ^ m → distinguished_ancestor sides (cur / 2 ^ m) = p ∧ cur / 2 ^ m < n) →
    (∀ j, 0 < j → j < n → distinguished_ancestor sides j = p →
      ((∃ m, j = cur / 2 ^ m ∧ p < j) ∨ ∃ k, 1 ≤ k ∧ j = nsk sides cur k)) →
    (cur ≤ descend sides n cur fuel ∧ descend sides n cur fuel < n ∧
      (∀ m, p < descend sides n cur fuel / 2 ^ m →
        distinguished_ancestor sides (descend sides n cur fuel / 2 ^ m) = p ∧
          descend sides n cur fuel / 2 ^ m < n) ∧
      (∀ j, 0 < j → j < n → distinguished_ancestor sides j = p →
        ((∃ m, j = descend sides n cur fuel / 2 ^ m ∧ p < j) ∨
          ∃ k, 1 ≤ k ∧ j = nsk sides (descend sides n cur fuel) k)) ∧
      (n ≤ cur + fuel → n ≤ next_sibling sides (descend sides n cur fuel))) := by
  intro fuel
  induction fuel with
  | zero =>
    intro cur hpc hcn h1 h3 h4
    rw [descend_zero]
    exact ⟨le_refl _, hcn, h3, h4, fun hcontra => by omega⟩
  | succ fuel ih =>
    intro cur hpc hcn h1 h3 h4
    rw [descend_succ]
    by_cases hcand : next_sibling sides cur ≥ n
    · rw [if_pos hcand]
      exact ⟨le_refl _, hcn, h3, h4, fun _ => hcand⟩
    · rw [if_neg hcand]
      push_neg at hcand
      have hns1 := ns_ge_succ sides cur h1
      have h3' : ∀ m, p < next_sibling sides cur / 2 ^ m →
          distinguished_ancestor sides (next_sibling sides cur / 2 ^ m) = p ∧
            next_sibling sides cur / 2 ^ m < n := by
        intro m hm
        cases m with
        | zero =>
          simp only [pow_zero, Nat.div_one] at hm ⊢
          rw [da_ns]
          have := h3 0 (by simpa using hpc)
          simp only [pow_zero, Nat.div_one] at this
          exact ⟨this.1, hcand⟩
        | succ m' =>
          have heq : next_sibling sides cur / 2 ^ (m' + 1) = cur / 2 ^ m' := by
            rw [← div2_pow, ns_div2]
          rw [heq] at hm ⊢
          exact h3 m' hm
      have h4' : ∀ j, 0 < j → j < n → distinguished_ancestor sides j = p →
          ((∃ m, j = next_sibling sides cur / 2 ^ m ∧ p < j) ∨
            ∃ k, 1 ≤ k ∧ j = nsk sides (next_sibling sides cur) k) := by
        intro j hj0 hjn hjda
        rcases h4 j hj0 hjn hjda with ⟨m, hm, hpj⟩ | ⟨k, hk1, hk⟩
        · refine Or.inl ⟨m + 1, ?_, hpj⟩
          rw [← div2_pow, ns_div2]
          exact hm
        · rcases Nat.eq_or_lt_of_le hk1 with hk2 | hk2
          · refine Or.inl ⟨0, ?_, ?_⟩
            · simp only [pow_zero, Nat.div_one]
              rw [hk, ← hk2]
              rfl
            · rw [hk, ← hk2]
              have hone : nsk sides cur 1 = next_sibling sides cur := rfl
              rw [hone]
              omega
          · refine Or.inr ⟨k - 1, by omega, ?_⟩
            rw [nsk_shift]
            have : k - 1 + 1 = k := by omega
            rw [this]
            exact hk
      obtain ⟨c1, c2, c3, c4, c5⟩ := ih (next_sibling sides cur) (by omega) hcand
        (by omega) h3' h4'
      exact ⟨le_trans (ns_ge sides cur) c1, c2, c3, c4, fun hfin => c5 (by omega)⟩

end Weak

namespace Weak

variable {α : Type} [LinearOrder α] [Inhabited α]

theorem walkUp_exit (s : WState α) (p cur : Nat) (h : ¬ p < cur) :
    walkUp s p cur = (s, [((getE s.data p).outer_pos, p)]) := by
  unfold walkUp
  rw [dif_neg h]

theorem walkUp_noswap (s : WState α) (p cur : Nat) (h : p < cur)
    (hc : ¬ (getE s.data p).priority < (getE s.data cur).priority) :
    walkUp s p cur = walkUp s p (cur / 2) := by
  conv_lhs => unfold walkUp
  rw [dif_pos h, if_neg hc]

theorem walkUp_swap (s : WState α) (p cur : Nat) (h : p < cur)
    (hc : (getE s.data p).priority < (getE s.data cur).priority) :
    walkUp s p cur =
      ((walkUp ⟨s.sides.set cur (!(s.sides.getD cur false)), lswap s.data cur p⟩ p (cur / 2)).1,
        ((getE (lswap s.data cur p) cur).outer_pos, cur)
          :: (walkUp ⟨s.sides.set cur (!(s.sides.getD cur false)), lswap s.data cur p⟩ p
              (cur / 2)).2) := by
  conv_lhs => unfold walkUp
  rw [dif_pos h, if_pos (by exact hc)]

/-- Master lemma for the weak sift-down walk.  `p` is the hole position, the
halving iterates of `cur` are the still-unprocessed chain elements. -/
theorem walkUp_master (p : Nat) (UB : α) : ∀ (cur : Nat) (s : WState α),
    s.sides.length = s.data.length → p < s.data.length →
    (∀ m, p < cur / 2 ^ m → distinguished_ancestor s.sides (cur / 2 ^ m) = p ∧
      cur / 2 ^ m < s.data.length) →
    (∀ i, 0 < i → i < s.data.length → i ≠ p →
      ((∃ m, i = cur / 2 ^ m ∧ p < i) ∨
        (getE s.data (distinguished_ancestor s.sides i)).priority ≥
          (getE s.data i).priority)) →
    (0 < p → (getE s.data p).priority ≤ UB ∧
      ∀ m, p < cur / 2 ^ m → (getE s.data (cur / 2 ^ m)).priority ≤ UB) →
    ((∀ i, 0 < i → i < (walkUp s p cur).1.data.length → i ≠ p →
      (getE (walkUp s p cur).1.data
        (distinguished_ancestor (walkUp s p cur).1.sides i)).priority ≥
        (getE (walkUp s p cur).1.data i).priority) ∧
     (0 < p → (getE (walkUp s p cur).1.data p).priority ≤ UB) ∧
     (∀ j, j < p → getE (walkUp s p cur).1.data j = getE s.data j) ∧
     (∀ x, x ≤ p → (walkUp s p cur).1.sides.getD x false = s.sides.getD x false) ∧
     (walkUp s p cur).1.sides.length = s.sides.length ∧
     (walkUp s p cur).1.data.length = s.data.length) := by
  intro cur
  induction cur using Nat.strong_induction_on with
  | _ cur ih =>
    intro s hlen hpn hpath hok hub
    by_cases hcur : p < cur
    · have hdacur : distinguished_ancestor s.sides cur = p := by
        have := hpath 0 (by simpa using hcur)
        simpa using this.1
      have hcn : cur < s.data.length := by
        have := hpath 0 (by simpa using hcur)
        simpa using this.2
      have hpath' : ∀ m, p < cur / 2 / 2 ^ m →
          distinguished_ancestor s.sides (cur / 2 / 2 ^ m) = p ∧
            cur / 2 / 2 ^ m < s.data.length := by
        intro m hm
        rw [div2_pow] at hm ⊢
        exact hpath (m + 1) hm
      by_cases hc : (getE s.data p).priority < (getE s.data cur).priority
      · -- swap step
        rw [walkUp_swap s p cur hcur hc]
        have hcs : cur < s.sides.length := by omega
        have hget : ∀ x, getE (lswap s.data cur p) x =
            if x = p then getE s.data cur
            else if x = cur then getE s.data p else getE s.data x := by
          intro x
          simp only [getE]
          exact lswap_getD s.data cur p x hcn hpn
        have hvp : getE (lswap s.data cur p) p = getE s.data cur := by
          rw [hget, if_pos rfl]
        have hvc : getE (lswap s.data cur p) cur = getE s.data p := by
          rw [hget, if_neg (by omega : ¬ cur = p), if_pos rfl]
        have hvo : ∀ x, x ≠ p → x ≠ cur → getE (lswap s.data cur p) x = getE s.data x := by
          intro x hx1 hx2
          rw [hget, if_neg hx1, if_neg hx2]
        have hda' : ∀ j, ¬ visits s.sides j cur →
            distinguished_ancestor (s.sides.set cur (!(s.sides.getD cur false))) j =
              distinguished_ancestor s.sides j :=
          fun j hj => da_set_of_not_visits s.sides j cur _ hj
        have hnv : ∀ j, j < 2 * cur → ¬ visits s.sides j cur := by
          intro j hj hvis
          have := visits_ge s.sides j cur hvis
          omega
        have hHpath2 : ∀ m, p < cur / 2 / 2 ^ m →
            distinguished_ancestor (s.sides.set cur (!(s.sides.getD cur false)))
              (cur / 2 / 2 ^ m) = p ∧ cur / 2 / 2 ^ m < (lswap s.data cur p).length := by
          intro m hm
          have h2 := hpath' m hm
          have hlt : cur / 2 / 2 ^ m < 2 * cur := by
            have : cur / 2 / 2 ^ m ≤ cur := le_trans (Nat.div_le_self _ _)
              (Nat.div_le_self _ _)
            omega
          refine ⟨?_, by simpa using h2.2⟩
          rw [hda' _ (hnv _ hlt)]
          exact h2.1
        have hHok2 : ∀ i, 0 < i → i < (lswap s.data cur p).length → i ≠ p →
            ((∃ m, i = cur / 2 / 2 ^ m ∧ p < i) ∨
              (getE (lswap s.data cur p)
                (distinguished_ancestor (s.sides.set cur (!(s.sides.getD cur false)))
                  i)).priority ≥ (getE (lswap s.data cur p) i).priority) := by
          intro i h0 hilen hip
          have hilen' : i < s.data.length := by simpa using hilen
          by_cases hicur : i = cur
          · refine Or.inr ?_
            have hdai : distinguished_ancestor
                (s.sides.set cur (!(s.sides.getD cur false))) i = p := by
              rw [hicur, da_set_of_not_visits s.sides cur cur _ (not_visits_self s.sides cur)]
              exact hdacur
            rw [hdai, hvp, hicur, hvc]
            exact le_of_lt hc
          · rcases hok i h0 hilen' hip with ⟨m, hm, hpi⟩ | hOK
            · cases m with
              | zero =>
                simp only [pow_zero, Nat.div_one] at hm
                exact absurd hm hicur
              | succ m' =>
                refine Or.inl ⟨m', ?_, hpi⟩
                rw [div2_pow]
                exact hm
            · refine Or.inr ?_
              rw [hvo i hip hicur]
              by_cases hvis : visits s.sides i cur
              · rcases da_set_of_visits s.sides i cur hcs hvis with ⟨hda1, hda2⟩ |
                  ⟨hda1, hda2⟩
                · rw [hda2, hdacur, hvp]
                  rw [hda1] at hOK
                  exact hOK
                · rw [hda2, hvc]
                  rw [hda1, hdacur] at hOK
                  exact hOK
              · rw [hda' i hvis]
                have hdne : distinguished_ancestor s.sides i ≠ cur := by
                  intro hh
                  exact hvis (visits_of_da s.sides i cur (by omega) hh)
                by_cases hdap : distinguished_ancestor s.sides i = p
                · rw [hdap, hvp]
                  rw [hdap] at hOK
                  exact le_trans hOK (le_of_lt hc)
                · rw [hvo _ hdap hdne]
                  exact hOK
        have hHub2 : 0 < p → (getE (lswap s.data cur p) p).priority ≤ UB ∧
            ∀ m, p < cur / 2 / 2 ^ m →
              (getE (lswap s.data cur p) (cur / 2 / 2 ^ m)).priority ≤ UB := by
          intro hp0
          obtain ⟨hub1, hub2⟩ := hub hp0
          constructor
          · rw [hvp]
            have h5 := hub2 0 (by simpa using hcur)
            simpa using h5
          · intro m hm
            rw [div2_pow] at hm ⊢
            have hne2 : cur / 2 ^ (m + 1) ≠ cur := by
              have h5 : cur / 2 ^ (m + 1) ≤ cur / 2 := by
                rw [← div2_pow]
                exact Nat.div_le_self _ _
              omega
            rw [hvo _ (by omega) hne2]
            exact hub2 (m + 1) hm
        obtain ⟨c1, c2, c3, c4, c5, c6⟩ := ih (cur / 2) (by omega)
          ⟨s.sides.set cur (!(s.sides.getD cur false)), lswap s.data cur p⟩
          (by simpa using hlen) (by simpa using hpn) hHpath2 hHok2 hHub2
        refine ⟨c1, c2, ?_, ?_, by simpa using c5, by simpa using c6⟩
        · intro j hj
          rw [c3 j hj]
          exact hvo j (by omega) (by omega)
        · intro x hx
          rw [c4 x hx]
          exact getD_set_ne' _ _ _ (by omega : cur ≠ x)
      · -- no swap
        rw [walkUp_noswap s p cur hcur hc]
        push_neg at hc
        have hHok2 : ∀ i, 0 < i → i < s.data.length → i ≠ p →
            ((∃ m, i = cur / 2 / 2 ^ m ∧ p < i) ∨
              (getE s.data (distinguished_ancestor s.sides i)).priority ≥
                (getE s.data i).priority) := by
          intro i h0 hilen hip
          by_cases hicur : i = cur
          · refine Or.inr ?_
            rw [hicur, hdacur]
            exact hc
          · rcases hok i h0 hilen hip with ⟨m, hm, hpi⟩ | hOK
            · cases m with
              | zero =>
                simp only [pow_zero, Nat.div_one] at hm
                exact absurd hm hicur
              | succ m' =>
                refine Or.inl ⟨m', ?_, hpi⟩
                rw [div2_pow]
                exact hm
            · exact Or.inr hOK
        have hHub2 : 0 < p → (getE s.data p).priority ≤ UB ∧
            ∀ m, p < cur / 2 / 2 ^ m → (getE s.data (cur / 2 / 2 ^ m)).priority ≤ UB := by
          intro hp0
          obtain ⟨hub1, hub2⟩ := hub hp0
          refine ⟨hub1, ?_⟩
          intro m hm
          rw [div2_pow] at hm ⊢
          exact hub2 (m + 1) hm
        exact ih (cur / 2) (by omega) s hlen hpn hpath' hHok2 hHub2
    · rw [walkUp_exit s p cur hcur]
      refine ⟨?_, fun hp0 => (hub hp0).1, fun j _ => rfl, fun x _ => rfl, rfl, rfl⟩
      intro i h0 hilen hip
      rcases hok i h0 (by simpa using hilen) hip with ⟨m, hm, hpi⟩ | hOK
      · exfalso
        have hle : i ≤ cur := hm ▸ Nat.div_le_self cur (2 ^ m)
        omega
      · exact hOK

end Weak

namespace Weak

variable {α : Type} [LinearOrder α] [Inhabited α]

theorem wup_zero (s : WState α) :
    heapify_up s 0 = (s, [((getE s.data 0).outer_pos, 0)]) := by
  unfold heapify_up
  simp

theorem wup_halt (s : WState α) (q : Nat) (h : 0 < q)
    (hc : (getE s.data (distinguished_ancestor s.sides q)).priority ≥
      (getE s.data q).priority) :
    heapify_up s q = (s, [((getE s.data q).outer_pos, q)]) := by
  unfold heapify_up
  rw [dif_pos h, if_pos (by exact hc)]

theorem wup_step (s : WState α) (q : Nat) (h : 0 < q)
    (hc : ¬ (getE s.data (distinguished_ancestor s.sides q)).priority ≥
      (getE s.data q).priority) :
    heapify_up s q =
      ((heapify_up ⟨s.sides.set q (!(s.sides.getD q false)),
          lswap s.data (distinguished_ancestor s.sides q) q⟩
          (distinguished_ancestor s.sides q)).1,
        ((getE (lswap s.data (distinguished_ancestor s.sides q) q) q).outer_pos, q)
          :: (heapify_up ⟨s.sides.set q (!(s.sides.getD q false)),
              lswap s.data (distinguished_ancestor s.sides q) q⟩
              (distinguished_ancestor s.sides q)).2) := by
  conv_lhs => unfold heapify_up
  rw [dif_pos h, if_neg (by exact hc)]

/-- Master lemma for the weak sift-up: if every node except `q` satisfies the
distinguished-ancestor relation, sifting up from `q` restores it everywhere. -/
theorem wup_master (q : Nat) : ∀ (s : WState α),
    s.sides.length = s.data.length → q < s.data.length →
    (∀ i, 0 < i → i < s.data.length → i ≠ q →
      (getE s.data (distinguished_ancestor s.sides i)).priority ≥
        (getE s.data i).priority) →
    ((∀ i, 0 < i → i < (heapify_up s q).1.data.length →
      (getE (heapify_up s q).1.data
        (distinguished_ancestor (heapify_up s q).1.sides i)).priority ≥
        (getE (heapify_up s q).1.data i).priority) ∧
     (heapify_up s q).1.sides.length = s.sides.length ∧
     (heapify_up s q).1.data.length = s.data.length) := by
  induction q using Nat.strong_induction_on with
  | _ q ih =>
    intro s hlen hqn hi
    rcases Nat.eq_zero_or_pos q with rfl | h0
    · rw [wup_zero]
      exact ⟨fun i hi0 hilen => hi i hi0 hilen (by omega), rfl, rfl⟩
    · by_cases hc : (getE s.data (distinguished_ancestor s.sides q)).priority ≥
          (getE s.data q).priority
      · rw [wup_halt s q h0 hc]
        refine ⟨?_, rfl, rfl⟩
        intro i hi0 hilen
        by_cases hiq : i = q
        · rw [hiq]
          exact hc
        · exact hi i hi0 hilen hiq
      · rw [wup_step s q h0 hc]
        push_neg at hc
        have ha := da_lt s.sides q h0
        have han : distinguished_ancestor s.sides q < s.data.length := by omega
        have hqs : q < s.sides.length := by omega
        have hget : ∀ x, getE (lswap s.data (distinguished_ancestor s.sides q) q) x =
            if x = q then getE s.data (distinguished_ancestor s.sides q)
            else if x = distinguished_ancestor s.sides q then getE s.data q
            else getE s.data x := by
          intro x
          simp only [getE]
          exact lswap_getD s.data _ q x han hqn
        have hda' : ∀ j, ¬ visits s.sides j q →
            distinguished_ancestor (s.sides.set q (!(s.sides.getD q false))) j =
              distinguished_ancestor s.sides j :=
          fun j hj => da_set_of_not_visits s.sides j q _ hj
        have hi2 : ∀ i, 0 < i →
            i < (lswap s.data (distinguished_ancestor s.sides q) q).length →
            i ≠ distinguished_ancestor s.sides q →
            (getE (lswap s.data (distinguished_ancestor s.sides q) q)
              (distinguished_ancestor (s.sides.set q (!(s.sides.getD q false))) i)).priority ≥
              (getE (lswap s.data (distinguished_ancestor s.sides q) q) i).priority := by
          intro i hi0 hilen hia
          have hilen' : i < s.data.length := by simpa using hilen
          by_cases hiq : i = q
          · have hdai : distinguished_ancestor
                (s.sides.set q (!(s.sides.getD q false))) i =
                distinguished_ancestor s.sides q := by
              rw [hiq, da_set_of_not_visits s.sides q q _ (not_visits_self s.sides q)]
            rw [hdai, hget, hget]
            rw [if_neg (by omega : ¬ distinguished_ancestor s.sides q = q), if_pos rfl,
              if_pos hiq]
            exact le_of_lt hc
          · have hvi : getE (lswap s.data (distinguished_ancestor s.sides q) q) i =
                getE s.data i := by
              rw [hget, if_neg hiq, if_neg hia]
            rw [hvi]
            by_cases hvis : visits s.sides i q
            · rcases da_set_of_visits s.sides i q hqs hvis with ⟨hda1, hda2⟩ |
                ⟨hda1, hda2⟩
              · rw [hda2, hget,
                  if_neg (by omega : ¬ distinguished_ancestor s.sides q = q), if_pos rfl]
                have h5 := hi i hi0 hilen' hiq
                rw [hda1] at h5
                exact h5
              · rw [hda2, hget, if_pos rfl]
                have h5 := hi i hi0 hilen' hiq
                rw [hda1] at h5
                exact h5
            · rw [hda' i hvis]
              have hdne : distinguished_ancestor s.sides i ≠ q := by
                intro hh
                exact hvis (visits_of_da s.sides i q h0 hh)
              by_cases hdap : distinguished_ancestor s.sides i =
                  distinguished_ancestor s.sides q
              · rw [hget, if_neg hdne, hdap, if_pos rfl]
                have h5 := hi i hi0 hilen' hiq
                rw [hdap] at h5
                exact le_trans h5 (le_of_lt hc)
              · rw [hget, if_neg hdne, if_neg hdap]
                exact hi i hi0 hilen' hiq
        obtain ⟨c1, c2, c3⟩ := ih (distinguished_ancestor s.sides q) ha
          ⟨s.sides.set q (!(s.sides.getD q false)),
            lswap s.data (distinguished_ancestor s.sides q) q⟩
          (by simpa using hlen) (by simpa using han) hi2
        exact ⟨c1, by simpa using c2, by simpa using c3⟩

end Weak

namespace Weak

variable {α : Type} [LinearOrder α] [Inhabited α]

theorem wdown_leaf (s : WState α) (p : Nat)
    (h : ¬ first_child s.sides p < s.data.length) :
    heapify_down s p = (s, [((getE s.data p).outer_pos, p)]) := by
  unfold heapify_down
  rw [if_neg h]

theorem wdown_go (s : WState α) (p : Nat) (h : first_child s.sides p < s.data.length) :
    heapify_down s p =
      walkUp s p (descend s.sides s.data.length (first_child s.sides p) s.data.length) := by
  unfold heapify_down
  rw [if_pos h]

theorem nsk_ge_ns (sides : List Bool) (c : Nat) (k : Nat) (hk : 1 ≤ k) :
    next_sibling sides c ≤ nsk sides c k := by
  have h1 : nsk sides c k = nsk sides (next_sibling sides c) (k - 1) := by
    rw [nsk_shift]
    congr 1
    omega
  rw [h1]
  exact nsk_ge sides _ _

/-- Master lemma for `WeakHeap::heapify_down`: repairs all constraints whose
distinguished ancestor is `p`, keeps everything else, does not touch slots or
side bits at or below `p`, and leaves slot `p` bounded by `UB`. -/
theorem wdown_master (s : WState α) (p : Nat) (UB : α)
    (hlen : s.sides.length = s.data.length)
    (hs0 : s.sides.getD 0 false = false)
    (hpn : p < s.data.length)
    (hA : ∀ i, 0 < i → i < s.data.length → distinguished_ancestor s.sides i ≠ p →
      (getE s.data (distinguished_ancestor s.sides i)).priority ≥
        (getE s.data i).priority)
    (hB : 0 < p → ∀ i, 0 < i → i < s.data.length →
      distinguished_ancestor s.sides i = p → (getE s.data i).priority ≤ UB)
    (hC : 0 < p → (getE s.data p).priority ≤ UB) :
    ((∀ i, 0 < i → i < (heapify_down s p).1.data.length → i ≠ p →
      (getE (heapify_down s p).1.data
        (distinguished_ancestor (heapify_down s p).1.sides i)).priority ≥
        (getE (heapify_down s p).1.data i).priority) ∧
     (0 < p → (getE (heapify_down s p).1.data p).priority ≤ UB) ∧
     (∀ j, j < p → getE (heapify_down s p).1.data j = getE s.data j) ∧
     (∀ x, x ≤ p → (heapify_down s p).1.sides.getD x false = s.sides.getD x false) ∧
     (heapify_down s p).1.sides.length = s.sides.length ∧
     (heapify_down s p).1.data.length = s.data.length) := by
  have hfcp : p < first_child s.sides p := by
    rw [fc_eq]
    rcases Nat.eq_zero_or_pos p with rfl | hp0
    · rw [hs0]
      simp
    · cases hb : s.sides.getD p false <;> omega
  by_cases h : first_child s.sides p < s.data.length
  · rw [wdown_go s p h]
    have hinit3 : ∀ m, p < first_child s.sides p / 2 ^ m →
        distinguished_ancestor s.sides (first_child s.sides p / 2 ^ m) = p ∧
          first_child s.sides p / 2 ^ m < s.data.length := by
      intro m hm
      cases m with
      | zero =>
        simp only [pow_zero, Nat.div_one] at hm ⊢
        exact ⟨da_fc s.sides p, h⟩
      | succ m' =>
        exfalso
        have h5 : first_child s.sides p / 2 ^ (m' + 1) = p / 2 ^ m' := by
          rw [← div2_pow, fc_div2]
        rw [h5] at hm
        have := Nat.div_le_self p (2 ^ m')
        omega
    have hinit4 : ∀ j, 0 < j → j < s.data.length →
        distinguished_ancestor s.sides j = p →
        ((∃ m, j = first_child s.sides p / 2 ^ m ∧ p < j) ∨
          ∃ k, 1 ≤ k ∧ j = nsk s.sides (first_child s.sides p) k) := by
      intro j hj0 hjn hjda
      obtain ⟨k, hk⟩ := chain_of_da s.sides p j hj0 hjda
      cases k with
      | zero =>
        refine Or.inl ⟨0, ?_, ?_⟩
        · simpa using hk
        · rw [hk]
          exact hfcp
      | succ k' =>
        exact Or.inr ⟨k' + 1, by omega, hk⟩
    obtain ⟨d1, d2, d3, d4, d5⟩ := descend_spec s.sides s.data.length p s.data.length
      (first_child s.sides p) hfcp h (by omega) hinit3 hinit4
    have hwok : ∀ i, 0 < i → i < s.data.length → i ≠ p →
        ((∃ m, i = descend s.sides s.data.length (first_child s.sides p)
            s.data.length / 2 ^ m ∧ p < i) ∨
          (getE s.data (distinguished_ancestor s.sides i)).priority ≥
            (getE s.data i).priority) := by
      intro i hi0 hilen hip
      by_cases hdap : distinguished_ancestor s.sides i = p
      · rcases d4 i hi0 hilen hdap with hleft | ⟨k, hk1, hk⟩
        · exact Or.inl hleft
        · exfalso
          have h5 := d5 (by omega)
          have h6 := nsk_ge_ns s.sides
            (descend s.sides s.data.length (first_child s.sides p) s.data.length) k hk1
          omega
      · exact Or.inr (hA i hi0 hilen hdap)
    have hwub : 0 < p → (getE s.data p).priority ≤ UB ∧
        ∀ m, p < descend s.sides s.data.length (first_child s.sides p)
            s.data.length / 2 ^ m →
          (getE s.data (descend s.sides s.data.length (first_child s.sides p)
            s.data.length / 2 ^ m)).priority ≤ UB := by
      intro hp0
      refine ⟨hC hp0, ?_⟩
      intro m hm
      have h5 := d3 m hm
      exact hB hp0 _ (by omega) h5.2 h5.1
    exact walkUp_master p UB _ s hlen hpn d3 hwok hwub
  · rw [wdown_leaf s p h]
    refine ⟨?_, fun hp0 => hC hp0, fun j _ => rfl, fun x _ => rfl, rfl, rfl⟩
    intro i hi0 hilen hip
    by_cases hdap : distinguished_ancestor s.sides i = p
    · exfalso
      obtain ⟨k, hk⟩ := chain_of_da s.sides p i hi0 hdap
      have h5 := nsk_ge s.sides (first_child s.sides p) k
      simp only at hilen
      omega
    · exact hA i hi0 (by simpa using hilen) hdap

end Weak

namespace Weak

variable {α : Type} [LinearOrder α] [Inhabited α]

/-- Sharper locality: `da` only consults side bits at indices `x` with
`2x ≤ j`. -/
theorem da_congr2 (sides1 sides2 : List Bool) (j : Nat)
    (h : ∀ x, 2 * x ≤ j → sides1.getD x false = sides2.getD x false) :
    distinguished_ancestor sides1 j = distinguished_ancestor sides2 j := by
  induction j using Nat.strong_induction_on with
  | _ j ih =>
    rcases Nat.eq_zero_or_pos j with rfl | h0
    · simp
    · rw [da_pos _ _ h0, da_pos _ _ h0]
      have hd : direct sides1 j = direct sides2 j := by
        unfold direct
        rw [h (j / 2) (by omega)]
      rw [hd]
      by_cases hdir : direct sides2 j = true
      · rw [if_pos hdir, if_pos hdir]
      · rw [if_neg hdir, if_neg hdir]
        exact ih (j / 2) (by omega) (fun x hx => h x (by omega))

theorem walkUp_len (p : Nat) : ∀ (cur : Nat) (s : WState α),
    (walkUp s p cur).1.sides.length = s.sides.length ∧
    (walkUp s p cur).1.data.length = s.data.length := by
  intro cur
  induction cur using Nat.strong_induction_on with
  | _ cur ih =>
    intro s
    by_cases hcur : p < cur
    · by_cases hc : (getE s.data p).priority < (getE s.data cur).priority
      · rw [walkUp_swap s p cur hcur hc]
        have := ih (cur / 2) (by omega)
          ⟨s.sides.set cur (!(s.sides.getD cur false)), lswap s.data cur p⟩
        simpa using this
      · rw [walkUp_noswap s p cur hcur hc]
        exact ih (cur / 2) (by omega) s
    · rw [walkUp_exit s p cur hcur]
      exact ⟨rfl, rfl⟩

theorem walkUp_sides0 (p : Nat) : ∀ (cur : Nat) (s : WState α),
    (walkUp s p cur).1.sides.getD 0 false = s.sides.getD 0 false := by
  intro cur
  induction cur using Nat.strong_induction_on with
  | _ cur ih =>
    intro s
    by_cases hcur : p < cur
    · by_cases hc : (getE s.data p).priority < (getE s.data cur).priority
      · rw [walkUp_swap s p cur hcur hc]
        have := ih (cur / 2) (by omega)
          ⟨s.sides.set cur (!(s.sides.getD cur false)), lswap s.data cur p⟩
        simp only at this ⊢
        rw [this]
        exact getD_set_ne' _ _ _ (by omega : cur ≠ 0)
      · rw [walkUp_noswap s p cur hcur hc]
        exact ih (cur / 2) (by omega) s
    · rw [walkUp_exit s p cur hcur]

theorem walkUp_perm (p : Nat) : ∀ (cur : Nat) (s : WState α),
    p < s.data.length →
    (∀ m, p < cur / 2 ^ m → cur / 2 ^ m < s.data.length) →
    (walkUp s p cur).1.data.Perm s.data := by
  intro cur
  induction cur using Nat.strong_induction_on with
  | _ cur ih =>
    intro s hpn hbd
    by_cases hcur : p < cur
    · have hcn : cur < s.data.length := by
        have := hbd 0 (by simpa using hcur)
        simpa using this
      have hbd2 : ∀ m, p < cur / 2 / 2 ^ m → cur / 2 / 2 ^ m < s.data.length := by
        intro m hm
        rw [div2_pow] at hm ⊢
        exact hbd (m + 1) hm
      by_cases hc : (getE s.data p).priority < (getE s.data cur).priority
      · rw [walkUp_swap s p cur hcur hc]
        refine List.Perm.trans (ih (cur / 2) (by omega)
          ⟨s.sides.set cur (!(s.sides.getD cur false)), lswap s.data cur p⟩
          (by simpa using hpn) (by simpa using hbd2)) ?_
        exact lswap_perm s.data cur p hcn hpn
      · rw [walkUp_noswap s p cur hcur hc]
        exact ih (cur / 2) (by omega) s hpn hbd2
    · rw [walkUp_exit s p cur hcur]

theorem wup_len (q : Nat) : ∀ (s : WState α),
    (heapify_up s q).1.sides.length = s.sides.length ∧
    (heapify_up s q).1.data.length = s.data.length := by
  induction q using Nat.strong_induction_on with
  | _ q ih =>
    intro s
    rcases Nat.eq_zero_or_pos q with rfl | h0
    · rw [wup_zero]
      exact ⟨rfl, rfl⟩
    · by_cases hc : (getE s.data (distinguished_ancestor s.sides q)).priority ≥
          (getE s.data q).priority
      · rw [wup_halt s q h0 hc]
        exact ⟨rfl, rfl⟩
      · rw [wup_step s q h0 hc]
        have := ih (distinguished_ancestor s.sides q) (da_lt s.sides q h0)
          ⟨s.sides.set q (!(s.sides.getD q false)),
            lswap s.data (distinguished_ancestor s.sides q) q⟩
        simpa using this

theorem wup_sides0 (q : Nat) : ∀ (s : WState α),
    (heapify_up s q).1.sides.getD 0 false = s.sides.getD 0 false := by
  induction q using Nat.strong_induction_on with
  | _ q ih =>
    intro s
    rcases Nat.eq_zero_or_pos q with rfl | h0
    · rw [wup_zero]
    · by_cases hc : (getE s.data (distinguished_ancestor s.sides q)).priority ≥
          (getE s.data q).priority
      · rw [wup_halt s q h0 hc]
      · rw [wup_step s q h0 hc]
        have := ih (distinguished_ancestor s.sides q) (da_lt s.sides q h0)
          ⟨s.sides.set q (!(s.sides.getD q false)),
            lswap s.data (distinguished_ancestor s.sides q) q⟩
        simp only at this ⊢
        rw [this]
        exact getD_set_ne' _ _ _ (by omega : q ≠ 0)

theorem wup_perm (q : Nat) : ∀ (s : WState α), q < s.data.length →
    (heapify_up s q).1.data.Perm s.data := by
  induction q using Nat.strong_induction_on with
  | _ q ih =>
    intro s hqn
    rcases Nat.eq_zero_or_pos q with rfl | h0
    · rw [wup_zero]
    · by_cases hc : (getE s.data (distinguished_ancestor s.sides q)).priority ≥
          (getE s.data q).priority
      · rw [wup_halt s q h0 hc]
      · rw [wup_step s q h0 hc]
        have ha := da_lt s.sides q h0
        refine List.Perm.trans (ih (distinguished_ancestor s.sides q) ha
          ⟨s.sides.set q (!(s.sides.getD q false)),
            lswap s.data (distinguished_ancestor s.sides q) q⟩ (by simpa using by omega :
              distinguished_ancestor s.sides q <
                (lswap s.data (distinguished_ancestor s.sides q) q).length)) ?_
        exact lswap_perm s.data _ q (by omega) hqn

end Weak

namespace Weak

variable {α : Type} [LinearOrder α] [Inhabited α]

theorem wdown_len (s : WState α) (p : Nat) :
    (heapify_down s p).1.sides.length = s.sides.length ∧
    (heapify_down s p).1.data.length = s.data.length := by
  unfold heapify_down
  split
  · exact walkUp_len p _ s
  · exact ⟨rfl, rfl⟩

theorem wdown_sides0 (s : WState α) (p : Nat) :
    (heapify_down s p).1.sides.getD 0 false = s.sides.getD 0 false := by
  unfold heapify_down
  split
  · exact walkUp_sides0 p _ s
  · rfl

theorem wdown_perm (s : WState α) (p : Nat)
    (hs0 : s.sides.getD 0 false = false) (hpn : p < s.data.length) :
    (heapify_down s p).1.data.Perm s.data := by
  have hfcp : p < first_child s.sides p := by
    rw [fc_eq]
    rcases Nat.eq_zero_or_pos p with rfl | hp0
    · rw [hs0]
      simp
    · cases hb : s.sides.getD p false <;> omega
  by_cases h : first_child s.sides p < s.data.length
  · rw [wdown_go s p h]
    have hinit3 : ∀ m, p < first_child s.sides p / 2 ^ m →
        distinguished_ancestor s.sides (first_child s.sides p / 2 ^ m) = p ∧
          first_child s.sides p / 2 ^ m < s.data.length := by
      intro m hm
      cases m with
      | zero =>
        simp only [pow_zero, Nat.div_one] at hm ⊢
        exact ⟨da_fc s.sides p, h⟩
      | succ m' =>
        exfalso
        have h5 : first_child s.sides p / 2 ^ (m' + 1) = p / 2 ^ m' := by
          rw [← div2_pow, fc_div2]
        rw [h5] at hm
        have := Nat.div_le_self p (2 ^ m')
        omega
    have hinit4 : ∀ j, 0 < j → j < s.data.length →
        distinguished_ancestor s.sides j = p →
        ((∃ m, j = first_child s.sides p / 2 ^ m ∧ p < j) ∨
          ∃ k, 1 ≤ k ∧ j = nsk s.sides (first_child s.sides p) k) := by
      intro j hj0 hjn hjda
      rcases chain_of_da s.sides p j hj0 hjda with ⟨k, hk⟩
      cases k with
      | zero =>
        refine Or.inl ⟨0, ?_, ?_⟩
        · simpa using hk
        · rw [hk]
          simpa using hfcp
      | succ k' =>
        exact Or.inr ⟨k' + 1, by omega, hk⟩
    obtain ⟨d1, d2, d3, d4, d5⟩ := descend_spec s.sides s.data.length p s.data.length
      (first_child s.sides p) hfcp h (by omega) hinit3 hinit4
    exact walkUp_perm p _ s hpn (fun m hm => (d3 m hm).2)
  · rw [wdown_leaf s p (by omega)]

/-- Weak-heap well-formedness: side/entry arrays have equal lengths, the
root's side bit is clear, and the distinguished-ancestor invariant holds. -/
def WF (s : WState α) : Prop :=
  s.sides.length = s.data.length ∧ s.sides.getD 0 false = false ∧ WInv s

theorem push_WF (s : WState α) (o : Nat) (pr : α) (h : WF s) :
    WF (push s o pr).1 ∧ (push s o pr).1.data.length = s.data.length + 1 := by
  obtain ⟨hlen, hs0, hinv⟩ := h
  unfold push
  set n := s.data.length with hn
  set data' := s.data ++ [(⟨o, pr⟩ : HeapEntry α)] with hd'
  set sides'' := if n % 2 = 0 then (s.sides ++ [false]).set (n / 2) false
    else s.sides ++ [false] with hsd
  show WF (heapify_up ⟨sides'', data'⟩ n).1 ∧
    (heapify_up ⟨sides'', data'⟩ n).1.data.length = n + 1
  have hdl : data'.length = n + 1 := by
    rw [hd']
    simp
  have hsl : sides''.length = n + 1 := by
    rw [hsd]
    split <;> simp [hlen]
  have hsx : ∀ x, 2 * x < n → sides''.getD x false = s.sides.getD x false := by
    intro x hx
    rw [hsd]
    split
    · next hpar =>
      rw [getD_set_ne' _ _ _ (by omega : n / 2 ≠ x)]
      exact getD_append_lt' s.sides [false] x false (by omega)
    · exact getD_append_lt' s.sides [false] x false (by omega)
  have hgetE : ∀ i, i < n → getE data' i = getE s.data i := by
    intro i hi
    rw [hd']
    unfold getE
    exact getD_append_lt s.data [(⟨o, pr⟩ : HeapEntry α)] i (by omega)
  have hpre : ∀ i, 0 < i → i < data'.length → i ≠ n →
      (getE data' (distinguished_ancestor sides'' i)).priority ≥
        (getE data' i).priority := by
    intro i hi0 hil hine
    have hin : i < n := by omega
    have hda : distinguished_ancestor sides'' i = distinguished_ancestor s.sides i :=
      da_congr2 _ _ i (fun x hx => hsx x (by omega))
    rw [hda, hgetE i hin,
      hgetE (distinguished_ancestor s.sides i) (lt_trans (da_lt s.sides i hi0) hin)]
    exact hinv i hi0 hin
  obtain ⟨W, c2, c3⟩ := wup_master n ⟨sides'', data'⟩ (hsl.trans hdl.symm)
    (by simpa [hdl] using by omega) hpre
  have hs0' : sides''.getD 0 false = false := by
    rw [hsd]
    split
    · next hpar =>
      by_cases hz : n / 2 = 0
      · rw [← hz, getD_set_self']
        have : (s.sides ++ [false]).length = n + 1 := by simp [hlen]
        omega
      · rw [getD_set_ne' _ _ _ (by omega : n / 2 ≠ 0)]
        exact (getD_append_lt' s.sides [false] 0 false (by omega)).trans hs0
    · next hpar =>
      have hn1 : 0 < n := by omega
      exact (getD_append_lt' s.sides [false] 0 false (by omega)).trans hs0
  refine ⟨⟨?_, ?_, W⟩, by simpa [hdl] using c3⟩
  · simp only at c2 c3
    rw [c2, c3, hsl, hdl]
  · exact (wup_sides0 n ⟨sides'', data'⟩).trans hs0'

end Weak

namespace Weak

variable {α : Type} [LinearOrder α] [Inhabited α]

theorem wchange_up (s : WState α) (p : Nat) (updated : α)
    (h : (getE s.data p).priority < updated) :
    change_priority s p updated =
      ((heapify_up ⟨s.sides,
          s.data.set p ⟨(getE s.data p).outer_pos, updated⟩⟩ p).1,
        (heapify_up ⟨s.sides,
          s.data.set p ⟨(getE s.data p).outer_pos, updated⟩⟩ p).2,
        (getE s.data p).priority) := by
  unfold change_priority
  rw [if_pos h]

theorem wchange_down (s : WState α) (p : Nat) (updated : α)
    (h : updated < (getE s.data p).priority) :
    change_priority s p updated =
      ((heapify_down ⟨s.sides,
          s.data.set p ⟨(getE s.data p).outer_pos, updated⟩⟩ p).1,
        (heapify_down ⟨s.sides,
          s.data.set p ⟨(getE s.data p).outer_pos, updated⟩⟩ p).2,
        (getE s.data p).priority) := by
  unfold change_priority
  rw [if_neg (by exact not_lt_of_lt h), if_pos h]

/-- A `change_priority` to an equal priority is a structural no-op that
emits no events and returns the old priority. -/
theorem wchange_equal (s : WState α) (p : Nat)
    (h : updated = (getE s.data p).priority) :
    change_priority s p updated = (s, [], (getE s.data p).priority) := by
  unfold change_priority
  rw [if_neg (by rw [h]; exact lt_irrefl _), if_neg (by rw [h]; exact lt_irrefl _)]
  have he : (⟨(getE s.data p).outer_pos, updated⟩ : HeapEntry α) = getE s.data p := by
    rw [h]
  rw [he]
  show (({ sides := s.sides, data := s.data.set p (s.data.getD p default) } : WState α),
    ([] : List HeapEvent), (getE s.data p).priority) = _
  rw [set_getD_self]

theorem change_priority_WF (s : WState α) (p : Nat) (updated : α)
    (hpn : p < s.data.length) (h : WF s) :
    WF (change_priority s p updated).1 ∧
      (change_priority s p updated).1.data.length = s.data.length := by
  obtain ⟨hlen, hs0, hinv⟩ := h
  set e' : HeapEntry α := ⟨(getE s.data p).outer_pos, updated⟩ with he'
  set data2 := s.data.set p e' with hd2
  have hd2l : data2.length = s.data.length := by
    rw [hd2]
    simp
  have hget2 : ∀ x, getE data2 x = if x = p then e' else getE s.data x :=
    fun x => Bin.getE_set s.data p e' x hpn
  rcases lt_trichotomy (getE s.data p).priority updated with hup | heq | hdn
  · rw [wchange_up s p updated hup]
    have hpre : ∀ i, 0 < i → i < data2.length → i ≠ p →
        (getE data2 (distinguished_ancestor s.sides i)).priority ≥
          (getE data2 i).priority := by
      intro i hi0 hil hine
      rw [hget2 i, if_neg hine]
      rw [hget2 (distinguished_ancestor s.sides i)]
      by_cases hdap : distinguished_ancestor s.sides i = p
      · rw [if_pos hdap]
        have h1 := hinv i hi0 (by omega)
        rw [hdap] at h1
        exact le_trans h1 (le_of_lt hup)
      · rw [if_neg hdap]
        exact hinv i hi0 (by omega)
    obtain ⟨W, c2, c3⟩ := wup_master p ⟨s.sides, data2⟩ (by simpa [hd2l] using hlen)
      (by simpa [hd2l] using hpn) hpre
    have hs0' := wup_sides0 p ⟨s.sides, data2⟩
    simp only at W c2 c3 hs0'
    exact ⟨⟨by rw [c2, c3, hd2l, hlen], by rw [hs0', hs0], W⟩, by rw [c3, hd2l]⟩
  · rw [wchange_equal s p heq.symm]
    exact ⟨⟨hlen, hs0, hinv⟩, rfl⟩
  · rw [wchange_down s p updated hdn]
    set old := (getE s.data p).priority with hold
    have hA : ∀ i, 0 < i → i < data2.length →
        distinguished_ancestor s.sides i ≠ p →
        (getE data2 (distinguished_ancestor s.sides i)).priority ≥
          (getE data2 i).priority := by
      intro i hi0 hil hdap
      rw [hget2 (distinguished_ancestor s.sides i), if_neg hdap, hget2 i]
      by_cases hip : i = p
      · rw [if_pos hip, hip]
        refine le_trans (le_of_lt hdn) ?_
        exact hinv p (by omega) hpn
      · rw [if_neg hip]
        exact hinv i hi0 (by omega)
    have hB : 0 < p → ∀ i, 0 < i → i < data2.length →
        distinguished_ancestor s.sides i = p → (getE data2 i).priority ≤ old := by
      intro hp0 i hi0 hil hdap
      have hip : i ≠ p := by
        intro hcon
        rw [hcon] at hdap
        have := da_lt s.sides p hp0
        omega
      rw [hget2 i, if_neg hip]
      have h1 := hinv i hi0 (by omega)
      rw [hdap] at h1
      exact h1
    have hC : 0 < p → (getE data2 p).priority ≤ old := by
      intro _
      rw [hget2 p, if_pos rfl]
      exact le_of_lt hdn
    obtain ⟨w1, w2, w3, w4, w5, w6⟩ :=
      wdown_master ⟨s.sides, data2⟩ p old (by simpa [hd2l] using hlen) hs0
        (by simpa [hd2l] using hpn) hA hB hC
    have hs0' := wdown_sides0 ⟨s.sides, data2⟩ p
    simp only at w1 w2 w3 w4 w5 w6 hs0'
    refine ⟨⟨by rw [w5, w6, hd2l, hlen], by rw [hs0', hs0], ?_⟩, by rw [w6, hd2l]⟩
    intro i hi0 hil
    by_cases hip : i = p
    · rw [hip]
      have hp0 : 0 < p := by omega
      have hda : distinguished_ancestor
          (heapify_down ⟨s.sides, data2⟩ p).1.sides p =
          distinguished_ancestor s.sides p := by
        refine da_congr2 _ _ p (fun x hx => ?_)
        exact w4 x (by omega)
      rw [hda]
      have hdap : distinguished_ancestor s.sides p < p := da_lt s.sides p hp0
      have hv : getE (heapify_down ⟨s.sides, data2⟩ p).1.data
          (distinguished_ancestor s.sides p) =
          getE s.data (distinguished_ancestor s.sides p) := by
        rw [w3 _ hdap, hget2, if_neg (by omega)]
      rw [hv]
      exact le_trans (w2 hp0) (hinv p hp0 hpn)
    · exact w1 i hi0 hil hip

end Weak

namespace Weak

variable {α : Type} [LinearOrder α] [Inhabited α]

theorem wremove_oob (s : WState α) (position : Nat)
    (h : position ≥ s.data.length) : remove s position = (s, [], none) := by
  unfold remove
  rw [if_pos h]

theorem wremove_last (s : WState α) (position : Nat)
    (h1 : position < s.data.length) (h2 : position + 1 = s.data.length) :
    remove s position = (⟨s.sides.dropLast, s.data.dropLast⟩, [],
      some ((getE s.data position).outer_pos, (getE s.data position).priority)) := by
  unfold remove
  rw [if_neg (by omega), if_pos h2]

theorem wremove_swap (s : WState α) (position : Nat)
    (h1 : position < s.data.length) (h2 : position + 1 ≠ s.data.length) :
    remove s position =
      ((heapify_down ⟨s.sides.dropLast, swapRemove s.data position⟩ position).1,
        (heapify_down ⟨s.sides.dropLast, swapRemove s.data position⟩ position).2,
        some ((getE s.data position).outer_pos, (getE s.data position).priority)) := by
  unfold remove
  rw [if_neg (by omega), if_neg h2]

theorem wremove_result (s : WState α) (position : Nat)
    (hpos : position < s.data.length) :
    (remove s position).2.2 =
      some ((getE s.data position).outer_pos, (getE s.data position).priority) := by
  by_cases hlast : position + 1 = s.data.length
  · rw [wremove_last s position hpos hlast]
  · rw [wremove_swap s position hpos hlast]

/-- The side-bit table and the entry table stay the same length through
`remove`, in all three branches. -/
theorem wremove_len (s : WState α) (position : Nat)
    (hlen : s.sides.length = s.data.length) :
    (remove s position).1.sides.length = (remove s position).1.data.length ∧
      (remove s position).1.data.length =
        (if position < s.data.length then s.data.length - 1 else s.data.length) := by
  by_cases hoob : position ≥ s.data.length
  · rw [wremove_oob s position hoob, if_neg (by omega)]
    exact ⟨hlen, rfl⟩
  · rw [if_pos (by omega)]
    by_cases hlast : position + 1 = s.data.length
    · rw [wremove_last s position (by omega) hlast]
      constructor <;> simp [hlen]
    · rw [wremove_swap s position (by omega) hlast]
      obtain ⟨c1, c2⟩ := wdown_len ⟨s.sides.dropLast, swapRemove s.data position⟩ position
      simp only at c1 c2
      rw [c1, c2]
      constructor <;> simp [hlen]

theorem wremove_perm (s : WState α) (position : Nat)
    (hpos : position < s.data.length) (hs0 : s.sides.getD 0 false = false) :
    (getE s.data position :: (remove s position).1.data).Perm s.data := by
  by_cases hlast : position + 1 = s.data.length
  · rw [wremove_last s position hpos hlast]
    show (getE s.data position :: s.data.dropLast).Perm s.data
    have heq : s.data.dropLast = swapRemove s.data position := by
      unfold swapRemove
      have hpp : position = s.data.length - 1 := by omega
      rw [hpp, set_getD_self]
    rw [heq]
    exact swapRemove_cons_perm s.data position hpos
  · rw [wremove_swap s position hpos hlast]
    have hs0' : (s.sides.dropLast).getD 0 false = false := by
      by_cases hl : 1 < s.sides.length
      · rw [getD_dropLast' s.sides 0 false (by omega)]
        exact hs0
      · match hss : s.sides with
        | [] => rfl
        | [b] => rfl
        | b :: c :: rest =>
          rw [hss] at hl
          exfalso
          simp at hl
    have hperm := wdown_perm ⟨s.sides.dropLast, swapRemove s.data position⟩ position
      hs0' (by simpa using by omega)
    simp only at hperm
    exact List.Perm.trans (List.Perm.cons _ hperm)
      (swapRemove_cons_perm s.data position hpos)

theorem wremove_WF (s : WState α) (position : Nat) (h : WF s)
    (hp : position = 0 ∨ position + 1 = s.data.length) :
    WF (remove s position).1 := by
  obtain ⟨hlen, hs0, hinv⟩ := h
  by_cases hoob : position ≥ s.data.length
  · rw [wremove_oob s position hoob]
    exact ⟨hlen, hs0, hinv⟩
  · by_cases hlast : position + 1 = s.data.length
    · rw [wremove_last s position (by omega) hlast]
      refine ⟨by simp [hlen], ?_, ?_⟩
      · by_cases hl : 1 < s.sides.length
        · rw [getD_dropLast' s.sides 0 false (by omega)]
          exact hs0
        · match hss : s.sides with
          | [] => rfl
          | [b] => rfl
          | b :: c :: rest =>
            rw [hss] at hl
            exfalso
            simp at hl
      · intro i hi0 hil
        simp only at hil ⊢
        have hil' : i < s.data.length - 1 := by simpa using hil
        have hda : distinguished_ancestor s.sides.dropLast i =
            distinguished_ancestor s.sides i := by
          refine da_congr2 _ _ i (fun x hx => ?_)
          exact getD_dropLast' s.sides x false (by omega)
        rw [hda]
        have hd1 : (s.data.dropLast).getD i default = s.data.getD i default :=
          getD_dropLast s.data i (by omega)
        have hda2 : distinguished_ancestor s.sides i < i := da_lt s.sides i hi0
        have hd2 : (s.data.dropLast).getD (distinguished_ancestor s.sides i) default =
            s.data.getD (distinguished_ancestor s.sides i) default :=
          getD_dropLast s.data _ (by omega)
        show ((s.data.dropLast).getD (distinguished_ancestor s.sides i) default).priority ≥
          ((s.data.dropLast).getD i default).priority
        rw [hd1, hd2]
        exact hinv i hi0 (by omega)
    · rcases hp with rfl | hp2
      · rw [wremove_swap s 0 (by omega) hlast]
        have hn2 : 2 ≤ s.data.length := by omega
        have hs0' : (s.sides.dropLast).getD 0 false = false := by
          rw [getD_dropLast' s.sides 0 false (by omega)]
          exact hs0
        have hA : ∀ i, 0 < i → i < (swapRemove s.data 0).length →
            distinguished_ancestor s.sides.dropLast i ≠ 0 →
            (getE (swapRemove s.data 0)
              (distinguished_ancestor s.sides.dropLast i)).priority ≥
              (getE (swapRemove s.data 0) i).priority := by
          intro i hi0 hil hne
          have hil' : i < s.data.length - 1 := by simpa using hil
          have hda : distinguished_ancestor s.sides.dropLast i =
              distinguished_ancestor s.sides i := by
            refine da_congr2 _ _ i (fun x hx => ?_)
            exact getD_dropLast' s.sides x false (by omega)
          rw [hda] at hne ⊢
          have hda2 : distinguished_ancestor s.sides i < i := da_lt s.sides i hi0
          show ((swapRemove s.data 0).getD (distinguished_ancestor s.sides i)
            default).priority ≥ ((swapRemove s.data 0).getD i default).priority
          rw [swapRemove_getD s.data 0 i (by omega) hil',
            swapRemove_getD s.data 0 (distinguished_ancestor s.sides i) (by omega)
              (by omega),
            if_neg (by omega : ¬ i = 0), if_neg (fun hh => hne hh)]
          exact hinv i hi0 (by omega)
        obtain ⟨w1, _, _, w4, w5, w6⟩ :=
          wdown_master ⟨s.sides.dropLast, swapRemove s.data 0⟩ 0 default
            (by simp [hlen]) hs0' (by simpa using by omega) hA
            (fun hcon => absurd hcon (lt_irrefl 0))
            (fun hcon => absurd hcon (lt_irrefl 0))
        simp only at w1 w4 w5 w6
        refine ⟨?_, ?_, ?_⟩
        · rw [w5, w6]
          simp [hlen]
        · rw [wdown_sides0]
          exact hs0'
        · intro i hi0 hil
          exact w1 i hi0 hil (by omega)
      · omega

end Weak

namespace Weak

variable {α : Type} [LinearOrder α] [Inhabited α]

@[simp]
theorem ig_da_zero : ignorant_distinguished_ancestor 0 = 0 := by
  unfold ignorant_distinguished_ancestor
  simp

theorem ig_da_lt (j : Nat) (h0 : 0 < j) : ignorant_distinguished_ancestor j < j := by
  induction j using Nat.strong_induction_on with
  | _ j ih =>
    unfold ignorant_distinguished_ancestor
    rw [dif_pos h0]
    split
    · omega
    · rcases Nat.eq_zero_or_pos (j / 2) with hz | hp
      · rw [hz, ig_da_zero]
        omega
      · exact lt_trans (ih _ (by omega) hp) (by omega)

/-- On an all-clear prefix of the side table, the ignorant ancestor agrees
with the real distinguished ancestor. -/
theorem ig_da_eq_da (sides : List Bool) (j : Nat)
    (h : ∀ x, 2 * x ≤ j → sides.getD x false = false) :
    distinguished_ancestor sides j = ignorant_distinguished_ancestor j := by
  induction j using Nat.strong_induction_on with
  | _ j ih =>
    rcases Nat.eq_zero_or_pos j with rfl | h0
    · simp
    · rw [da_pos _ _ h0]
      conv_rhs => unfold ignorant_distinguished_ancestor
      rw [dif_pos h0]
      rcases Nat.even_or_odd j with he | ho
      · have hm : j % 2 = 0 := Nat.even_iff.mp he
        have hdir : direct sides j = false := by
          unfold direct
          rw [h (j / 2) (by omega), hm]
          rfl
        rw [if_neg (by rw [hdir]; exact Bool.false_ne_true), if_neg (by omega)]
        exact ih (j / 2) (by omega) (fun x hx => h x (by omega))
      · have hm : j % 2 = 1 := Nat.odd_iff.mp ho
        have hdir : direct sides j = true := by
          unfold direct
          rw [h (j / 2) (by omega), hm]
          rfl
        rw [if_pos hdir, if_pos (by omega)]

theorem getD_replicate_false (n x : Nat) :
    (List.replicate n false).getD x false = false := by
  rw [List.getD_eq_getElem?_getD]
  rcases lt_or_ge x n with h | h
  · rw [List.getElem?_replicate, if_pos h]
    rfl
  · rw [List.getElem?_eq_none (by simpa using h)]
    rfl

theorem buildLoop_WF (j : Nat) : ∀ (s : WState α),
    s.sides.length = s.data.length →
    j < s.data.length ∨ j = 0 →
    (∀ x, x ≤ j → s.sides.getD x false = false) →
    (∀ i, j < i → i < s.data.length →
      (getE s.data (distinguished_ancestor s.sides i)).priority ≥
        (getE s.data i).priority) →
    (WF (buildLoop s j) ∧ (buildLoop s j).data.length = s.data.length ∧
      (buildLoop s j).data.Perm s.data) := by
  induction j with
  | zero =>
    intro s hlen _ hK1 hK2
    refine ⟨⟨hlen, hK1 0 le_rfl, ?_⟩, rfl, List.Perm.refl _⟩
    intro i hi0 hil
    exact hK2 i hi0 hil
  | succ j ih =>
    intro s hlen hjn hK1 hK2
    have hn : j + 1 < s.data.length := by omega
    show WF (buildLoop (buildStep s (j + 1)) j) ∧
      (buildLoop (buildStep s (j + 1)) j).data.length = s.data.length ∧
      (buildLoop (buildStep s (j + 1)) j).data.Perm s.data
    have hKa : ∀ x, 2 * x ≤ j + 1 → s.sides.getD x false = false :=
      fun x hx => hK1 x (by omega)
    have ha_eq : distinguished_ancestor s.sides (j + 1) =
        ignorant_distinguished_ancestor (j + 1) :=
      ig_da_eq_da s.sides (j + 1) hKa
    have halt : ignorant_distinguished_ancestor (j + 1) < j + 1 :=
      ig_da_lt (j + 1) (by omega)
    set a := ignorant_distinguished_ancestor (j + 1) with hA
    have han : a < s.data.length := by omega
    by_cases hsw : (getE s.data a).priority < (getE s.data (j + 1)).priority
    · -- swap branch
      have hstep : buildStep s (j + 1) =
          ⟨s.sides.set (j + 1) (!(s.sides.getD (j + 1) false)),
            lswap s.data a (j + 1)⟩ := by
        unfold buildStep
        rw [← hA, if_pos hsw]
      rw [hstep]
      have hdl : (lswap s.data a (j + 1)).length = s.data.length := lswap_length _ _ _
      have hgd : ∀ x, (lswap s.data a (j + 1)).getD x default =
          if x = j + 1 then s.data.getD a default
          else if x = a then s.data.getD (j + 1) default
          else s.data.getD x default :=
        fun x => lswap_getD s.data a (j + 1) x han hn
      have hK1' : ∀ x, x ≤ j →
          (s.sides.set (j + 1) (!(s.sides.getD (j + 1) false))).getD x false = false := by
        intro x hx
        rw [getD_set_ne' _ _ _ (by omega : j + 1 ≠ x)]
        exact hK1 x (by omega)
      have hK2' : ∀ i, j < i → i < (lswap s.data a (j + 1)).length →
          (getE (lswap s.data a (j + 1))
            (distinguished_ancestor
              (s.sides.set (j + 1) (!(s.sides.getD (j + 1) false))) i)).priority ≥
            (getE (lswap s.data a (j + 1)) i).priority := by
        intro i hji hiln
        rw [hdl] at hiln
        by_cases hit : i = j + 1
        · have hda : distinguished_ancestor
              (s.sides.set (j + 1) (!(s.sides.getD (j + 1) false))) i =
              distinguished_ancestor s.sides i := by
            refine da_congr2 _ _ i (fun x hx => ?_)
            rw [getD_set_ne' _ _ _ (by omega : j + 1 ≠ x)]
          rw [hda, hit, ha_eq]
          show (getE (lswap s.data a (j + 1)) a).priority ≥
            (getE (lswap s.data a (j + 1)) (j + 1)).priority
          unfold getE
          rw [hgd a, hgd (j + 1), if_neg (by omega : ¬ a = j + 1), if_pos rfl,
            if_pos rfl]
          exact le_of_lt hsw
        · have hit2 : j + 1 < i := by omega
          have hvi : getE (lswap s.data a (j + 1)) i = getE s.data i := by
            unfold getE
            rw [hgd i, if_neg (by omega), if_neg (by omega)]
          have hva : getE (lswap s.data a (j + 1)) a = getE s.data (j + 1) := by
            unfold getE
            rw [hgd a, if_neg (by omega), if_pos rfl]
          have hvt : getE (lswap s.data a (j + 1)) (j + 1) = getE s.data a := by
            unfold getE
            rw [hgd (j + 1), if_pos rfl]
          rw [hvi]
          by_cases hvis : visits s.sides i (j + 1)
          · rcases da_set_of_visits s.sides i (j + 1) (by omega) hvis with
              ⟨hd1, hd2⟩ | ⟨hd1, hd2⟩
            · rw [hd2, ha_eq, hva]
              have := hK2 i (by omega) hiln
              rw [hd1] at this
              exact this
            · rw [hd2, hvt]
              have := hK2 i (by omega) hiln
              rw [hd1, ha_eq] at this
              exact this
          · rw [da_set_of_not_visits s.sides i (j + 1) _ hvis]
            by_cases hdai : distinguished_ancestor s.sides i = a
            · rw [hdai, hva]
              have := hK2 i (by omega) hiln
              rw [hdai] at this
              exact le_trans this (le_of_lt hsw)
            · have hdat : distinguished_ancestor s.sides i ≠ j + 1 := by
                intro hcon
                exact hvis (visits_of_da s.sides i (j + 1) (by omega) hcon)
              have hvd : getE (lswap s.data a (j + 1))
                  (distinguished_ancestor s.sides i) =
                  getE s.data (distinguished_ancestor s.sides i) := by
                unfold getE
                rw [hgd _, if_neg hdat, if_neg hdai]
              rw [hvd]
              exact hK2 i (by omega) hiln
      obtain ⟨hWF, hlen2, hperm2⟩ := ih
        ⟨s.sides.set (j + 1) (!(s.sides.getD (j + 1) false)), lswap s.data a (j + 1)⟩
        (by simp [hlen]) (by simp only; rw [hdl]; omega) hK1' hK2'
      simp only at hWF hlen2 hperm2
      refine ⟨hWF, ?_, ?_⟩
      · rw [hlen2, hdl]
      · exact hperm2.trans (lswap_perm s.data a (j + 1) han hn)
    · -- no-swap branch
      have hstep : buildStep s (j + 1) = s := by
        unfold buildStep
        rw [← hA, if_neg hsw]
      rw [hstep]
      refine ih s hlen (by omega) (fun x hx => hK1 x (by omega)) ?_
      intro i hji hiln
      by_cases hit : i = j + 1
      · rw [hit, ha_eq]
        exact le_of_not_lt hsw
      · exact hK2 i (by omega) hiln

/-- `WeakHeap::from_entries_vec` produces a well-formed weak heap whose
entries are a permutation of (indeed equal in multiset to) the input. -/
theorem from_entries_vec_WF (v : List (HeapEntry α)) :
    WF (from_entries_vec v) ∧ (from_entries_vec v).data.length = v.length ∧
      (from_entries_vec v).data.Perm v := by
  unfold from_entries_vec
  have := buildLoop_WF (v.length - 1) ⟨List.replicate v.length false, v⟩
    (by simp) (by simp only; omega)
    (fun x _ => getD_replicate_false v.length x)
    (fun i hi0 hil => by simp only at hil; omega)
  simpa using this

end Weak

namespace Weak

variable {α : Type} [LinearOrder α] [Inhabited α]

theorem WInv_root_max (s : WState α) (h : WInv s) :
    ∀ i, i < s.data.length → (getE s.data i).priority ≤ (getE s.data 0).priority := by
  intro i
  induction i using Nat.strong_induction_on with
  | _ i ih =>
    intro hi
    rcases Nat.eq_zero_or_pos i with rfl | h0
    · exact le_refl _
    · have hda : distinguished_ancestor s.sides i < i := da_lt s.sides i h0
      exact le_trans (h i h0 hi) (ih (distinguished_ancestor s.sides i) hda (by omega))

/-- Repeatedly `remove` position `0` (pop the maximum), collecting the
returned priorities. -/
def wpopAll (s : WState α) : Nat → List α
  | 0 => []
  | fuel + 1 =>
    match (remove s 0).2.2 with
    | some pr => pr.2 :: wpopAll (remove s 0).1 fuel
    | none => []

theorem wpopAll_sorted_perm (fuel : Nat) : ∀ (s : WState α),
    WF s → fuel = s.data.length →
    ((wpopAll s fuel).Sorted (· ≥ ·) ∧
      (wpopAll s fuel).Perm (s.data.map (fun e => e.priority))) := by
  induction fuel with
  | zero =>
    intro s _ hlen
    have : s.data = [] := List.eq_nil_of_length_eq_zero hlen.symm
    rw [this]
    simp [wpopAll]
  | succ fuel ih =>
    intro s hwf hlen
    have hpos : 0 < s.data.length := by omega
    have hres := wremove_result s 0 hpos
    have hrl := wremove_len s 0 hwf.1
    rw [if_pos hpos] at hrl
    have hrwf : WF (remove s 0).1 := wremove_WF s 0 hwf (Or.inl rfl)
    obtain ⟨ihs, ihp⟩ := ih (remove s 0).1 hrwf (by omega)
    have hperm := wremove_perm s 0 hpos hwf.2.1
    have hstep : wpopAll s (fuel + 1) =
        (getE s.data 0).priority :: wpopAll (remove s 0).1 fuel := by
      show (match (remove s 0).2.2 with
        | some pr => pr.2 :: wpopAll (remove s 0).1 fuel
        | none => []) = _
      rw [hres]
    rw [hstep]
    constructor
    · rw [List.sorted_cons]
      refine ⟨?_, ihs⟩
      intro b hb
      have hb2 : b ∈ (remove s 0).1.data.map (fun e => e.priority) := ihp.subset hb
      obtain ⟨e, he, rfl⟩ := List.mem_map.mp hb2
      have hed : e ∈ s.data := hperm.subset (List.mem_cons_of_mem _ he)
      obtain ⟨j, hj, rfl⟩ := List.mem_iff_getElem.mp hed
      rw [← getD_eq_getElem s.data j hj]
      exact WInv_root_max s hwf.2.2 j hj
    · refine List.Perm.trans (List.Perm.cons _ ihp) ?_
      have := hperm.map (fun e => e.priority)
      simpa using this

/-- Weak backend: building from any entry vector and popping everything
yields the priorities in descending sorted order. -/
theorem wbuild_pop_sorted (v : List (HeapEntry α)) :
    ((wpopAll (from_entries_vec v) (from_entries_vec v).data.length).Sorted (· ≥ ·) ∧
      (wpopAll (from_entries_vec v) (from_entries_vec v).data.length).Perm
        (v.map (fun e => e.priority))) := by
  obtain ⟨hwf, _, hp⟩ := from_entries_vec_WF v
  obtain ⟨hs, hp2⟩ := wpopAll_sorted_perm (from_entries_vec v).data.length
    (from_entries_vec v) hwf rfl
  exact ⟨hs, List.Perm.trans hp2 (hp.map _)⟩

end Weak

namespace Bin

variable {α : Type} [LinearOrder α] [Inhabited α]

/-- The last `change_handler` call of a sift-up names the slot where the
sifted element settled, paired with that slot's (its) owner. -/
theorem heapify_up_final (q : Nat) : ∀ (data : List (HeapEntry α)), q < data.length →
    ∃ q', (heapify_up data q).2.getLast? =
        some ((getE (heapify_up data q).1 q').outer_pos, q') ∧
      getE (heapify_up data q).1 q' = getE data q := by
  induction q using Nat.strong_induction_on with
  | _ q ih =>
    intro data hq
    rcases Nat.eq_zero_or_pos q with rfl | h0
    · rw [heapify_up_zero]
      exact ⟨0, rfl, rfl⟩
    · by_cases hc : (getE data ((q - 1) / 2)).priority ≥ (getE data q).priority
      · rw [heapify_up_halt data q h0 hc]
        exact ⟨q, rfl, rfl⟩
      · rw [heapify_up_step data q h0 hc]
        have hpar : (q - 1) / 2 < q := by omega
        have hlen' : (q - 1) / 2 < (lswap data ((q - 1) / 2) q).length := by
          rw [lswap_length]
          omega
        obtain ⟨q', h1, h2⟩ := ih ((q - 1) / 2) hpar (lswap data ((q - 1) / 2) q) hlen'
        refine ⟨q', ?_, ?_⟩
        · rw [List.getLast?_cons]
          rw [h1]
          cases hrest : (heapify_up (lswap data ((q - 1) / 2) q) ((q - 1) / 2)).2 with
          | nil =>
            rw [hrest] at h1
            exact absurd h1 (by simp)
          | cons e l => simpa [hrest] using h1
        · rw [h2]
          unfold getE
          rw [lswap_getD data ((q - 1) / 2) q ((q - 1) / 2) (by omega) hq,
            if_neg (by omega), if_pos rfl]

/-- `push` always reports where the pushed element settled: the last event
names the slot now holding the new entry. -/
theorem push_final (data : List (HeapEntry α)) (o : Nat) (pr : α) :
    ∃ q', (push data o pr).2.getLast? =
        some ((getE (push data o pr).1 q').outer_pos, q') ∧
      getE (push data o pr).1 q' = ⟨o, pr⟩ := by
  unfold push
  have hl : (data ++ [(⟨o, pr⟩ : HeapEntry α)]).length = data.length + 1 := by simp
  obtain ⟨q', h1, h2⟩ := heapify_up_final ((data ++ [(⟨o, pr⟩ : HeapEntry α)]).length - 1)
    (data ++ [(⟨o, pr⟩ : HeapEntry α)]) (by omega)
  refine ⟨q', h1, ?_⟩
  rw [h2]
  unfold getE
  have : (data ++ [(⟨o, pr⟩ : HeapEntry α)]).length - 1 = data.length := by omega
  rw [this]
  exact getD_append_len data ⟨o, pr⟩

end Bin

namespace Weak

variable {α : Type} [LinearOrder α] [Inhabited α]

/-- The last `change_handler` call of a weak-heap sift-up names the slot
where the sifted element settled. -/
theorem wup_final (q : Nat) : ∀ (s : WState α), q < s.data.length →
    ∃ q', (heapify_up s q).2.getLast? =
        some ((getE (heapify_up s q).1.data q').outer_pos, q') ∧
      getE (heapify_up s q).1.data q' = getE s.data q := by
  induction q using Nat.strong_induction_on with
  | _ q ih =>
    intro s hq
    rcases Nat.eq_zero_or_pos q with rfl | h0
    · rw [wup_zero]
      exact ⟨0, rfl, rfl⟩
    · by_cases hc : (getE s.data (distinguished_ancestor s.sides q)).priority ≥
          (getE s.data q).priority
      · rw [wup_halt s q h0 hc]
        exact ⟨q, rfl, rfl⟩
      · rw [wup_step s q h0 hc]
        have hpar : distinguished_ancestor s.sides q < q := da_lt s.sides q h0
        have hlen' : distinguished_ancestor s.sides q <
            (lswap s.data (distinguished_ancestor s.sides q) q).length := by
          rw [lswap_length]
          omega
        obtain ⟨q', h1, h2⟩ := ih (distinguished_ancestor s.sides q) hpar
          ⟨s.sides.set q (!(s.sides.getD q false)),
            lswap s.data (distinguished_ancestor s.sides q) q⟩ hlen'
        refine ⟨q', ?_, ?_⟩
        · rw [List.getLast?_cons]
          rw [h1]
          cases hrest : (heapify_up ⟨s.sides.set q (!(s.sides.getD q false)),
              lswap s.data (distinguished_ancestor s.sides q) q⟩
              (distinguished_ancestor s.sides q)).2 with
          | nil =>
            rw [hrest] at h1
            exact absurd h1 (by simp)
          | cons e l => simpa [hrest] using h1
        · rw [h2]
          simp only
          unfold getE
          rw [lswap_getD s.data (distinguished_ancestor s.sides q) q
            (distinguished_ancestor s.sides q) (by omega) hq,
            if_neg (by omega), if_pos rfl]

/-- Weak `push` always reports where the pushed element settled. -/
theorem wpush_final (s : WState α) (o : Nat) (pr : α) :
    ∃ q', (push s o pr).2.getLast? =
        some ((getE (push s o pr).1.data q').outer_pos, q') ∧
      getE (push s o pr).1.data q' = ⟨o, pr⟩ := by
  unfold push
  obtain ⟨q', h1, h2⟩ := wup_final s.data.length
    ⟨if s.data.length % 2 = 0 then (s.sides ++ [false]).set (s.data.length / 2) false
        else s.sides ++ [false],
      s.data ++ [(⟨o, pr⟩ : HeapEntry α)]⟩ (by simp)
  refine ⟨q', h1, ?_⟩
  rw [h2]
  simp only
  unfold getE
  exact getD_append_len s.data ⟨o, pr⟩

end Weak

namespace Bin

variable {α : Type} [LinearOrder α] [Inhabited α]

/-- `change_priority` returns the previously stored priority in every
branch. -/
theorem change_returns_old (data : List (HeapEntry α)) (position : Nat) (updated : α) :
    (change_priority data position updated).2.2 = (getE data position).priority := by
  unfold change_priority
  by_cases h1 : (getE data position).priority < updated
  · rw [if_pos h1]
  · rw [if_neg h1]
    by_cases h2 : updated < (getE data position).priority
    · rw [if_pos h2]
    · rw [if_neg h2]

end Bin

namespace Weak

variable {α : Type} [LinearOrder α] [Inhabited α]

/-- Weak `change_priority` returns the previously stored priority in every
branch. -/
theorem wchange_returns_old (s : WState α) (position : Nat) (updated : α) :
    (change_priority s position updated).2.2 = (getE s.data position).priority := by
  rcases lt_trichotomy (getE s.data position).priority updated with h | h | h
  · rw [wchange_up s position updated h]
  · rw [wchange_equal s position h.symm]
  · rw [wchange_down s position updated h]

/-- Weak `push` keeps the side-bit table and the entry table the same
length. -/
theorem wpush_len (s : WState α) (o : Nat) (pr : α)
    (hlen : s.sides.length = s.data.length) :
    (push s o pr).1.sides.length = (push s o pr).1.data.length ∧
      (push s o pr).1.data.length = s.data.length + 1 := by
  unfold push
  obtain ⟨c1, c2⟩ := wup_len s.data.length
    ⟨if s.data.length % 2 = 0 then (s.sides ++ [false]).set (s.data.length / 2) false
        else s.sides ++ [false],
      s.data ++ [(⟨o, pr⟩ : HeapEntry α)]⟩
  simp only at c1 c2
  rw [c1, c2]
  constructor
  · split <;> simp [hlen]
  · simp

/-- Weak `change_priority` keeps the side-bit table and the entry table the
same length, in all three branches. -/
theorem wchange_len (s : WState α) (position : Nat) (updated : α)
    (hlen : s.sides.length = s.data.length) :
    (change_priority s position updated).1.sides.length =
      (change_priority s position updated).1.data.length ∧
    (change_priority s position updated).1.data.length = s.data.length := by
  rcases lt_trichotomy (getE s.data position).priority updated with h | h | h
  · rw [wchange_up s position updated h]
    obtain ⟨c1, c2⟩ := wup_len position
      ⟨s.sides, s.data.set position ⟨(getE s.data position).outer_pos, updated⟩⟩
    simp only at c1 c2
    rw [c1, c2]
    constructor <;> simp [hlen]
  · rw [wchange_equal s position h.symm]
    exact ⟨hlen, rfl⟩
  · rw [wchange_down s position updated h]
    obtain ⟨c1, c2⟩ := wdown_len
      ⟨s.sides, s.data.set position ⟨(getE s.data position).outer_pos, updated⟩⟩ position
    simp only at c1 c2
    rw [c1, c2]
    constructor <;> simp [hlen]

end Weak

section CrossBackend

variable {α : Type} [LinearOrder α] [Inhabited α]

/-- The binary backend's state after a sequence of `push` calls starting
from an empty heap. -/
def binPushSeq (ops : List (Nat × α)) : List (HeapEntry α) :=
  ops.foldl (fun d op => (Bin.push d op.1 op.2).1) []

/-- The weak backend's state after the same sequence of `push` calls
starting from an empty heap. -/
def weakPushSeq (ops : List (Nat × α)) : Weak.WState α :=
  ops.foldl (fun s op => (Weak.push s op.1 op.2).1) ⟨[], []⟩

theorem bin_push_perm (d : List (HeapEntry α)) (o : Nat) (pr : α) :
    (Bin.push d o pr).1.Perm (d ++ [⟨o, pr⟩]) := by
  unfold Bin.push
  exact Bin.heapify_up_perm (d ++ [(⟨o, pr⟩ : HeapEntry α)])
    ((d ++ [(⟨o, pr⟩ : HeapEntry α)]).length - 1) (by simp)

theorem weak_push_perm (s : Weak.WState α) (o : Nat) (pr : α) :
    (Weak.push s o pr).1.data.Perm (s.data ++ [⟨o, pr⟩]) := by
  unfold Weak.push
  have := Weak.wup_perm s.data.length
    ⟨if s.data.length % 2 = 0 then (s.sides ++ [false]).set (s.data.length / 2) false
        else s.sides ++ [false],
      s.data ++ [(⟨o, pr⟩ : HeapEntry α)]⟩ (by simp)
  simpa using this

theorem pushSeq_perm_aux (ops : List (Nat × α)) :
    ∀ (d : List (HeapEntry α)) (s : Weak.WState α), d.Perm s.data →
    (ops.foldl (fun d op => (Bin.push d op.1 op.2).1) d).Perm
      ((ops.foldl (fun s op => (Weak.push s op.1 op.2).1) s).data) := by
  induction ops with
  | nil =>
    intro d s h
    exact h
  | cons op rest ih =>
    intro d s h
    simp only [List.foldl_cons]
    refine ih _ _ ?_
    refine (bin_push_perm d op.1 op.2).trans (List.Perm.trans ?_
      (weak_push_perm s op.1 op.2).symm)
    exact h.append_right _

end CrossBackend

namespace Bin

/-- States of the binary backend reachable by bulk-build followed by any
sequence of `push`, in-range `change_priority`, and `remove` at the root or
at the last slot. -/
inductive Reach {α : Type} [LinearOrder α] [Inhabited α] : List (HeapEntry α) → Prop where
  | build (v : List (HeapEntry α)) : Reach (from_entries_vec v)
  | pushed (d : List (HeapEntry α)) (o : Nat) (pr : α) : Reach d → Reach (push d o pr).1
  | changed (d : List (HeapEntry α)) (p : Nat) (u : α) : Reach d → p < d.length →
      Reach (change_priority d p u).1
  | removed (d : List (HeapEntry α)) (p : Nat) : Reach d →
      (p = 0 ∨ p + 1 = d.length) → Reach (remove d p).1

theorem Reach_BInv {α : Type} [LinearOrder α] [Inhabited α]
    {d : List (HeapEntry α)} (h : Reach d) : BInv d := by
  induction h with
  | build v => exact from_entries_vec_BInv v
  | pushed d o pr _ ih => exact push_BInv d o pr ih
  | changed d p u _ hp ih => exact change_priority_BInv d p u hp ih
  | removed d p _ hp ih => exact remove_BInv d p ih hp

end Bin

namespace Weak

/-- States of the weak backend reachable by bulk-build followed by any
sequence of `push`, in-range `change_priority`, and `remove` at the root or
at the last slot. -/
inductive ReachW {α : Type} [LinearOrder α] [Inhabited α] : WState α → Prop where
  | build (v : List (HeapEntry α)) : ReachW (from_entries_vec v)
  | pushed (s : WState α) (o : Nat) (pr : α) : ReachW s → ReachW (push s o pr).1
  | changed (s : WState α) (p : Nat) (u : α) : ReachW s → p < s.data.length →
      ReachW (change_priority s p u).1
  | removed (s : WState α) (p : Nat) : ReachW s →
      (p = 0 ∨ p + 1 = s.data.length) → ReachW (remove s p).1

theorem ReachW_WF {α : Type} [LinearOrder α] [Inhabited α]
    {s : WState α} (h : ReachW s) : WF s := by
  induction h with
  | build v => exact (from_entries_vec_WF v).1
  | pushed s o pr _ ih => exact (push_WF s o pr ih).1
  | changed s p u _ hp ih => exact (change_priority_WF s p u hp ih).1
  | removed s p _ hp ih => exact wremove_WF s p ih hp

end Weak

namespace Bin

variable {α : Type} [LinearOrder α] [Inhabited α]

/-- Fuel-based mirror of `heapify_up`, structurally recursive so that the
kernel can evaluate it; `upF_eq` identifies it with `heapify_up`. -/
def heapify_upF : Nat → List (HeapEntry α) → Nat → List (HeapEntry α) × List HeapEvent
  | 0, data, position => (data, [((getE data position).outer_pos, position)])
  | fuel + 1, data, position =>
    if 0 < position then
      if (getE data ((position - 1) / 2)).priority ≥ (getE data position).priority then
        (data, [((getE data position).outer_pos, position)])
      else
        let data' := lswap data ((position - 1) / 2) position
        let rest := heapify_upF fuel data' ((position - 1) / 2)
        (rest.1, ((getE data' position).outer_pos, position) :: rest.2)
    else (data, [((getE data position).outer_pos, position)])

theorem upF_eq (fuel : Nat) : ∀ (data : List (HeapEntry α)) (position : Nat),
    position ≤ fuel → heapify_upF fuel data position = heapify_up data position := by
  induction fuel with
  | zero =>
    intro data position h
    have : position = 0 := by omega
    rw [this, heapify_up_zero]
    rfl
  | succ fuel ih =>
    intro data position h
    rcases Nat.eq_zero_or_pos position with rfl | h0
    · rw [heapify_up_zero]
      show (if 0 < 0 then _ else _) = _
      rw [if_neg (by omega)]
    · by_cases hc : (getE data ((position - 1) / 2)).priority ≥ (getE data position).priority
      · rw [heapify_up_halt data position h0 hc]
        show (if 0 < position then _ else _) = _
        rw [if_pos h0, if_pos hc]
      · rw [heapify_up_step data position h0 hc]
        show (if 0 < position then _ else _) = _
        rw [if_pos h0, if_neg hc]
        show ((heapify_upF fuel (lswap data ((position - 1) / 2) position)
            ((position - 1) / 2)).1,
          ((getE (lswap data ((position - 1) / 2) position) position).outer_pos,
            position) ::
            (heapify_upF fuel (lswap data ((position - 1) / 2) position)
              ((position - 1) / 2)).2) = _
        rw [ih (lswap data ((position - 1) / 2) position) ((position - 1) / 2) (by omega)]

/-- Fuel-based mirror of `heapify_down`. -/
def heapify_downF : Nat → List (HeapEntry α) → Nat → List (HeapEntry α) × List HeapEvent
  | 0, data, position => (data, [((getE data position).outer_pos, position)])
  | fuel + 1, data, position =>
    if position * 2 + 1 < data.length then
      if (getE data position).priority ≥
          (getE data (bin_max_child data position)).priority then
        (data, [((getE data position).outer_pos, position)])
      else
        let data' := lswap data position (bin_max_child data position)
        let rest := heapify_downF fuel data' (bin_max_child data position)
        (rest.1, ((getE data' position).outer_pos, position) :: rest.2)
    else (data, [((getE data position).outer_pos, position)])

theorem downF_eq (fuel : Nat) : ∀ (data : List (HeapEntry α)) (position : Nat),
    data.length - position ≤ fuel →
    heapify_downF fuel data position = heapify_down data position := by
  induction fuel with
  | zero =>
    intro data position h
    rw [heapify_down_leaf data position (by omega)]
    rfl
  | succ fuel ih =>
    intro data position h
    by_cases h1 : position * 2 + 1 < data.length
    · by_cases hc : (getE data position).priority ≥
          (getE data (bin_max_child data position)).priority
      · rw [heapify_down_halt data position h1 hc]
        show (if position * 2 + 1 < data.length then _ else _) = _
        rw [if_pos h1, if_pos hc]
      · rw [heapify_down_step data position h1 hc]
        show (if position * 2 + 1 < data.length then _ else _) = _
        rw [if_pos h1, if_neg hc]
        have hgt := bin_max_child_gt data position
        have hlt := bin_max_child_lt data position h1
        show ((heapify_downF fuel (lswap data position (bin_max_child data position))
            (bin_max_child data position)).1,
          ((getE (lswap data position (bin_max_child data position)) position).outer_pos,
            position) ::
            (heapify_downF fuel (lswap data position (bin_max_child data position))
              (bin_max_child data position)).2) = _
        rw [ih (lswap data position (bin_max_child data position))
          (bin_max_child data position) (by rw [lswap_length]; omega)]
    · rw [heapify_down_leaf data position (by omega)]
      show (if position * 2 + 1 < data.length then _ else _) = _
      rw [if_neg h1]

/-- Fuel-based mirror of the build loop. -/
def buildLoopF : List (HeapEntry α) → Nat → List (HeapEntry α)
  | data, 0 => data
  | data, pos + 1 => buildLoopF (heapify_downF data.length data pos).1 pos

theorem buildLoopF_eq : ∀ (k : Nat) (data : List (HeapEntry α)),
    buildLoopF data k = buildLoop data k := by
  intro k
  induction k with
  | zero => intro data; rfl
  | succ k ih =>
    intro data
    show buildLoopF (heapify_downF data.length data k).1 k = _
    rw [downF_eq data.length data k (by omega)]
    exact ih (heapify_down data k).1

/-- Executable mirror of `from_entries_vec`. -/
def from_entries_vecF (heap_base : List (HeapEntry α)) : List (HeapEntry α) :=
  buildLoopF heap_base (heapify_start heap_base.length)

theorem from_entries_vecF_eq (heap_base : List (HeapEntry α)) :
    from_entries_vecF heap_base = from_entries_vec heap_base :=
  buildLoopF_eq (heapify_start heap_base.length) heap_base

/-- Executable mirror of `push`. -/
def pushF (data : List (HeapEntry α)) (outer_pos : Nat) (priority : α) :
    List (HeapEntry α) × List HeapEvent :=
  let data' := data ++ [⟨outer_pos, priority⟩]
  heapify_upF data'.length data' (data'.length - 1)

theorem pushF_eq (data : List (HeapEntry α)) (o : Nat) (pr : α) :
    pushF data o pr = push data o pr := by
  unfold pushF push
  exact upF_eq _ _ _ (by omega)

/-- Executable mirror of `remove`. -/
def removeF (data : List (HeapEntry α)) (position : Nat) :
    List (HeapEntry α) × List HeapEvent × Option (Nat × α) :=
  if position ≥ data.length then (data, [], none)
  else if position + 1 = data.length then
    (data.dropLast, [], some ((getE data position).outer_pos, (getE data position).priority))
  else
    let result := getE data position
    let data' := swapRemove data position
    let rest := heapify_downF data.length data' position
    (rest.1, rest.2, some (result.outer_pos, result.priority))

theorem removeF_eq (data : List (HeapEntry α)) (position : Nat) :
    removeF data position = remove data position := by
  unfold removeF remove
  by_cases h1 : position ≥ data.length
  · rw [if_pos h1, if_pos h1]
  · rw [if_neg h1, if_neg h1]
    by_cases h2 : position + 1 = data.length
    · rw [if_pos h2, if_pos h2]
    · rw [if_neg h2, if_neg h2]
      show ((heapify_downF data.length (swapRemove data position) position).1,
          (heapify_downF data.length (swapRemove data position) position).2,
          some ((getE data position).outer_pos, (getE data position).priority)) =
        ((heapify_down (swapRemove data position) position).1,
          (heapify_down (swapRemove data position) position).2,
          some ((getE data position).outer_pos, (getE data position).priority))
      rw [downF_eq data.length (swapRemove data position) position
        (by rw [swapRemove_len]; omega)]

end Bin

namespace Weak

variable {α : Type} [LinearOrder α] [Inhabited α]

/-- Fuel-based mirror of `distinguished_ancestor`. -/
def daF : Nat → List Bool → Nat → Nat
  | 0, _, _ => 0
  | fuel + 1, sides, position =>
    if 0 < position then
      if (position % 2 == 0) == sides.getD (position / 2) false then position / 2
      else daF fuel sides (position / 2)
    else 0

theorem daF_eq (fuel : Nat) : ∀ (sides : List Bool) (position : Nat), position ≤ fuel →
    daF fuel sides position = distinguished_ancestor sides position := by
  induction fuel with
  | zero =>
    intro sides position h
    have : position = 0 := by omega
    rw [this, da_zero]
    rfl
  | succ fuel ih =>
    intro sides position h
    rcases Nat.eq_zero_or_pos position with rfl | h0
    · rw [da_zero]
      show (if 0 < 0 then _ else _) = _
      rw [if_neg (by omega)]
    · conv_rhs => unfold distinguished_ancestor
      rw [dif_pos h0]
      show (if 0 < position then _ else _) = _
      rw [if_pos h0]
      by_cases hdir : ((position % 2 == 0) == sides.getD (position / 2) false) = true
      · rw [if_pos hdir, if_pos hdir]
      · rw [if_neg hdir, if_neg hdir]
        exact ih sides (position / 2) (by omega)

/-- Fuel-based mirror of `ignorant_distinguished_ancestor`. -/
def igF : Nat → Nat → Nat
  | 0, _ => 0
  | fuel + 1, position =>
    if 0 < position then
      if position % 2 ≠ 0 then position / 2
      else igF fuel (position / 2)
    else 0

theorem igF_eq (fuel : Nat) : ∀ (position : Nat), position ≤ fuel →
    igF fuel position = ignorant_distinguished_ancestor position := by
  induction fuel with
  | zero =>
    intro position h
    have : position = 0 := by omega
    rw [this, ig_da_zero]
    rfl
  | succ fuel ih =>
    intro position h
    rcases Nat.eq_zero_or_pos position with rfl | h0
    · rw [ig_da_zero]
      show (if 0 < 0 then _ else _) = _
      rw [if_neg (by omega)]
    · conv_rhs => unfold ignorant_distinguished_ancestor
      rw [dif_pos h0]
      show (if 0 < position then _ else _) = _
      rw [if_pos h0]
      by_cases hm : position % 2 ≠ 0
      · rw [if_pos hm, if_pos hm]
      · rw [if_neg hm, if_neg hm]
        exact ih (position / 2) (by omega)

/-- Fuel-based mirror of the weak `heapify_up`. -/
def heapify_upF : Nat → WState α → Nat → WState α × List HeapEvent
  | 0, s, position => (s, [((getE s.data position).outer_pos, position)])
  | fuel + 1, s, position =>
    if 0 < position then
      if (getE s.data (daF (fuel + 1) s.sides position)).priority ≥
          (getE s.data position).priority then
        (s, [((getE s.data position).outer_pos, position)])
      else
        let data' := lswap s.data (daF (fuel + 1) s.sides position) position
        let sides' := s.sides.set position (!(s.sides.getD position false))
        let rest := heapify_upF fuel ⟨sides', data'⟩ (daF (fuel + 1) s.sides position)
        (rest.1, ((getE data' position).outer_pos, position) :: rest.2)
    else (s, [((getE s.data position).outer_pos, position)])

theorem wupF_eq (fuel : Nat) : ∀ (s : WState α) (position : Nat), position ≤ fuel →
    heapify_upF fuel s position = heapify_up s position := by
  induction fuel with
  | zero =>
    intro s position h
    have : position = 0 := by omega
    rw [this, wup_zero]
    rfl
  | succ fuel ih =>
    intro s position h
    rcases Nat.eq_zero_or_pos position with rfl | h0
    · rw [wup_zero]
      show (if 0 < 0 then _ else _) = _
      rw [if_neg (by omega)]
    · have hda : daF (fuel + 1) s.sides position =
          distinguished_ancestor s.sides position := daF_eq (fuel + 1) s.sides position h
      have hal : distinguished_ancestor s.sides position < position := da_lt _ _ h0
      by_cases hc : (getE s.data (distinguished_ancestor s.sides position)).priority ≥
          (getE s.data position).priority
      · rw [wup_halt s position h0 hc]
        show (if 0 < position then _ else _) = _
        rw [if_pos h0, hda, if_pos hc]
      · rw [wup_step s position h0 hc]
        show (if 0 < position then _ else _) = _
        rw [if_pos h0, hda, if_neg hc]
        show ((heapify_upF fuel
            ⟨s.sides.set position (!(s.sides.getD position false)),
              lswap s.data (distinguished_ancestor s.sides position) position⟩
            (distinguished_ancestor s.sides position)).1,
          ((getE (lswap s.data (distinguished_ancestor s.sides position) position)
            position).outer_pos, position) ::
            (heapify_upF fuel
              ⟨s.sides.set position (!(s.sides.getD position false)),
                lswap s.data (distinguished_ancestor s.sides position) position⟩
              (distinguished_ancestor s.sides position)).2) = _
        rw [ih ⟨s.sides.set position (!(s.sides.getD position false)),
            lswap s.data (distinguished_ancestor s.sides position) position⟩
          (distinguished_ancestor s.sides position) (by omega)]

/-- Fuel-based mirror of the `walkUp` loop. -/
def walkUpF : Nat → WState α → Nat → Nat → WState α × List HeapEvent
  | 0, s, position, _ => (s, [((getE s.data position).outer_pos, position)])
  | fuel + 1, s, position, current =>
    if position < current then
      if (getE s.data position).priority < (getE s.data current).priority then
        let data' := lswap s.data current position
        let sides' := s.sides.set current (!(s.sides.getD current false))
        let rest := walkUpF fuel ⟨sides', data'⟩ position (current / 2)
        (rest.1, ((getE data' current).outer_pos, current) :: rest.2)
      else walkUpF fuel s position (current / 2)
    else (s, [((getE s.data position).outer_pos, position)])

theorem walkUpF_eq (fuel : Nat) : ∀ (s : WState α) (position current : Nat),
    current ≤ fuel → walkUpF fuel s position current = walkUp s position current := by
  induction fuel with
  | zero =>
    intro s position current h
    have : current = 0 := by omega
    rw [this, walkUp_exit s position 0 (by omega)]
    rfl
  | succ fuel ih =>
    intro s position current h
    by_cases hcur : position < current
    · by_cases hc : (getE s.data position).priority < (getE s.data current).priority
      · rw [walkUp_swap s position current hcur hc]
        show (if position < current then _ else _) = _
        rw [if_pos hcur, if_pos hc]
        show ((walkUpF fuel
            ⟨s.sides.set current (!(s.sides.getD current false)),
              lswap s.data current position⟩ position (current / 2)).1,
          ((getE (lswap s.data current position) current).outer_pos, current) ::
            (walkUpF fuel
              ⟨s.sides.set current (!(s.sides.getD current false)),
                lswap s.data current position⟩ position (current / 2)).2) = _
        rw [ih ⟨s.sides.set current (!(s.sides.getD current false)),
            lswap s.data current position⟩ position (current / 2) (by omega)]
      · rw [walkUp_noswap s position current hcur hc]
        show (if position < current then _ else _) = _
        rw [if_pos hcur, if_neg hc]
        exact ih s position (current / 2) (by omega)
    · rw [walkUp_exit s position current hcur]
      show (if position < current then _ else _) = _
      rw [if_neg hcur]

/-- Executable mirror of the weak `heapify_down`. -/
def heapify_downF (s : WState α) (position : Nat) : WState α × List HeapEvent :=
  if first_child s.sides position < s.data.length then
    walkUpF
      (descend s.sides s.data.length (first_child s.sides position) s.data.length)
      s position
      (descend s.sides s.data.length (first_child s.sides position) s.data.length)
  else (s, [((getE s.data position).outer_pos, position)])

theorem wdownF_eq (s : WState α) (position : Nat) :
    heapify_downF s position = heapify_down s position := by
  unfold heapify_downF heapify_down
  by_cases h : first_child s.sides position < s.data.length
  · rw [if_pos h, if_pos h]
    exact walkUpF_eq _ s position _ le_rfl
  · rw [if_neg h, if_neg h]

/-- Executable mirror of the weak `push`. -/
def pushF (s : WState α) (outer_pos : Nat) (priority : α) : WState α × List HeapEvent :=
  let new_index := s.data.length
  let data' := s.data ++ [⟨outer_pos, priority⟩]
  let sides' := s.sides ++ [false]
  let sides'' := if new_index % 2 = 0 then sides'.set (new_index / 2) false else sides'
  heapify_upF (new_index + 1) ⟨sides'', data'⟩ new_index

theorem wpushF_eq (s : WState α) (o : Nat) (pr : α) : pushF s o pr = push s o pr := by
  unfold pushF push
  exact wupF_eq (s.data.length + 1) _ s.data.length (by omega)

/-- Executable mirror of the weak `remove`. -/
def removeF (s : WState α) (position : Nat) :
    WState α × List HeapEvent × Option (Nat × α) :=
  if position ≥ s.data.length then (s, [], none)
  else if position + 1 = s.data.length then
    (⟨s.sides.dropLast, s.data.dropLast⟩, [],
      some ((getE s.data position).outer_pos, (getE s.data position).priority))
  else
    let result := getE s.data position
    let rest := heapify_downF ⟨s.sides.dropLast, swapRemove s.data position⟩ position
    (rest.1, rest.2, some (result.outer_pos, result.priority))

theorem wremoveF_eq (s : WState α) (position : Nat) :
    removeF s position = remove s position := by
  unfold removeF remove
  by_cases h1 : position ≥ s.data.length
  · rw [if_pos h1, if_pos h1]
  · rw [if_neg h1, if_neg h1]
    by_cases h2 : position + 1 = s.data.length
    · rw [if_pos h2, if_pos h2]
    · rw [if_neg h2, if_neg h2]
      show ((heapify_downF ⟨s.sides.dropLast, swapRemove s.data position⟩ position).1,
          (heapify_downF ⟨s.sides.dropLast, swapRemove s.data position⟩ position).2,
          some ((getE s.data position).outer_pos, (getE s.data position).priority)) =
        ((heapify_down ⟨s.sides.dropLast, swapRemove s.data position⟩ position).1,
          (heapify_down ⟨s.sides.dropLast, swapRemove s.data position⟩ position).2,
          some ((getE s.data position).outer_pos, (getE s.data position).priority))
      rw [wdownF_eq ⟨s.sides.dropLast, swapRemove s.data position⟩ position]

/-- Executable mirror of the build step. -/
def buildStepF (s : WState α) (pos : Nat) : WState α :=
  if (getE s.data (igF pos pos)).priority < (getE s.data pos).priority then
    ⟨s.sides.set pos (!(s.sides.getD pos false)), lswap s.data (igF pos pos) pos⟩
  else s

theorem buildStepF_eq (s : WState α) (pos : Nat) : buildStepF s pos = buildStep s pos := by
  unfold buildStepF buildStep
  rw [igF_eq pos pos le_rfl]

/-- Executable mirror of the weak build loop. -/
def buildLoopF : WState α → Nat → WState α
  | s, 0 => s
  | s, pos + 1 => buildLoopF (buildStepF s (pos + 1)) pos

theorem wbuildLoopF_eq : ∀ (k : Nat) (s : WState α), buildLoopF s k = buildLoop s k := by
  intro k
  induction k with
  | zero => intro s; rfl
  | succ k ih =>
    intro s
    show buildLoopF (buildStepF s (k + 1)) k = _
    rw [buildStepF_eq]
    exact ih (buildStep s (k + 1))

/-- Executable mirror of the weak `from_entries_vec`. -/
def from_entries_vecF (heap_base : List (HeapEntry α)) : WState α :=
  buildLoopF ⟨List.replicate heap_base.length false, heap_base⟩ (heap_base.length - 1)

theorem wfrom_entries_vecF_eq (heap_base : List (HeapEntry α)) :
    from_entries_vecF heap_base = from_entries_vec heap_base :=
  wbuildLoopF_eq (heap_base.length - 1) _

/-- Executable mirror of `is_valid_wheap`. -/
def is_valid_wheapF (s : WState α) : Bool :=
  (List.range s.data.length).all fun i =>
    i == 0 ||
      decide ((getE s.data (daF i s.sides i)).priority ≥ (getE s.data i).priority)

theorem is_valid_wheapF_eq (s : WState α) : is_valid_wheapF s = is_valid_wheap s := by
  unfold is_valid_wheapF is_valid_wheap
  congr 1
  funext i
  rw [daF_eq i s.sides i le_rfl]

end Weak

section CrossBackendF

variable {α : Type} [LinearOrder α] [Inhabited α]

theorem foldl_funext {β γ : Type} (f g : β → γ → β) (h : ∀ b c, f b c = g b c) :
    ∀ (l : List γ) (init : β), l.foldl f init = l.foldl g init := by
  intro l
  induction l with
  | nil => intro init; rfl
  | cons c rest ih =>
    intro init
    simp only [List.foldl_cons]
    rw [h init c]
    exact ih _

/-- Executable mirror of `binPushSeq`. -/
def binPushSeqF (ops : List (Nat × α)) : List (HeapEntry α) :=
  ops.foldl (fun d op => (Bin.pushF d op.1 op.2).1) []

/-- Executable mirror of `weakPushSeq`. -/
def weakPushSeqF (ops : List (Nat × α)) : Weak.WState α :=
  ops.foldl (fun s op => (Weak.pushF s op.1 op.2).1) ⟨[], []⟩

theorem binPushSeqF_eq (ops : List (Nat × α)) : binPushSeqF ops = binPushSeq ops := by
  unfold binPushSeqF binPushSeq
  exact foldl_funext _ _ (fun d op => by rw [Bin.pushF_eq]) ops []

theorem weakPushSeqF_eq (ops : List (Nat × α)) : weakPushSeqF ops = weakPushSeq ops := by
  unfold weakPushSeqF weakPushSeq
  refine foldl_funext _ _ ?_ ops (⟨[], []⟩ : Weak.WState α)
  intro s op
  rw [Weak.wpushF_eq]

end CrossBackendF

section Claims

variable {α : Type} [LinearOrder α] [Inhabited α]

/-- C1: corrected. The spec claims the heap invariant survives any sequence
of push / remove (interior positions included) / change_priority; interior
removes can in fact break it in both backends (see the counterexample).
The invariant does hold for every state reachable by bulk build followed by
pushes, in-range change_priority calls, and removes at the root or at the
last slot. -/
theorem C1_invariant_reachable (d : List (HeapEntry α)) (s : Weak.WState α)
    (hd : Bin.Reach d) (hs : Weak.ReachW s) : Bin.BInv d ∧ Weak.WF s :=
  ⟨Bin.Reach_BInv hd, Weak.ReachW_WF hs⟩

theorem C1_witness :
    Bin.BInv (Bin.remove (Bin.push (Bin.from_entries_vec
        [⟨0, (3 : Nat)⟩, ⟨1, 7⟩]) 2 5).1 0).1 ∧
    Weak.WF (Weak.remove (Weak.push (Weak.from_entries_vec
        [⟨0, (3 : Nat)⟩, ⟨1, 7⟩]) 2 5).1 0).1 :=
  C1_invariant_reachable _ _
    (Bin.Reach.removed _ 0 (Bin.Reach.pushed _ 2 5
      (Bin.Reach.build [⟨0, (3 : Nat)⟩, ⟨1, 7⟩])) (Or.inl rfl))
    (Weak.ReachW.removed _ 0 (Weak.ReachW.pushed _ 2 5
      (Weak.ReachW.build [⟨0, (3 : Nat)⟩, ⟨1, 7⟩])) (Or.inl rfl))

/-- C1 counterexample: both backends build valid heaps from these vectors,
position 3 is in range, yet `remove` at interior position 3 leaves an
invalid heap. -/
theorem C1_counterexample :
    (Bin.is_valid_heap (Bin.from_entries_vec
        [⟨0, (10 : Nat)⟩, ⟨1, 3⟩, ⟨2, 9⟩, ⟨3, 2⟩, ⟨4, 1⟩, ⟨5, 8⟩, ⟨6, 7⟩]) = true ∧
      3 < (Bin.from_entries_vec
        [⟨0, (10 : Nat)⟩, ⟨1, 3⟩, ⟨2, 9⟩, ⟨3, 2⟩, ⟨4, 1⟩, ⟨5, 8⟩, ⟨6, 7⟩]).length ∧
      Bin.is_valid_heap (Bin.remove (Bin.from_entries_vec
        [⟨0, (10 : Nat)⟩, ⟨1, 3⟩, ⟨2, 9⟩, ⟨3, 2⟩, ⟨4, 1⟩, ⟨5, 8⟩, ⟨6, 7⟩]) 3).1 = false) ∧
    (Weak.is_valid_wheap (Weak.from_entries_vec
        [⟨0, (1 : Nat)⟩, ⟨1, 0⟩, ⟨2, 1⟩, ⟨3, 0⟩, ⟨4, 0⟩, ⟨5, 1⟩]) = true ∧
      3 < (Weak.from_entries_vec
        [⟨0, (1 : Nat)⟩, ⟨1, 0⟩, ⟨2, 1⟩, ⟨3, 0⟩, ⟨4, 0⟩, ⟨5, 1⟩]).data.length ∧
      Weak.is_valid_wheap (Weak.remove (Weak.from_entries_vec
        [⟨0, (1 : Nat)⟩, ⟨1, 0⟩, ⟨2, 1⟩, ⟨3, 0⟩, ⟨4, 0⟩, ⟨5, 1⟩]) 3).1 = false) := by
  simp only [← Bin.removeF_eq, ← Bin.from_entries_vecF_eq, ← Weak.is_valid_wheapF_eq,
    ← Weak.wremoveF_eq, ← Weak.wfrom_entries_vecF_eq]
  decide

/-- C2: confirmed. Building either backend from any entry vector and
repeatedly removing position 0 yields the priorities in descending sorted
order (sorted under ≥, and a permutation of the input priorities). -/
theorem C2_pop_all_descending (v : List (HeapEntry α)) :
    ((Bin.popAll (Bin.from_entries_vec v) (Bin.from_entries_vec v).length).Sorted
        (· ≥ ·) ∧
      (Bin.popAll (Bin.from_entries_vec v) (Bin.from_entries_vec v).length).Perm
        (v.map (fun e => e.priority))) ∧
    ((Weak.wpopAll (Weak.from_entries_vec v)
        (Weak.from_entries_vec v).data.length).Sorted (· ≥ ·) ∧
      (Weak.wpopAll (Weak.from_entries_vec v)
        (Weak.from_entries_vec v).data.length).Perm (v.map (fun e => e.priority))) :=
  ⟨Bin.build_pop_sorted v, Weak.wbuild_pop_sorted v⟩

/-- C3: corrected. The push path does always report the new element's final
resting place (the last handler call names the slot now holding the pushed
entry), but remove of the last slot and change_priority to an equal
priority invoke the handler zero times in both backends, contradicting the
"in every branch" part of the claim. -/
theorem C3_handler_reports (data : List (HeapEntry α)) (s : Weak.WState α)
    (o p q : Nat) (pr : α)
    (hb : p + 1 = data.length) (hw : q + 1 = s.data.length) :
    (∃ q', (Bin.push data o pr).2.getLast? =
        some ((getE (Bin.push data o pr).1 q').outer_pos, q') ∧
      getE (Bin.push data o pr).1 q' = ⟨o, pr⟩) ∧
    (∃ q', (Weak.push s o pr).2.getLast? =
        some ((getE (Weak.push s o pr).1.data q').outer_pos, q') ∧
      getE (Weak.push s o pr).1.data q' = ⟨o, pr⟩) ∧
    (Bin.remove data p).2.1 = [] ∧ (Weak.remove s q).2.1 = [] ∧
    (Bin.change_priority data p (getE data p).priority).2.1 = [] ∧
    (Weak.change_priority s q (getE s.data q).priority).2.1 = [] := by
  refine ⟨Bin.push_final data o pr, Weak.wpush_final s o pr, ?_, ?_, ?_, ?_⟩
  · unfold Bin.remove
    rw [if_neg (by omega), if_pos hb]
  · rw [Weak.wremove_last s q (by omega) hw]
  · rw [Bin.change_priority_equal data p (getE data p).priority (by omega) rfl]
  · rw [Weak.wchange_equal s q rfl]

/-- A two-element binary heap used to witness and to refute C3. -/
def bd2 : List (HeapEntry Nat) := [⟨0, 5⟩, ⟨1, 3⟩]

/-- A two-element weak heap used to witness and to refute C3. -/
def ws2 : Weak.WState Nat := ⟨[false, false], [⟨0, 5⟩, ⟨1, 3⟩]⟩

theorem C3_witness :
    ((∃ q', (Bin.push bd2 2 4).2.getLast? =
        some ((getE (Bin.push bd2 2 4).1 q').outer_pos, q') ∧
      getE (Bin.push bd2 2 4).1 q' = ⟨2, 4⟩) ∧
    (∃ q', (Weak.push ws2 2 4).2.getLast? =
        some ((getE (Weak.push ws2 2 4).1.data q').outer_pos, q') ∧
      getE (Weak.push ws2 2 4).1.data q' = ⟨2, 4⟩) ∧
    (Bin.remove bd2 1).2.1 = [] ∧
    (Weak.remove ws2 1).2.1 = [] ∧
    (Bin.change_priority bd2 1 (getE bd2 1).priority).2.1 = [] ∧
    (Weak.change_priority ws2 1 (getE ws2.data 1).priority).2.1 = []) :=
  C3_handler_reports bd2 ws2 2 1 1 4 rfl rfl

/-- C3 counterexample: remove of the last slot and change_priority to an
equal priority fire no handler call at all, in either backend. -/
theorem C3_counterexample :
    (Bin.remove bd2 1).2.1 = [] ∧
    (Weak.remove ws2 1).2.1 = [] ∧
    (Bin.change_priority bd2 1 3).2.1 = [] ∧
    (Weak.change_priority ws2 1 3).2.1 = [] := by
  decide

/-- C4: corrected. Identical op sequences can leave different multisets in
the two backends once positional removes are involved (see the
counterexample); for push-only sequences the claim holds: starting from
empty heaps, the same pushes leave the two backends with permutation-equal
(same multiset of) entries. -/
theorem C4_push_multiset_agree (ops : List (Nat × α)) :
    (binPushSeq ops).Perm (weakPushSeq ops).data :=
  pushSeq_perm_aux ops [] ⟨[], []⟩ (List.Perm.refl _)

/-- C4 counterexample: after the same five pushes, `remove` at position 1
evicts owner 2 (priority 4) from the binary backend but owner 1
(priority 1) from the weak backend, and the remaining entry multisets
differ. -/
theorem C4_counterexample :
    (Bin.remove (binPushSeq [(0, (3 : Nat)), (1, 1), (2, 4), (3, 1), (4, 5)]) 1).2.2 =
        some (2, 4) ∧
      (Weak.remove (weakPushSeq [(0, (3 : Nat)), (1, 1), (2, 4), (3, 1), (4, 5)]) 1).2.2 =
        some (1, 1) ∧
      ¬ (Bin.remove (binPushSeq [(0, (3 : Nat)), (1, 1), (2, 4), (3, 1), (4, 5)]) 1).1.Perm
        ((Weak.remove (weakPushSeq [(0, (3 : Nat)), (1, 1), (2, 4), (3, 1), (4, 5)]) 1).1.data) := by
  simp only [← binPushSeqF_eq, ← weakPushSeqF_eq, ← Bin.removeF_eq, ← Weak.wremoveF_eq]
  decide

/-- C5: confirmed. Removing from an empty heap or at any out-of-range
position yields `None`, `most_prioritized_idx` on an empty heap yields
`None`, and after `clear` the heap is empty and a subsequent `remove`
yields `None`, in both backends. -/
theorem C5_empty_and_oob (data : List (HeapEntry α)) (s : Weak.WState α) (p : Nat)
    (hb : p ≥ data.length) (hw : p ≥ s.data.length) :
    (Bin.remove ([] : List (HeapEntry α)) p).2.2 = none ∧
    (Weak.remove (⟨[], []⟩ : Weak.WState α) p).2.2 = none ∧
    Bin.most_prioritized_idx ([] : List (HeapEntry α)) = none ∧
    Weak.most_prioritized_idx (⟨[], []⟩ : Weak.WState α) = none ∧
    (Bin.remove data p).2.2 = none ∧
    (Weak.remove s p).2.2 = none ∧
    (Bin.clear data).length = 0 ∧
    (Weak.clear s).data.length = 0 ∧
    (Bin.remove (Bin.clear data) p).2.2 = none ∧
    (Weak.remove (Weak.clear s) p).2.2 = none := by
  refine ⟨?_, ?_, rfl, rfl, ?_, ?_, rfl, rfl, ?_, ?_⟩
  · rw [Bin.remove_events_oob ([] : List (HeapEntry α)) p (Nat.zero_le p)]
  · rw [Weak.wremove_oob (⟨[], []⟩ : Weak.WState α) p (Nat.zero_le p)]
  · rw [Bin.remove_events_oob data p hb]
  · rw [Weak.wremove_oob s p hw]
  · rw [Bin.remove_events_oob (Bin.clear data) p (Nat.zero_le p)]
  · rw [Weak.wremove_oob (Weak.clear s) p (Nat.zero_le p)]

theorem C5_witness :
    (Bin.remove ([] : List (HeapEntry Nat)) 5).2.2 = none ∧
    (Weak.remove (⟨[], []⟩ : Weak.WState Nat) 5).2.2 = none ∧
    Bin.most_prioritized_idx ([] : List (HeapEntry Nat)) = none ∧
    Weak.most_prioritized_idx (⟨[], []⟩ : Weak.WState Nat) = none ∧
    (Bin.remove [⟨0, (1 : Nat)⟩] 5).2.2 = none ∧
    (Weak.remove (⟨[false], [⟨0, 1⟩]⟩ : Weak.WState Nat) 5).2.2 = none ∧
    (Bin.clear [⟨0, (1 : Nat)⟩]).length = 0 ∧
    (Weak.clear (⟨[false], [⟨0, 1⟩]⟩ : Weak.WState Nat)).data.length = 0 ∧
    (Bin.remove (Bin.clear [⟨0, (1 : Nat)⟩]) 5).2.2 = none ∧
    (Weak.remove (Weak.clear (⟨[false], [⟨0, 1⟩]⟩ : Weak.WState Nat)) 5).2.2 = none :=
  C5_empty_and_oob [⟨0, (1 : Nat)⟩] (⟨[false], [⟨0, 1⟩]⟩ : Weak.WState Nat) 5
    (by decide) (by decide)

/-- C6: confirmed. `change_priority` returns the previously stored
priority in every branch, and changing to an equal priority leaves the
state exactly as it was, in both backends. -/
theorem C6_change_returns_old_noop (data : List (HeapEntry α)) (s : Weak.WState α)
    (p q : Nat) (u w : α) (hp : p < data.length) :
    (Bin.change_priority data p u).2.2 = (getE data p).priority ∧
    (Weak.change_priority s q w).2.2 = (getE s.data q).priority ∧
    (u = (getE data p).priority → (Bin.change_priority data p u).1 = data) ∧
    (w = (getE s.data q).priority → (Weak.change_priority s q w).1 = s) := by
  refine ⟨Bin.change_returns_old data p u, Weak.wchange_returns_old s q w, ?_, ?_⟩
  · intro heq
    rw [Bin.change_priority_equal data p u hp heq]
  · intro heq
    rw [Weak.wchange_equal s q heq]

theorem C6_witness :
    (Bin.change_priority [⟨0, (5 : Nat)⟩, ⟨1, 3⟩] 1 3).2.2 =
      (getE [⟨0, (5 : Nat)⟩, ⟨1, 3⟩] 1).priority ∧
    (Weak.change_priority (⟨[false, false], [⟨0, (5 : Nat)⟩, ⟨1, 3⟩]⟩ : Weak.WState Nat)
      1 3).2.2 = (getE ([⟨0, (5 : Nat)⟩, ⟨1, 3⟩] : List (HeapEntry Nat)) 1).priority ∧
    ((3 : Nat) = (getE [⟨0, (5 : Nat)⟩, ⟨1, 3⟩] 1).priority →
      (Bin.change_priority [⟨0, (5 : Nat)⟩, ⟨1, 3⟩] 1 3).1 = [⟨0, 5⟩, ⟨1, 3⟩]) ∧
    ((3 : Nat) = (getE ([⟨0, (5 : Nat)⟩, ⟨1, 3⟩] : List (HeapEntry Nat)) 1).priority →
      (Weak.change_priority (⟨[false, false], [⟨0, (5 : Nat)⟩, ⟨1, 3⟩]⟩ : Weak.WState Nat)
        1 3).1 = (⟨[false, false], [⟨0, 5⟩, ⟨1, 3⟩]⟩ : Weak.WState Nat)) :=
  C6_change_returns_old_noop [⟨0, (5 : Nat)⟩, ⟨1, 3⟩]
    (⟨[false, false], [⟨0, (5 : Nat)⟩, ⟨1, 3⟩]⟩ : Weak.WState Nat) 1 1 3 3 (by decide)

/-- C7: confirmed. Bulk build returns a heap whose contents are a
permutation of the input and which satisfies the backend's invariant, and
the binary heapify pass start bound `min(n/2+2, n)` covers every internal
node. -/
theorem C7_build_valid_perm (v : List (HeapEntry α)) :
    Bin.BInv (Bin.from_entries_vec v) ∧ (Bin.from_entries_vec v).Perm v ∧
    Weak.WF (Weak.from_entries_vec v) ∧ (Weak.from_entries_vec v).data.Perm v ∧
    (∀ i, 2 * i + 1 < v.length → i < Bin.heapify_start v.length) := by
  refine ⟨Bin.from_entries_vec_BInv v, Bin.from_entries_vec_perm v,
    (Weak.from_entries_vec_WF v).1, (Weak.from_entries_vec_WF v).2.2, ?_⟩
  intro i hi
  unfold Bin.heapify_start
  rw [Nat.lt_min]
  omega

/-- C8: confirmed. With two in-range children, the binary sift-down picks
the second (right) child exactly when the first child's priority is less
than or equal to the second's: ties go to the right child. -/
theorem C8_tie_break_second_child (data : List (HeapEntry α)) (position : Nat)
    (h2 : position * 2 + 2 < data.length) :
    (Bin.bin_max_child data position = position * 2 + 2 ↔
      (getE data (position * 2 + 1)).priority ≤
        (getE data (position * 2 + 2)).priority) ∧
    (Bin.bin_max_child data position = position * 2 + 1 ↔
      ¬ (getE data (position * 2 + 1)).priority ≤
        (getE data (position * 2 + 2)).priority) := by
  unfold Bin.bin_max_child
  by_cases hc : (getE data (position * 2 + 1)).priority ≤
      (getE data (position * 2 + 2)).priority
  · rw [if_pos ⟨h2, hc⟩]
    exact ⟨⟨fun _ => hc, fun _ => rfl⟩,
      ⟨fun hcon => absurd hcon (by omega), fun hcon => absurd hc hcon⟩⟩
  · rw [if_neg (fun hh => hc hh.2)]
    exact ⟨⟨fun hcon => absurd hcon (by omega), fun hcon => absurd hcon hc⟩,
      ⟨fun _ => hc, fun _ => rfl⟩⟩

theorem C8_witness :
    (Bin.bin_max_child [⟨0, (5 : Nat)⟩, ⟨1, 2⟩, ⟨2, 2⟩] 0 = 0 * 2 + 2 ↔
      (getE [⟨0, (5 : Nat)⟩, ⟨1, 2⟩, ⟨2, 2⟩] (0 * 2 + 1)).priority ≤
        (getE [⟨0, (5 : Nat)⟩, ⟨1, 2⟩, ⟨2, 2⟩] (0 * 2 + 2)).priority) ∧
    (Bin.bin_max_child [⟨0, (5 : Nat)⟩, ⟨1, 2⟩, ⟨2, 2⟩] 0 = 0 * 2 + 1 ↔
      ¬ (getE [⟨0, (5 : Nat)⟩, ⟨1, 2⟩, ⟨2, 2⟩] (0 * 2 + 1)).priority ≤
        (getE [⟨0, (5 : Nat)⟩, ⟨1, 2⟩, ⟨2, 2⟩] (0 * 2 + 2)).priority) :=
  C8_tie_break_second_child [⟨0, (5 : Nat)⟩, ⟨1, 2⟩, ⟨2, 2⟩] 0 (by decide)

/-- C9: confirmed. In the weak backend the side-bit table and the entry
table have equal lengths after every operation, and an in-range remove
shrinks both by exactly one. -/
theorem C9_sides_data_lockstep (s : Weak.WState α) (v : List (HeapEntry α))
    (o p c : Nat) (pr u : α) (hlen : s.sides.length = s.data.length) :
    (Weak.from_entries_vec v).sides.length = (Weak.from_entries_vec v).data.length ∧
    (Weak.push s o pr).1.sides.length = (Weak.push s o pr).1.data.length ∧
    (Weak.remove s p).1.sides.length = (Weak.remove s p).1.data.length ∧
    (p < s.data.length → (Weak.remove s p).1.data.length = s.data.length - 1) ∧
    (Weak.change_priority s p u).1.sides.length =
      (Weak.change_priority s p u).1.data.length ∧
    (Weak.change_outer_pos s c p).1.sides.length =
      (Weak.change_outer_pos s c p).1.data.length ∧
    (Weak.clear s).sides.length = (Weak.clear s).data.length := by
  refine ⟨(Weak.from_entries_vec_WF v).1.1, (Weak.wpush_len s o pr hlen).1,
    (Weak.wremove_len s p hlen).1, ?_, (Weak.wchange_len s p u hlen).1, ?_, rfl⟩
  · intro hp
    have := (Weak.wremove_len s p hlen).2
    rwa [if_pos hp] at this
  · unfold Weak.change_outer_pos
    simpa using hlen

theorem C9_witness :
    ((Weak.from_entries_vec [⟨0, (4 : Nat)⟩, ⟨1, 2⟩, ⟨2, 6⟩]).sides.length =
      (Weak.from_entries_vec [⟨0, (4 : Nat)⟩, ⟨1, 2⟩, ⟨2, 6⟩]).data.length ∧
    (Weak.push (⟨[false, false], [⟨0, (5 : Nat)⟩, ⟨1, 3⟩]⟩ : Weak.WState Nat)
      2 7).1.sides.length =
      (Weak.push (⟨[false, false], [⟨0, (5 : Nat)⟩, ⟨1, 3⟩]⟩ : Weak.WState Nat)
        2 7).1.data.length ∧
    (Weak.remove (⟨[false, false], [⟨0, (5 : Nat)⟩, ⟨1, 3⟩]⟩ : Weak.WState Nat)
      0).1.sides.length =
      (Weak.remove (⟨[false, false], [⟨0, (5 : Nat)⟩, ⟨1, 3⟩]⟩ : Weak.WState Nat)
        0).1.data.length ∧
    (0 < (⟨[false, false], [⟨0, (5 : Nat)⟩, ⟨1, 3⟩]⟩ : Weak.WState Nat).data.length →
      (Weak.remove (⟨[false, false], [⟨0, (5 : Nat)⟩, ⟨1, 3⟩]⟩ : Weak.WState Nat)
        0).1.data.length =
        (⟨[false, false], [⟨0, (5 : Nat)⟩, ⟨1, 3⟩]⟩ : Weak.WState Nat).data.length - 1) ∧
    (Weak.change_priority (⟨[false, false], [⟨0, (5 : Nat)⟩, ⟨1, 3⟩]⟩ : Weak.WState Nat)
      0 9).1.sides.length =
      (Weak.change_priority (⟨[false, false], [⟨0, (5 : Nat)⟩, ⟨1, 3⟩]⟩ : Weak.WState Nat)
        0 9).1.data.length ∧
    (Weak.change_outer_pos (⟨[false, false], [⟨0, (5 : Nat)⟩, ⟨1, 3⟩]⟩ : Weak.WState Nat)
      4 0).1.sides.length =
      (Weak.change_outer_pos (⟨[false, false], [⟨0, (5 : Nat)⟩, ⟨1, 3⟩]⟩ : Weak.WState Nat)
        4 0).1.data.length ∧
    (Weak.clear (⟨[false, false], [⟨0, (5 : Nat)⟩, ⟨1, 3⟩]⟩ : Weak.WState Nat)).sides.length =
      (Weak.clear (⟨[false, false], [⟨0, (5 : Nat)⟩, ⟨1, 3⟩]⟩ :
        Weak.WState Nat)).data.length) :=
  C9_sides_data_lockstep (⟨[false, false], [⟨0, (5 : Nat)⟩, ⟨1, 3⟩]⟩ : Weak.WState Nat)
    [⟨0, (4 : Nat)⟩, ⟨1, 2⟩, ⟨2, 6⟩] 2 0 4 7 9 rfl

/-- C10: confirmed. `remove` at any out-of-range position returns `None`,
leaves the state untouched, and fires no handler call, in both backends. -/
theorem C10_remove_oob_none (data : List (HeapEntry α)) (s : Weak.WState α) (p q : Nat)
    (hb : p ≥ data.length) (hw : q ≥ s.data.length) :
    Bin.remove data p = (data, [], none) ∧ Weak.remove s q = (s, [], none) :=
  ⟨Bin.remove_events_oob data p hb, Weak.wremove_oob s q hw⟩

theorem C10_witness :
    Bin.remove [⟨0, (5 : Nat)⟩, ⟨1, 3⟩] 2 = ([⟨0, 5⟩, ⟨1, 3⟩], [], none) ∧
    Weak.remove (⟨[false, false], [⟨0, (5 : Nat)⟩, ⟨1, 3⟩]⟩ : Weak.WState Nat) 7 =
      ((⟨[false, false], [⟨0, 5⟩, ⟨1, 3⟩]⟩ : Weak.WState Nat), [], none) :=
  C10_remove_oob_none [⟨0, (5 : Nat)⟩, ⟨1, 3⟩]
    (⟨[false, false], [⟨0, (5 : Nat)⟩, ⟨1, 3⟩]⟩ : Weak.WState Nat) 2 7
    (by decide) (by decide)

end Claims
